import Mathlib

/-!
# Blue Robotics T500 thruster task: command to PWM translation

Shallow embedding of `tasks/Task.cpp` (`loadCommandToPWMTable`,
`Task::computePWMCommand`, `Task::updateHook`) and the properties of the
specification that were checked against it.

Conventions of the embedding

* `float` is IEEE-754 binary32 with round-to-nearest, ties-to-even.  A value is
  `nan`, an infinity, or a finite rational; the two zeros are identified (the
  code never divides by a value whose zero sign could matter: a zero
  denominator `x1 - x0` only meets a NaN numerator).
* Undefined behaviour of the C++ (front/back of an empty vector, an index past
  the end, a float to unsigned conversion out of range) is an explicit
  `Except.error` carrying the kind of fault.
-/

namespace T500

/-! ## binary32 -/

/-- Round to the nearest integer, ties to the even one. -/
def rne (q : ℚ) : ℤ :=
  let f := ⌊q⌋
  let r := q - f
  if r < 1 / 2 then f
  else if 1 / 2 < r then f + 1
  else if f % 2 = 0 then f else f + 1

/-- Exponent of the unit in the last place of `q` in a binary format with
`prec` significand bits whose smallest subnormal is `2 ^ emin`. -/
def ulpExp (prec : ℕ) (emin : ℤ) (q : ℚ) : ℤ :=
  max (Int.log 2 |q| - (prec - 1)) emin

/-- Round-to-nearest-even of a rational on the grid of a binary format,
exponent unbounded above (overflow is decided by the caller). -/
def roundNE (prec : ℕ) (emin : ℤ) (q : ℚ) : ℚ :=
  rne (q / (2 : ℚ) ^ ulpExp prec emin q) * (2 : ℚ) ^ ulpExp prec emin q

/-- A value of the C++ type `float`. -/
inductive F32 where
  | nan : F32
  | inf (neg : Bool) : F32
  | fin (v : ℚ) : F32
deriving DecidableEq

namespace F32

/-- Result of an arithmetic operation whose exact value is `q`: rounded to
binary32, overflowing to an infinity from `2 ^ 128` on. -/
def ofRat (q : ℚ) : F32 :=
  let v := roundNE 24 (-149) q
  if (2 : ℚ) ^ 128 ≤ |v| then inf (decide (v < 0)) else fin v

/-- Conversion of an integer to `float`. -/
def ofInt (n : ℤ) : F32 := ofRat n

/-- A value of type `double` (same carrier) whose exact value is `q`: rounded
to binary64, overflowing to an infinity from `2 ^ 1024` on. -/
def doubleOfRat (q : ℚ) : F32 :=
  let v := roundNE 53 (-1074) q
  if (2 : ℚ) ^ 1024 ≤ |v| then inf (decide (v < 0)) else fin v

/-- Conversion of a `double` to `float`. -/
def doubleToFloat : F32 → F32
  | fin v => ofRat v
  | x => x

/-- The finite value is one of the binary32 numbers. -/
def IsRepr : F32 → Prop
  | fin v => ofRat v = fin v
  | _ => True

instance (x : F32) : Decidable (IsRepr x) := by
  cases x <;> unfold IsRepr <;> infer_instance

/-- IEEE `==`. -/
def feq : F32 → F32 → Bool
  | fin a, fin b => decide (a = b)
  | inf n, inf m => n == m
  | _, _ => false

/-- IEEE `<=`. -/
def le : F32 → F32 → Bool
  | fin a, fin b => decide (a ≤ b)
  | fin _, inf m => !m
  | inf n, fin _ => n
  | inf n, inf m => n || !m
  | _, _ => false

/-- IEEE `<`. -/
def lt : F32 → F32 → Bool
  | fin a, fin b => decide (a < b)
  | fin _, inf m => !m
  | inf n, fin _ => n
  | inf n, inf m => n && !m
  | _, _ => false

/-- IEEE `>=`. -/
def ge (a b : F32) : Bool := le b a

/-- IEEE `>`. -/
def gt (a b : F32) : Bool := lt b a

/-- IEEE negation. -/
def neg : F32 → F32
  | nan => nan
  | inf n => inf (!n)
  | fin a => fin (-a)

/-- IEEE addition. -/
def add : F32 → F32 → F32
  | fin a, fin b => ofRat (a + b)
  | fin _, inf m => inf m
  | inf n, fin _ => inf n
  | inf n, inf m => if n = m then inf n else nan
  | _, _ => nan

/-- IEEE subtraction. -/
def sub (a b : F32) : F32 := add a (neg b)

/-- IEEE multiplication. -/
def mul : F32 → F32 → F32
  | fin a, fin b => ofRat (a * b)
  | fin a, inf m => if a = 0 then nan else inf (xor (decide (a < 0)) m)
  | inf n, fin b => if b = 0 then nan else inf (xor n (decide (b < 0)))
  | inf n, inf m => inf (xor n m)
  | _, _ => nan

/-- IEEE division (a zero divisor is taken as `+0`). -/
def div : F32 → F32 → F32
  | fin a, fin b =>
    if b = 0 then (if a = 0 then nan else inf (decide (a < 0))) else ofRat (a / b)
  | fin _, inf _ => fin 0
  | inf n, fin b => inf (xor n (decide (b < 0)))
  | inf _, inf _ => nan
  | _, _ => nan

/-- Nearest integer, ties away from zero (`std::round` on a rational). -/
def roundHalfAway (v : ℚ) : ℤ :=
  if 0 ≤ v then ⌊v + 1 / 2⌋ else -⌊-v + 1 / 2⌋

/-- Function `std::round(float)`. -/
def round : F32 → F32
  | fin v => fin (roundHalfAway v)
  | x => x

end F32

/-! ## The lookup table and the interpolation -/

/-- Undefined behaviour reached by the C++ code. -/
inductive UB where
  | emptyFront
  | emptyBack
  | indexOutOfRange
  | floatToUInt32
deriving DecidableEq

/-- Modelled from the spec: the declaration of `PWMTable` (the types header)
is not among the sources.  Two parallel vectors, `cmd` of `float` and
`duty_cycle_width` of integers (spec, data model: "command values (floating
point)", "duty-cycle widths (integer)"); nothing ties their lengths. -/
structure PWMTable where
  cmd : List F32
  duty_cycle_width : List ℤ
deriving DecidableEq

/-- Number of rows when both vectors have that many elements. -/
def PWMTable.HasRows (lut : PWMTable) (n : ℕ) : Prop :=
  lut.cmd.length = n ∧ lut.duty_cycle_width.length = n

instance (lut : PWMTable) (n : ℕ) : Decidable (lut.HasRows n) := by
  unfold PWMTable.HasRows; infer_instance

/-- Conversion of an integer to the result type `uint32_t`. -/
def toUInt32 (v : ℤ) : ℕ := (v % 2 ^ 32).toNat

/-- Conversion of a `float` to `uint32_t`: truncation, undefined when the
truncated value is not a `uint32_t`. -/
def floatToUInt32 : F32 → Except UB ℕ
  | F32.fin v => if -1 < v ∧ v < 2 ^ 32 then .ok ⌊v⌋.toNat else .error .floatToUInt32
  | _ => .error .floatToUInt32

/-- Modelled from the spec: the element type of `duty_cycle_width` is declared
in a header that is not among the sources (the spec only says "integer").  The
difference `y1 - y0` is the integer difference for a signed element type and
is reduced modulo `2 ^ 32` for `uint32_t` elements (`wraps = true`).  For a
signed 32-bit element type the integer difference is the value of the source
expression only while it fits the type (beyond that the subtraction
overflows); the theorems about interpolated values keep the duty values in
`0 .. 2 ^ 21`, where both readings agree. -/
def dutyDiff (wraps : Bool) (y1 y0 : ℤ) : ℤ :=
  if wraps then (y1 - y0) % 2 ^ 32 else y1 - y0

/-- Method `front()` of a vector. -/
def front {α : Type} : List α → Except UB α
  | [] => .error .emptyFront
  | x :: _ => .ok x

/-- Method `back()` of a vector. -/
def back {α : Type} (l : List α) : Except UB α :=
  match l.getLast? with
  | none => .error .emptyBack
  | some x => .ok x

/-- Unchecked `operator[]` of a vector. -/
def index {α : Type} (l : List α) (i : ℕ) : Except UB α :=
  match l.get? i with
  | none => .error .indexOutOfRange
  | some x => .ok x

/-- The loop `for (; command > lut.cmd[i]; i++);` started at index `i` on the
elements `lut.cmd[i], lut.cmd[i+1], ...`: the index at which it stops. -/
def scan (command : F32) : List F32 → ℕ → Except UB ℕ
  | [], _ => .error .indexOutOfRange
  | x :: rest, i => if F32.gt command x then scan command rest (i + 1) else .ok i

/-- The expression `y0 + (y1 - y0) * (command - x0) / (x1 - x0)` stored in
`const float out`. -/
def interpolate (wraps : Bool) (x0 x1 : F32) (y0 y1 : ℤ) (command : F32) : F32 :=
  F32.add (F32.ofInt y0)
    (F32.div (F32.mul (F32.ofInt (dutyDiff wraps y1 y0)) (F32.sub command x0))
      (F32.sub x1 x0))

/-- Method `Task::computePWMCommand`; `lut` is `m_cmd_to_pwm_lut` and
`noActuation` is the `uint32_t` value returned for
`m_no_actuation_pwm_command` (declared in `Task.hpp`, not among the sources;
this return is its only use). -/
def computePWMCommand (wraps : Bool) (lut : PWMTable) (noActuation : ℕ)
    (command : F32) : Except UB ℕ :=
  if F32.feq command (F32.fin 0) then .ok noActuation
  else do
    let c0 ← front lut.cmd
    if F32.le command c0 then
      let d0 ← front lut.duty_cycle_width
      pure (toUInt32 d0)
    else
      let cn ← back lut.cmd
      if F32.ge command cn then
        let dn ← back lut.duty_cycle_width
        pure (toUInt32 dn)
      else
        let i ← scan command (lut.cmd.drop 1) 1
        let x0 ← index lut.cmd (i - 1)
        let x1 ← index lut.cmd i
        let y0 ← index lut.duty_cycle_width (i - 1)
        let y1 ← index lut.duty_cycle_width i
        floatToUInt32 (F32.round (interpolate wraps x0 x1 y0 y1 command))

/-! ## The update hook -/

/-- Result of `_cmd_in.read(cmd_in)` (`RTT::FlowStatus`). -/
inductive FlowStatus where
  | NoData
  | OldData
  | NewData
deriving DecidableEq

/-- Modelled from the spec: `base::JointState` belongs to a library that is not
among the sources.  A record carries a mode tag, the value of `getMode()`
(an enumeration, here its integer value), and a scalar effort, the value of
`getField(base::JointState::EFFORT)`. -/
structure JointState where
  mode : ℕ
  effort : F32
deriving DecidableEq

/-- The members of `Task` read by `updateHook`. -/
structure Task where
  m_no_actuation_pwm_command : ℕ
  m_cmd_in_mode : ℕ
  m_cmd_to_pwm_lut : PWMTable

/-- What one run of `updateHook` does to its environment: nothing, the call
`exception(INVALID_COMMAND_MODE)`, or one `_cmd_out.write(output)` with the
given `output.duty_cycles` (the timestamp, read from the clock, is left out). -/
inductive Cycle where
  | nothing
  | INVALID_COMMAND_MODE
  | write (duty_cycles : List ℕ)
deriving DecidableEq

/-- The second loop of `updateHook`: one `push_back(computePWMCommand(effort))`
per element of `cmd_in.elements`. -/
def dutyCycles (wraps : Bool) (task : Task) : List JointState → Except UB (List ℕ)
  | [] => .ok []
  | command :: rest => do
    let v ← computePWMCommand wraps task.m_cmd_to_pwm_lut task.m_no_actuation_pwm_command
      command.effort
    let vs ← dutyCycles wraps task rest
    pure (v :: vs)

/-- Method `Task::updateHook`; `status` and `cmd_in` are what
`_cmd_in.read(cmd_in)` returned and stored. -/
def updateHook (wraps : Bool) (task : Task) (status : FlowStatus)
    (cmd_in : List JointState) : Except UB Cycle :=
  if status ≠ FlowStatus.NewData then .ok Cycle.nothing
  else if cmd_in.any (fun command => command.mode ≠ task.m_cmd_in_mode) then
    .ok Cycle.INVALID_COMMAND_MODE
  else do
    let duty_cycles ← dutyCycles wraps task cmd_in
    pure (Cycle.write duty_cycles)

/-! ## The table loader -/

/-- Value `std::string::npos` (`size_t` of 64 bits). -/
def npos : ℕ := 2 ^ 64 - 1

/-- Call `row.find(x)`: index of the first `x`, `npos` when there is none. -/
def find (row : List Char) (x : Char) : ℕ :=
  if x ∈ row then row.indexOf x else npos

/-- Call `row.substr(pos, count)` for `pos` within the string. -/
def substr (row : List Char) (pos count : ℕ) : List Char :=
  (row.drop pos).take count

/-- The rows that successive `std::getline(csv_file, row)` calls deliver on a
stream holding `text`; `acc` is the row being read, last character first. -/
def getlines : List Char → List Char → List (List Char)
  | [], [] => []
  | [], acc => [acc.reverse]
  | c :: rest, acc =>
    if c = '\n' then acc.reverse :: getlines rest [] else getlines rest (c :: acc)

/-- Conversion applied by `duty_cycle_width.push_back(int)`: none for a signed
element type, reduction modulo `2 ^ 32` for `uint32_t` elements. -/
def storeDuty (wraps : Bool) (v : ℤ) : ℤ :=
  if wraps then v % 2 ^ 32 else v

/-- Failure of `loadCommandToPWMTable`. -/
inductive LoadError where
  | couldNotOpen
deriving DecidableEq

/-- The row loop of `loadCommandToPWMTable`. -/
def loadRows (atof : List Char → F32) (atoi : List Char → ℤ) (wraps : Bool) :
    List (List Char) → PWMTable → PWMTable
  | [], table => table
  | row :: rest, table =>
    let comma_i := find row ','
    loadRows atof atoi wraps rest
      { cmd := table.cmd ++ [F32.doubleToFloat (atof (substr row 0 comma_i))]
        duty_cycle_width := table.duty_cycle_width ++
          [storeDuty wraps (atoi (substr row ((comma_i + 1) % 2 ^ 64) npos))] }

/-- Function `loadCommandToPWMTable`.  The file is its content, `none` when it
cannot be opened; `atof` (returning a `double`) and `atoi` are the C library
functions. -/
def loadCommandToPWMTable (atof : List Char → F32) (atoi : List Char → ℤ) (wraps : Bool)
    (csv_file : Option (List Char)) : Except LoadError PWMTable :=
  match csv_file with
  | none => .error .couldNotOpen
  | some text => .ok (loadRows atof atoi wraps (getlines text []) { cmd := [], duty_cycle_width := [] })

/-! ### The C library parsers on decimal text -/

/-- Function `isspace` in the "C" locale. -/
def isspace (c : Char) : Bool :=
  c = ' ' || c = '\t' || c = '\n' || c = '\x0b' || c = '\x0c' || c = '\r'

/-- Value of a decimal digit. -/
def digit? (c : Char) : Option ℕ :=
  if '0' ≤ c ∧ c ≤ '9' then some (c.toNat - '0'.toNat) else none

/-- Reads the longest run of decimal digits: its value continued from `acc`,
the number of digits read, and the rest of the text. -/
def digits : List Char → ℕ → ℕ → ℕ × ℕ × List Char
  | [], acc, k => (acc, k, [])
  | c :: rest, acc, k =>
    match digit? c with
    | some d => digits rest (10 * acc + d) (k + 1)
    | none => (acc, k, c :: rest)

/-- Reads an optional sign: whether it is a minus, and the rest. -/
def sign : List Char → Bool × List Char
  | '-' :: rest => (true, rest)
  | '+' :: rest => (false, rest)
  | s => (false, s)

/-- Function `std::atoi` on a text whose value fits an `int` (the C standard
leaves the other texts undefined): leading white space, an optional sign, the
longest run of digits; `0` when there is no digit. -/
def atoi (s : List Char) : ℤ :=
  let (minus, s1) := sign (s.dropWhile isspace)
  let (v, _, _) := digits s1 0 0
  if minus then -(v : ℤ) else v

/-- Exponent part `e[sign]digits` of a decimal floating literal; `0` when the
text does not continue with one. -/
def exponent : List Char → ℤ
  | c :: rest =>
    if c = 'e' ∨ c = 'E' then
      let (minus, s1) := sign rest
      let (v, k, _) := digits s1 0 0
      if k = 0 then 0 else if minus then -(v : ℤ) else v
    else 0
  | [] => 0

/-- The decimal floating literal that `strtod` reads at the start of a text in
the "C" locale: leading white space, an optional sign, digits with an optional
point, an optional exponent.  The result is the sign, the digits read as one
integer and the power of ten that scales it; `none` when there is no digit. -/
def decimal (s : List Char) : Option (Bool × ℕ × ℤ) :=
  let (minus, s1) := sign (s.dropWhile isspace)
  let (ip, ki, s2) := digits s1 0 0
  let (fp, kf, s3) :=
    match s2 with
    | '.' :: s2r => digits s2r ip 0
    | _ => (ip, 0, s2)
  if ki + kf = 0 then none else some (minus, fp, exponent s3 - (kf : ℤ))

/-- Function `std::atof` on decimal text: the nearest `double` of the value
read, `0.0` when there is no digit.  The hexadecimal, `inf` and `nan`
spellings that `strtod` also accepts are not covered. -/
def atof (s : List Char) : F32 :=
  match decimal s with
  | none => F32.fin 0
  | some (minus, m, e) =>
    F32.doubleOfRat (if minus then -((m : ℚ) * (10 : ℚ) ^ e) else (m : ℚ) * (10 : ℚ) ^ e)

/-- A finite binary32 number of magnitude at most `2 ^ 100`. -/
def F32.Moderate : F32 → Prop
  | F32.fin v => F32.ofRat v = F32.fin v ∧ |v| ≤ 2 ^ 100
  | _ => False

instance (x : F32) : Decidable (F32.Moderate x) := by
  cases x <;> unfold F32.Moderate <;> infer_instance

/-- Element `cmd[i]` of a table (`nan` past the end). -/
def PWMTable.cmdAt (lut : PWMTable) (i : ℕ) : F32 := lut.cmd.getD i F32.nan

/-- Element `duty[i]` of a table (`0` past the end). -/
def PWMTable.dutyAt (lut : PWMTable) (i : ℕ) : ℤ := lut.duty_cycle_width.getD i 0

/-- The `cmd` sequence is non-decreasing. -/
def PWMTable.NonDecreasing (lut : PWMTable) : Prop :=
  lut.cmd.Chain' (fun a b => F32.le a b = true)

instance (lut : PWMTable) : Decidable lut.NonDecreasing := by
  unfold PWMTable.NonDecreasing; infer_instance

/-- The `cmd` sequence is strictly increasing. -/
def PWMTable.StrictlyIncreasing (lut : PWMTable) : Prop :=
  lut.cmd.Pairwise (fun a b => F32.lt a b = true)

instance (lut : PWMTable) : Decidable lut.StrictlyIncreasing := by
  unfold PWMTable.StrictlyIncreasing; infer_instance

/-- The interpolation formula of the specification, evaluated exactly:
`y0 + (y1 - y0) * (command - x0) / (x1 - x0)` over the rationals. -/
def exactInterpolation (x0 x1 : ℚ) (y0 y1 : ℤ) (command : ℚ) : ℚ :=
  y0 + ((y1 : ℚ) - y0) * (command - x0) / (x1 - x0)

/-- Value of `interpolate` on finite arguments when no operation overflows:
each of the five operations rounded to binary32. -/
def interpValue (x0 x1 : ℚ) (y0 y1 : ℤ) (command : ℚ) : ℚ :=
  roundNE 24 (-149) (y0 + roundNE 24 (-149)
    (roundNE 24 (-149) (((y1 - y0 : ℤ) : ℚ) * roundNE 24 (-149) (command - x0)) /
      roundNE 24 (-149) (x1 - x0)))

/-! ## Lemmas on the branches of `computePWMCommand` and on the update hook -/

open F32

theorem front_eq_cmdAt (lut : PWMTable) (n : ℕ) (h : lut.HasRows n) (hn : 0 < n) :
    front lut.cmd = .ok (lut.cmdAt 0) ∧ front lut.duty_cycle_width = .ok (lut.dutyAt 0) := by
  obtain ⟨h1, h2⟩ := h
  rcases lut with ⟨c, d⟩
  cases c with
  | nil => simp at h1; omega
  | cons c0 cs =>
    cases d with
    | nil => simp at h2; omega
    | cons d0 ds => simp [front, PWMTable.cmdAt, PWMTable.dutyAt]

theorem back_eq_getD {α : Type} (l : List α) (n : ℕ) (h : l.length = n) (hn : 0 < n) (d : α) :
    back l = .ok (l.getD (n - 1) d) := by
  unfold back
  have hne : l ≠ [] := by
    intro h0; subst h0; simp at h; omega
  rw [List.getLast?_eq_getLast _ hne]
  simp only
  rw [List.getLast_eq_getElem]
  subst h
  simp [List.getD_eq_getElem?_getD]
  rw [List.getElem?_eq_getElem (by omega)]
  simp

theorem back_eq_cmdAt (lut : PWMTable) (n : ℕ) (h : lut.HasRows n) (hn : 0 < n) :
    back lut.cmd = .ok (lut.cmdAt (n - 1)) ∧
      back lut.duty_cycle_width = .ok (lut.dutyAt (n - 1)) :=
  ⟨back_eq_getD _ n h.1 hn _, back_eq_getD _ n h.2 hn _⟩

theorem compute_zero (wraps : Bool) (lut : PWMTable) (W : ℕ) :
    computePWMCommand wraps lut W (fin 0) = .ok W := by
  simp [computePWMCommand, feq]

theorem compute_low (wraps : Bool) (lut : PWMTable) (W n : ℕ) (c : F32)
    (h : lut.HasRows n) (hn : 0 < n) (hz : feq c (fin 0) = false)
    (hle : le c (lut.cmdAt 0) = true) :
    computePWMCommand wraps lut W c = .ok (toUInt32 (lut.dutyAt 0)) := by
  obtain ⟨hf, hd⟩ := front_eq_cmdAt lut n h hn
  simp [computePWMCommand, hz, hf, hd, hle, bind, Except.bind, pure, Except.pure]

theorem compute_high (wraps : Bool) (lut : PWMTable) (W n : ℕ) (c : F32)
    (h : lut.HasRows n) (hn : 0 < n) (hz : feq c (fin 0) = false)
    (hle : le c (lut.cmdAt 0) = false) (hge : ge c (lut.cmdAt (n - 1)) = true) :
    computePWMCommand wraps lut W c = .ok (toUInt32 (lut.dutyAt (n - 1))) := by
  obtain ⟨hf, _⟩ := front_eq_cmdAt lut n h hn
  obtain ⟨hb, hbd⟩ := back_eq_cmdAt lut n h hn
  simp [computePWMCommand, hz, hf, hb, hbd, hle, hge, bind, Except.bind, pure, Except.pure]

theorem compute_interp (wraps : Bool) (lut : PWMTable) (W n : ℕ) (c : F32)
    (h : lut.HasRows n) (hn : 0 < n) (hz : feq c (fin 0) = false)
    (hle : le c (lut.cmdAt 0) = false) (hge : ge c (lut.cmdAt (n - 1)) = false) :
    computePWMCommand wraps lut W c =
      (scan c (lut.cmd.drop 1) 1).bind (fun i =>
        (index lut.cmd (i - 1)).bind (fun x0 =>
        (index lut.cmd i).bind (fun x1 =>
        (index lut.duty_cycle_width (i - 1)).bind (fun y0 =>
        (index lut.duty_cycle_width i).bind (fun y1 =>
          floatToUInt32 (F32.round (interpolate wraps x0 x1 y0 y1 c))))))) := by
  obtain ⟨hf, _⟩ := front_eq_cmdAt lut n h hn
  obtain ⟨hb, hbd⟩ := back_eq_cmdAt lut n h hn
  simp [computePWMCommand, hz, hf, hb, hle, hge, bind, Except.bind, pure, Except.pure]

theorem le_total_of_ne_nan (a b : F32) (ha : a ≠ nan) (hb : b ≠ nan) :
    le a b = true ∨ le b a = true := by
  cases a with
  | nan => exact absurd rfl ha
  | inf n =>
    cases b with
    | nan => exact absurd rfl hb
    | inf m => cases n <;> cases m <;> simp [le]
    | fin y => cases n <;> simp [le]
  | fin x =>
    cases b with
    | nan => exact absurd rfl hb
    | inf m => cases m <;> simp [le]
    | fin y => simp [le]; exact le_total x y

theorem dutyCycles_ok_iff (wraps : Bool) (task : Task) (cmd_in : List JointState)
    (ds : List ℕ) :
    dutyCycles wraps task cmd_in = .ok ds ↔
      List.Forall₂ (fun r v => computePWMCommand wraps task.m_cmd_to_pwm_lut
        task.m_no_actuation_pwm_command r.effort = .ok v) cmd_in ds := by
  induction cmd_in generalizing ds with
  | nil =>
    cases ds with
    | nil => simp [dutyCycles]
    | cons d ds => simp [dutyCycles]
  | cons r rs ih =>
    cases hv : computePWMCommand wraps task.m_cmd_to_pwm_lut
        task.m_no_actuation_pwm_command r.effort with
    | error e =>
      simp only [dutyCycles, hv, bind, Except.bind]
      constructor
      · intro h; cases h
      · intro h
        cases h with
        | cons h1 _ => rw [hv] at h1; cases h1
    | ok v =>
      cases hvs : dutyCycles wraps task rs with
      | error e =>
        simp only [dutyCycles, hv, hvs, bind, Except.bind]
        constructor
        · intro h; cases h
        · intro h
          cases h with
          | cons h1 h2 =>
            rw [← ih] at h2
            rw [hvs] at h2; cases h2
      | ok vs =>
        simp only [dutyCycles, hv, hvs, bind, Except.bind, pure, Except.pure]
        constructor
        · intro h
          injection h with h
          subst h
          exact List.Forall₂.cons hv ((ih vs).1 hvs)
        · intro h
          cases h with
          | cons h1 h2 =>
            rw [hv] at h1
            injection h1 with h1
            subst h1
            have := (ih _).2 h2
            rw [hvs] at this
            injection this with this
            subst this
            rfl

theorem forall₂_iff_index {α β : Type} (R : α → β → Prop) (l : List α) (m : List β) :
    List.Forall₂ R l m ↔
      m.length = l.length ∧ ∀ (k : ℕ) (a : α), l[k]? = some a → ∃ b, m[k]? = some b ∧ R a b := by
  induction l generalizing m with
  | nil =>
    cases m with
    | nil => simp
    | cons b m => simp
  | cons a l ih =>
    cases m with
    | nil => simp
    | cons b m =>
      rw [List.forall₂_cons, ih]
      constructor
      · rintro ⟨hab, hlen, hk⟩
        refine ⟨by simp [hlen], ?_⟩
        intro k a2 hka
        cases k with
        | zero =>
          simp at hka
          subst hka
          exact ⟨b, by simp, hab⟩
        | succ k =>
          simp at hka
          simpa using hk k a2 hka
      · rintro ⟨hlen, hk⟩
        refine ⟨?_, by simpa using hlen, ?_⟩
        · obtain ⟨b2, hb2, hR⟩ := hk 0 a (by simp)
          simp at hb2
          subst hb2
          exact hR
        · intro k a2 hka
          simpa using hk (k + 1) a2 (by simpa using hka)

/-! ## Lemmas on rounding -/

theorem rne_intCast (n : ℤ) : rne (n : ℚ) = n := by
  simp [rne]

theorem rne_floor_le (q : ℚ) : ⌊q⌋ ≤ rne q ∧ rne q ≤ ⌊q⌋ + 1 := by
  unfold rne
  simp only
  split_ifs <;> constructor <;> omega

theorem rne_error (q : ℚ) : |(rne q : ℚ) - q| ≤ 1 / 2 := by
  have h1 : (⌊q⌋ : ℚ) ≤ q := Int.floor_le q
  have h2 : q < ⌊q⌋ + 1 := Int.lt_floor_add_one q
  unfold rne
  simp only
  rw [abs_le]
  split_ifs with ha hb hc <;> push_cast <;> constructor <;> linarith

theorem rne_mono {a b : ℚ} (h : a ≤ b) : rne a ≤ rne b := by
  have hf : ⌊a⌋ ≤ ⌊b⌋ := Int.floor_mono h
  rcases hf.lt_or_eq with hlt | heq
  · have h1 := (rne_floor_le a).2
    have h2 := (rne_floor_le b).1
    omega
  · unfold rne
    simp only
    rw [heq]
    have hr : a - ⌊b⌋ ≤ b - ⌊b⌋ := by linarith
    split_ifs <;> first | omega | (exfalso; linarith)

theorem rne_neg (q : ℚ) : rne (-q) = -rne q := by
  by_cases hq : (⌊q⌋ : ℚ) = q
  · rw [← hq, ← Int.cast_neg, rne_intCast, rne_intCast]
  · have h1 : (⌊q⌋ : ℚ) < q := lt_of_le_of_ne (Int.floor_le q) hq
    have h2 : q < ⌊q⌋ + 1 := Int.lt_floor_add_one q
    have hfl : ⌊-q⌋ = -⌊q⌋ - 1 := by
      rw [Int.floor_eq_iff]
      push_cast
      constructor <;> linarith
    unfold rne
    simp only
    rw [hfl]
    push_cast
    split_ifs <;> first | omega | (exfalso; linarith)

theorem two_zpow_pos (e : ℤ) : (0 : ℚ) < (2 : ℚ) ^ e := by positivity

theorem log_abs_lt_of_lt {q : ℚ} (hq : q ≠ 0) {x : ℤ} (h : |q| < (2 : ℚ) ^ x) :
    Int.log 2 |q| < x := by
  have h0 : (0 : ℚ) < |q| := abs_pos.mpr hq
  have : |q| < ((2 : ℕ) : ℚ) ^ x := by simpa using h
  exact (Int.lt_zpow_iff_log_lt (by norm_num) h0).1 this

theorem roundNE_zero (prec : ℕ) (emin : ℤ) : roundNE prec emin 0 = 0 := by
  simp [roundNE, rne]

theorem roundNE_int_mul (prec : ℕ) (emin m e : ℤ) (hm : |m| < 2 ^ prec) (he : emin ≤ e) :
    roundNE prec emin (m * (2 : ℚ) ^ e) = m * (2 : ℚ) ^ e := by
  by_cases hm0 : m = 0
  · subst hm0; simp [roundNE_zero]
  · set q : ℚ := m * (2 : ℚ) ^ e with hq
    have hq0 : q ≠ 0 := by
      rw [hq]; exact mul_ne_zero (by exact_mod_cast hm0) (ne_of_gt (two_zpow_pos e))
    have habs : |q| < (2 : ℚ) ^ ((prec : ℤ) + e) := by
      rw [hq, abs_mul, abs_of_pos (two_zpow_pos e), zpow_add₀ (by norm_num : (2 : ℚ) ≠ 0)]
      apply mul_lt_mul_of_pos_right _ (two_zpow_pos e)
      have : ((|m| : ℤ) : ℚ) < ((2 ^ prec : ℤ) : ℚ) := by exact_mod_cast hm
      simpa using this
    have hlog := log_abs_lt_of_lt hq0 habs
    have hu : ulpExp prec emin q ≤ e := by
      unfold ulpExp
      apply max_le _ he
      omega
    obtain ⟨k, hk⟩ : ∃ k : ℕ, e - ulpExp prec emin q = k := ⟨(e - ulpExp prec emin q).toNat, by omega⟩
    have hdiv : q / (2 : ℚ) ^ ulpExp prec emin q = ((m * 2 ^ k : ℤ) : ℚ) := by
      rw [div_eq_iff (ne_of_gt (two_zpow_pos _))]
      push_cast
      rw [mul_assoc, ← zpow_natCast, ← zpow_add₀ (by norm_num : (2 : ℚ) ≠ 0), ← hk]
      rw [hq]; congr 2; ring
    unfold roundNE
    rw [hdiv, rne_intCast, ← hdiv]
    field_simp

theorem ofRat_int_mul (m e : ℤ) (hm : |m| < 2 ^ 24) (he : -149 ≤ e) (he2 : e ≤ 104) :
    F32.ofRat (m * (2 : ℚ) ^ e) = fin (m * (2 : ℚ) ^ e) := by
  unfold F32.ofRat
  simp only
  rw [roundNE_int_mul 24 (-149) m e hm he]
  rw [if_neg]
  rw [not_le, abs_mul, abs_of_pos (two_zpow_pos e)]
  have h1 : |(m : ℚ)| < (2 : ℚ) ^ (24 : ℤ) := by
    have : ((|m| : ℤ) : ℚ) < ((2 ^ 24 : ℤ) : ℚ) := by exact_mod_cast hm
    rw [Int.cast_abs] at this
    norm_num at this ⊢
    exact this
  have h2 : (2 : ℚ) ^ e ≤ (2 : ℚ) ^ (104 : ℤ) := zpow_le_zpow_right₀ (by norm_num) he2
  calc |(m : ℚ)| * (2 : ℚ) ^ e ≤ |(m : ℚ)| * (2 : ℚ) ^ (104 : ℤ) :=
        mul_le_mul_of_nonneg_left h2 (abs_nonneg _)
    _ < (2 : ℚ) ^ (24 : ℤ) * (2 : ℚ) ^ (104 : ℤ) :=
        mul_lt_mul_of_pos_right h1 (two_zpow_pos _)
    _ = (2 : ℚ) ^ 128 := by norm_num

theorem ofRat_intCast (n : ℤ) (hn : |n| < 2 ^ 24) : F32.ofRat (n : ℚ) = fin n := by
  have := ofRat_int_mul n 0 hn (by norm_num) (by norm_num)
  simpa using this

theorem doubleOfRat_intCast (n : ℤ) (hn : |n| < 2 ^ 53) : F32.doubleOfRat (n : ℚ) = fin n := by
  unfold F32.doubleOfRat
  simp only
  have h := roundNE_int_mul 53 (-1074) n 0 hn (by norm_num)
  simp only [zpow_zero, mul_one] at h
  rw [h, if_neg]
  rw [not_le]
  have h1 : |(n : ℚ)| < (2 : ℚ) ^ 53 := by
    have : ((|n| : ℤ) : ℚ) < ((2 ^ 53 : ℤ) : ℚ) := by exact_mod_cast hn
    simpa using this
  calc |(n : ℚ)| < (2 : ℚ) ^ 53 := h1
    _ ≤ (2 : ℚ) ^ 1024 := by norm_num

theorem ulpExp_neg (prec : ℕ) (emin : ℤ) (q : ℚ) : ulpExp prec emin (-q) = ulpExp prec emin q := by
  simp [ulpExp]

theorem emin_le_ulpExp (prec : ℕ) (emin : ℤ) (q : ℚ) : emin ≤ ulpExp prec emin q :=
  le_max_right _ _

theorem roundNE_neg (prec : ℕ) (emin : ℤ) (q : ℚ) :
    roundNE prec emin (-q) = -roundNE prec emin q := by
  unfold roundNE
  rw [ulpExp_neg, neg_div, rne_neg]
  push_cast
  ring

theorem roundNE_nonneg (prec : ℕ) (emin : ℤ) {q : ℚ} (hq : 0 ≤ q) :
    0 ≤ roundNE prec emin q := by
  unfold roundNE
  have h : (0 : ℚ) ≤ q / (2 : ℚ) ^ ulpExp prec emin q :=
    div_nonneg hq (le_of_lt (two_zpow_pos _))
  have h2 : (0 : ℤ) ≤ rne (q / (2 : ℚ) ^ ulpExp prec emin q) := by
    have := rne_mono h
    rwa [show ((0 : ℚ)) = ((0 : ℤ) : ℚ) by simp, rne_intCast] at this
  exact mul_nonneg (by exact_mod_cast h2) (le_of_lt (two_zpow_pos _))

theorem roundNE_nonpos (prec : ℕ) (emin : ℤ) {q : ℚ} (hq : q ≤ 0) :
    roundNE prec emin q ≤ 0 := by
  have h := roundNE_nonneg prec emin (neg_nonneg.mpr hq)
  rw [roundNE_neg] at h
  linarith

theorem roundNE_grid (prec : ℕ) (emin : ℤ) (q : ℚ) :
    ∃ k : ℤ, roundNE prec emin q = k * (2 : ℚ) ^ emin := by
  obtain ⟨j, hj⟩ : ∃ j : ℕ, ulpExp prec emin q - emin = j :=
    ⟨(ulpExp prec emin q - emin).toNat, by have := emin_le_ulpExp prec emin q; omega⟩
  refine ⟨rne (q / (2 : ℚ) ^ ulpExp prec emin q) * 2 ^ j, ?_⟩
  unfold roundNE
  push_cast
  rw [mul_assoc, ← zpow_natCast, ← zpow_add₀ (by norm_num : (2 : ℚ) ≠ 0), ← hj]
  congr 2
  ring

theorem roundNE_abs_error (prec : ℕ) (emin : ℤ) (q : ℚ) :
    |roundNE prec emin q - q| ≤ (2 : ℚ) ^ ulpExp prec emin q / 2 := by
  have hpos := two_zpow_pos (ulpExp prec emin q)
  have h := rne_error (q / (2 : ℚ) ^ ulpExp prec emin q)
  have heq : roundNE prec emin q - q =
      ((rne (q / (2 : ℚ) ^ ulpExp prec emin q) : ℚ) - q / (2 : ℚ) ^ ulpExp prec emin q) *
        (2 : ℚ) ^ ulpExp prec emin q := by
    unfold roundNE
    field_simp
  rw [heq, abs_mul, abs_of_pos hpos]
  calc _ ≤ 1 / 2 * (2 : ℚ) ^ ulpExp prec emin q := mul_le_mul_of_nonneg_right h (le_of_lt hpos)
    _ = (2 : ℚ) ^ ulpExp prec emin q / 2 := by ring

theorem zpow_log_le_abs {q : ℚ} (hq : q ≠ 0) : (2 : ℚ) ^ Int.log 2 |q| ≤ |q| := by
  have h := Int.zpow_log_le_self (b := 2) (r := |q|) (by norm_num) (abs_pos.mpr hq)
  simpa using h

theorem abs_lt_zpow_log_succ (q : ℚ) : |q| < (2 : ℚ) ^ (Int.log 2 |q| + 1) := by
  have h := Int.lt_zpow_succ_log_self (b := 2) (by norm_num) (|q|)
  simpa using h

theorem roundNE_error (prec : ℕ) (emin : ℤ) (q : ℚ) :
    |roundNE prec emin q - q| ≤ |q| / (2 : ℚ) ^ prec + (2 : ℚ) ^ emin / 2 := by
  have h := roundNE_abs_error prec emin q
  have hnn : (0 : ℚ) ≤ |q| / (2 : ℚ) ^ prec := by positivity
  have hnn2 : (0 : ℚ) ≤ (2 : ℚ) ^ emin / 2 := by positivity
  rcases le_total (Int.log 2 |q| - ((prec : ℤ) - 1)) emin with hu | hu
  · have hue : ulpExp prec emin q = emin := max_eq_right hu
    rw [hue] at h
    linarith
  · have hue : ulpExp prec emin q = Int.log 2 |q| - ((prec : ℤ) - 1) := max_eq_left hu
    rw [hue] at h
    by_cases hq : q = 0
    · subst hq
      simp [roundNE_zero]
      positivity
    · have hl := zpow_log_le_abs hq
      have hz : (2 : ℚ) ^ (Int.log 2 |q| - ((prec : ℤ) - 1)) / 2 =
          (2 : ℚ) ^ Int.log 2 |q| / (2 : ℚ) ^ prec := by
        rw [zpow_sub₀ (by norm_num : (2 : ℚ) ≠ 0), zpow_sub₀ (by norm_num : (2 : ℚ) ≠ 0)]
        rw [zpow_natCast]
        field_simp
        ring
      rw [hz] at h
      have : (2 : ℚ) ^ Int.log 2 |q| / (2 : ℚ) ^ prec ≤ |q| / (2 : ℚ) ^ prec :=
        div_le_div_of_nonneg_right hl (by positivity)
      linarith

theorem roundNE_error_grid (prec : ℕ) (emin : ℤ) (q : ℚ) (k : ℤ)
    (hk : q = k * (2 : ℚ) ^ emin) :
    |roundNE prec emin q - q| ≤ |q| / (2 : ℚ) ^ prec := by
  have hnn : (0 : ℚ) ≤ |q| / (2 : ℚ) ^ prec := by positivity
  rcases le_total (Int.log 2 |q| - ((prec : ℤ) - 1)) emin with hu | hu
  · have hue : ulpExp prec emin q = emin := max_eq_right hu
    have hex : roundNE prec emin q = q := by
      unfold roundNE
      rw [hue]
      have : q / (2 : ℚ) ^ emin = (k : ℚ) := by
        rw [hk]; field_simp
      rw [this, rne_intCast, hk]
    rw [hex]
    simpa using hnn
  · have h := roundNE_abs_error prec emin q
    have hue : ulpExp prec emin q = Int.log 2 |q| - ((prec : ℤ) - 1) := max_eq_left hu
    rw [hue] at h
    by_cases hq : q = 0
    · subst hq
      simp [roundNE_zero]
    · have hl := zpow_log_le_abs hq
      have hz : (2 : ℚ) ^ (Int.log 2 |q| - ((prec : ℤ) - 1)) / 2 =
          (2 : ℚ) ^ Int.log 2 |q| / (2 : ℚ) ^ prec := by
        rw [zpow_sub₀ (by norm_num : (2 : ℚ) ≠ 0), zpow_sub₀ (by norm_num : (2 : ℚ) ≠ 0)]
        rw [zpow_natCast]
        field_simp
        ring
      rw [hz] at h
      have : (2 : ℚ) ^ Int.log 2 |q| / (2 : ℚ) ^ prec ≤ |q| / (2 : ℚ) ^ prec :=
        div_le_div_of_nonneg_right hl (by positivity)
      linarith

theorem ulpExp_mono (prec : ℕ) (emin : ℤ) {a b : ℚ} (ha : 0 < a) (hab : a ≤ b) :
    ulpExp prec emin a ≤ ulpExp prec emin b := by
  unfold ulpExp
  have hb : 0 < b := lt_of_lt_of_le ha hab
  rw [abs_of_pos ha, abs_of_pos hb]
  have := Int.log_mono_right (b := 2) ha hab
  exact max_le_max (by omega) le_rfl

theorem rne_two_pow (k : ℕ) : rne ((2 : ℚ) ^ k) = 2 ^ k := by
  have : ((2 : ℚ) ^ k) = (((2 : ℤ) ^ k : ℤ) : ℚ) := by push_cast; rfl
  rw [this, rne_intCast]

theorem roundNE_mono_pos (prec : ℕ) (hp : 1 ≤ prec) (emin : ℤ) {a b : ℚ} (ha : 0 < a)
    (hab : a ≤ b) : roundNE prec emin a ≤ roundNE prec emin b := by
  have hb : 0 < b := lt_of_lt_of_le ha hab
  have hu := ulpExp_mono prec emin ha hab
  rcases hu.lt_or_eq with hlt | heq
  · -- the two values lie in different binades: compare with the power of two between them
    have hLa : Int.log 2 |a| - ((prec : ℤ) - 1) ≤ ulpExp prec emin a := le_max_left _ _
    have hub : ulpExp prec emin b = Int.log 2 |b| - ((prec : ℤ) - 1) := by
      unfold ulpExp at hlt ⊢
      apply max_eq_left
      have := le_max_right (Int.log 2 |a| - ((prec : ℤ) - 1)) emin
      by_contra hcon
      push_neg at hcon
      rw [max_eq_right (le_of_lt hcon)] at hlt
      omega
    have hp1 : (1 : ℤ) ≤ prec := by exact_mod_cast hp
    -- upper bound for a
    obtain ⟨ka, hka⟩ : ∃ ka : ℕ, Int.log 2 |b| - ulpExp prec emin a = ka :=
      ⟨(Int.log 2 |b| - ulpExp prec emin a).toNat, by omega⟩
    have ha_lt : a ≤ (2 : ℚ) ^ Int.log 2 |b| := by
      have h1 := abs_lt_zpow_log_succ a
      have h2 : (2 : ℚ) ^ (Int.log 2 |a| + 1) ≤ (2 : ℚ) ^ Int.log 2 |b| :=
        zpow_le_zpow_right₀ (by norm_num) (by omega)
      rw [abs_of_pos ha] at h1 h2
      linarith
    have hA : roundNE prec emin a ≤ (2 : ℚ) ^ Int.log 2 |b| := by
      unfold roundNE
      have hdiv : a / (2 : ℚ) ^ ulpExp prec emin a ≤ (2 : ℚ) ^ ka := by
        rw [div_le_iff₀ (two_zpow_pos _), ← zpow_natCast, ← zpow_add₀ (by norm_num : (2 : ℚ) ≠ 0),
          ← hka]
        simpa using ha_lt
      have hr := rne_mono hdiv
      rw [rne_two_pow] at hr
      have hr2 : (rne (a / (2 : ℚ) ^ ulpExp prec emin a) : ℚ) ≤ (2 : ℚ) ^ ka := by
        exact_mod_cast hr
      calc (rne (a / (2 : ℚ) ^ ulpExp prec emin a) : ℚ) * (2 : ℚ) ^ ulpExp prec emin a
          ≤ (2 : ℚ) ^ ka * (2 : ℚ) ^ ulpExp prec emin a :=
            mul_le_mul_of_nonneg_right hr2 (le_of_lt (two_zpow_pos _))
        _ = (2 : ℚ) ^ Int.log 2 |b| := by
            rw [← zpow_natCast, ← zpow_add₀ (by norm_num : (2 : ℚ) ≠ 0), ← hka]
            congr 1
            ring
    -- lower bound for b
    obtain ⟨kb, hkb⟩ : ∃ kb : ℕ, Int.log 2 |b| - ulpExp prec emin b = kb :=
      ⟨(Int.log 2 |b| - ulpExp prec emin b).toNat, by omega⟩
    have hB : (2 : ℚ) ^ Int.log 2 |b| ≤ roundNE prec emin b := by
      unfold roundNE
      have hdiv : (2 : ℚ) ^ kb ≤ b / (2 : ℚ) ^ ulpExp prec emin b := by
        rw [le_div_iff₀ (two_zpow_pos _), ← zpow_natCast, ← zpow_add₀ (by norm_num : (2 : ℚ) ≠ 0),
          ← hkb]
        have := zpow_log_le_abs (ne_of_gt hb)
        rw [abs_of_pos hb] at this ⊢
        simpa using this
      have hr := rne_mono hdiv
      rw [rne_two_pow] at hr
      have hr2 : (2 : ℚ) ^ kb ≤ (rne (b / (2 : ℚ) ^ ulpExp prec emin b) : ℚ) := by
        exact_mod_cast hr
      calc (2 : ℚ) ^ Int.log 2 |b| = (2 : ℚ) ^ kb * (2 : ℚ) ^ ulpExp prec emin b := by
            rw [← zpow_natCast, ← zpow_add₀ (by norm_num : (2 : ℚ) ≠ 0), ← hkb]
            congr 1
            ring
        _ ≤ (rne (b / (2 : ℚ) ^ ulpExp prec emin b) : ℚ) * (2 : ℚ) ^ ulpExp prec emin b :=
            mul_le_mul_of_nonneg_right hr2 (le_of_lt (two_zpow_pos _))
    exact le_trans hA hB
  · unfold roundNE
    rw [heq]
    have hdiv : a / (2 : ℚ) ^ ulpExp prec emin b ≤ b / (2 : ℚ) ^ ulpExp prec emin b :=
      div_le_div_of_nonneg_right hab (le_of_lt (two_zpow_pos _))
    have hr := rne_mono hdiv
    have hr2 : (rne (a / (2 : ℚ) ^ ulpExp prec emin b) : ℚ) ≤
        (rne (b / (2 : ℚ) ^ ulpExp prec emin b) : ℚ) := by exact_mod_cast hr
    exact mul_le_mul_of_nonneg_right hr2 (le_of_lt (two_zpow_pos _))

theorem roundNE_mono (prec : ℕ) (hp : 1 ≤ prec) (emin : ℤ) {a b : ℚ} (hab : a ≤ b) :
    roundNE prec emin a ≤ roundNE prec emin b := by
  rcases lt_trichotomy 0 a with ha | ha | ha
  · exact roundNE_mono_pos prec hp emin ha hab
  · subst ha
    rw [roundNE_zero]
    exact roundNE_nonneg prec emin hab
  · rcases le_or_lt 0 b with hb | hb
    · exact le_trans (roundNE_nonpos prec emin (le_of_lt ha)) (roundNE_nonneg prec emin hb)
    · have h := roundNE_mono_pos prec hp emin (neg_pos.mpr hb) (neg_le_neg hab)
      rw [roundNE_neg, roundNE_neg] at h
      linarith

/-! ## Lemmas on the loader -/

theorem loadRows_eq (atof : List Char → F32) (atoi : List Char → ℤ) (wraps : Bool)
    (rows : List (List Char)) (table : PWMTable) :
    loadRows atof atoi wraps rows table =
      { cmd := table.cmd ++ rows.map (fun row =>
          F32.doubleToFloat (atof (substr row 0 (find row ','))))
        duty_cycle_width := table.duty_cycle_width ++ rows.map (fun row =>
          storeDuty wraps (atoi (substr row ((find row ',' + 1) % 2 ^ 64) npos))) } := by
  induction rows generalizing table with
  | nil => simp [loadRows]
  | cons row rest ih => simp [loadRows, ih]

theorem find_append_cons (l r : List Char) (x : Char) (h : x ∉ l) :
    find (l ++ x :: r) x = l.length := by
  have hmem : x ∈ l ++ x :: r := by simp
  unfold find
  rw [if_pos hmem]
  induction l with
  | nil => simp
  | cons a l ih =>
    have ha : a ≠ x := fun hax => h (by simp [hax])
    have hl : x ∉ l := fun hx => h (by simp [hx])
    simp only [List.cons_append, List.length_cons]
    rw [List.indexOf_cons_ne _ ha, ih hl (by simp)]

theorem substr_left (l r : List Char) (x : Char) :
    substr (l ++ x :: r) 0 l.length = l := by
  simp [substr]

theorem substr_right (l r : List Char) (x : Char) (h : (l ++ x :: r).length < 2 ^ 64) :
    substr (l ++ x :: r) ((l.length + 1) % 2 ^ 64) npos = r := by
  simp only [List.length_append, List.length_cons] at h
  have h1 : (l.length + 1) % 2 ^ 64 = l.length + 1 := Nat.mod_eq_of_lt (by omega)
  rw [h1]
  unfold substr
  have h2 : (l ++ x :: r).drop (l.length + 1) = r := by
    rw [show l ++ x :: r = (l ++ [x]) ++ r by simp]
    rw [List.drop_append_of_le_length (by simp)]
    simp
  rw [h2]
  apply List.take_of_length_le
  unfold npos
  omega

theorem atof_zero_text : atof "0.0".toList = fin 0 := by
  have h1 : decimal "0.0".toList = some (false, 0, -1) := by decide
  simp only [atof, h1]
  simp [F32.doubleOfRat, roundNE_zero]

theorem atof_one_text : atof "1.0".toList = fin 1 := by
  have h1 : decimal "1.0".toList = some (false, 10, -1) := by decide
  have h2 := doubleOfRat_intCast 1 (by norm_num)
  simp only [atof, h1]
  norm_num at h2 ⊢
  exact h2

theorem getlines_blank_last (text acc : List Char) :
    getlines (text ++ ['\n', '\n']) acc = getlines (text ++ ['\n']) acc ++ [[]] := by
  induction text generalizing acc with
  | nil =>
    cases acc <;> simp [getlines]
  | cons c rest ih =>
    by_cases hc : c = '\n'
    · simp [getlines, hc, ih]
    · simp [getlines, hc, ih]

theorem find_of_not_mem (row : List Char) (x : Char) (h : x ∉ row) : find row x = npos := by
  unfold find
  rw [if_neg h]

theorem substr_whole (row : List Char) (h : row.length < 2 ^ 64) :
    substr row 0 npos = row ∧ substr row ((npos + 1) % 2 ^ 64) npos = row := by
  have h1 : (npos + 1) % 2 ^ 64 = 0 := by decide
  have h2 : row.length ≤ npos := by unfold npos; omega
  rw [h1]
  unfold substr
  simp [List.take_of_length_le h2]

theorem atof_nil : atof [] = fin 0 := by
  have h1 : decimal [] = none := by decide
  simp only [atof, h1]

theorem atoi_nil : atoi [] = 0 := by decide

theorem doubleToFloat_zero : F32.doubleToFloat (fin 0) = fin 0 := by
  have h := ofRat_intCast 0 (by norm_num)
  simp only [F32.doubleToFloat]
  simpa using h

theorem storeDuty_zero (wraps : Bool) : storeDuty wraps 0 = 0 := by
  unfold storeDuty
  split_ifs <;> simp

/-! ## Error analysis of the interpolation -/

theorem roundNE_abs_le_two_pow (prec : ℕ) (hp : 1 ≤ prec) (emin e : ℤ) (he : emin ≤ e)
    {q : ℚ} (hq : |q| ≤ (2 : ℚ) ^ e) : |roundNE prec emin q| ≤ (2 : ℚ) ^ e := by
  have hone : |(1 : ℤ)| < 2 ^ prec := by
    simp only [abs_one]
    exact one_lt_pow₀ (by norm_num) (by omega)
  have hex : roundNE prec emin ((2 : ℚ) ^ e) = (2 : ℚ) ^ e := by
    have := roundNE_int_mul prec emin 1 e hone he
    simpa using this
  rw [abs_le] at hq ⊢
  constructor
  · have := roundNE_mono prec hp emin hq.1
    rw [roundNE_neg, hex] at this
    exact this
  · have := roundNE_mono prec hp emin hq.2
    rw [hex] at this
    exact this

theorem ofRat_of_abs_lt {q : ℚ} (h : |roundNE 24 (-149) q| < (2 : ℚ) ^ 128) :
    F32.ofRat q = fin (roundNE 24 (-149) q) := by
  unfold F32.ofRat
  simp only
  rw [if_neg (not_le.mpr h)]

theorem ofRat_of_abs_le {q : ℚ} (h : |q| ≤ (2 : ℚ) ^ (127 : ℤ)) :
    F32.ofRat q = fin (roundNE 24 (-149) q) := by
  apply ofRat_of_abs_lt
  have := roundNE_abs_le_two_pow 24 (by norm_num) (-149) 127 (by norm_num) h
  calc |roundNE 24 (-149) q| ≤ (2 : ℚ) ^ (127 : ℤ) := this
    _ < (2 : ℚ) ^ 128 := by norm_num

theorem isRepr_fin {v : ℚ} (h : F32.IsRepr (fin v)) :
    roundNE 24 (-149) v = v ∧ ∃ k : ℤ, v = k * (2 : ℚ) ^ (-149 : ℤ) := by
  unfold F32.IsRepr F32.ofRat at h
  simp only at h
  split_ifs at h
  injection h with h
  refine ⟨h, ?_⟩
  obtain ⟨k, hk⟩ := roundNE_grid 24 (-149) v
  exact ⟨k, by rw [← hk, h]⟩

theorem interp_close (D y0 : ℤ) (t d : ℚ) (kt : ℤ)
    (hD : |(D : ℚ)| ≤ 2 ^ 21) (hy0 : 0 ≤ (y0 : ℚ)) (hy0u : (y0 : ℚ) ≤ 2 ^ 21)
    (hy1 : 0 ≤ (y0 : ℚ) + D) (hy1u : (y0 : ℚ) + D ≤ 2 ^ 21)
    (ht : 0 < t) (htd : t ≤ d) (hd : d ≤ 2 ^ 101) (hgrid : t = kt * (2 : ℚ) ^ (-149 : ℤ)) :
    |roundNE 24 (-149) (D * t)| < 2 ^ 128 ∧
    |roundNE 24 (-149) (roundNE 24 (-149) (D * t) / d)| < 2 ^ 128 ∧
    |roundNE 24 (-149) (y0 + roundNE 24 (-149) (roundNE 24 (-149) (D * t) / d))| < 2 ^ 128 ∧
    |roundNE 24 (-149) (y0 + roundNE 24 (-149) (roundNE 24 (-149) (D * t) / d)) -
      (y0 + D * (t / d))| < 1 / 2 := by
  have hdpos : 0 < d := lt_of_lt_of_le ht htd
  set a : ℚ := |(D : ℚ)| with ha
  have ha0 : 0 ≤ a := abs_nonneg _
  set s : ℚ := t / d with hs
  have hs0 : 0 < s := div_pos ht hdpos
  have hs1 : s ≤ 1 := by rw [hs, div_le_one hdpos]; exact htd
  set p : ℚ := roundNE 24 (-149) (D * t) with hp
  set q : ℚ := roundNE 24 (-149) (p / d) with hq
  set r : ℚ := roundNE 24 (-149) (y0 + q) with hr
  -- first rounding: the product
  have e1 : |p - D * t| ≤ a * t / 2 ^ 24 := by
    have := roundNE_error_grid 24 (-149) (D * t) (D * kt) (by rw [hgrid]; push_cast; ring)
    rw [abs_mul, abs_of_pos ht] at this
    exact this
  have hat : a * t ≤ 2 ^ 21 * 2 ^ 101 := by
    calc a * t ≤ 2 ^ 21 * t := mul_le_mul_of_nonneg_right hD (le_of_lt ht)
      _ ≤ 2 ^ 21 * 2 ^ 101 := mul_le_mul_of_nonneg_left (le_trans htd hd) (by norm_num)
  have hpabs : |p| ≤ a * t + a * t / 2 ^ 24 := by
    have h1 : |p| ≤ |p - D * t| + |(D : ℚ) * t| := by
      have := abs_add (p - D * t) (D * t)
      simpa using this
    rw [abs_mul, abs_of_pos ht] at h1
    linarith
  have hp128 : |p| < 2 ^ 128 := by
    have : a * t / 2 ^ 24 ≤ 2 ^ 21 * 2 ^ 101 / 2 ^ 24 :=
      div_le_div_of_nonneg_right hat (by norm_num)
    have hnum : (2 : ℚ) ^ 21 * 2 ^ 101 + 2 ^ 21 * 2 ^ 101 / 2 ^ 24 < 2 ^ 128 := by norm_num
    linarith
  -- the quotient
  have e1d : |p / d - D * s| ≤ a / 2 ^ 24 := by
    have heq : p / d - D * s = (p - D * t) / d := by rw [hs]; field_simp
    rw [heq, abs_div, abs_of_pos hdpos, div_le_iff₀ hdpos]
    have : a * t / 2 ^ 24 ≤ a / 2 ^ 24 * d := by
      have : a * t ≤ a * d := mul_le_mul_of_nonneg_left htd ha0
      calc a * t / 2 ^ 24 ≤ a * d / 2 ^ 24 := div_le_div_of_nonneg_right this (by norm_num)
        _ = a / 2 ^ 24 * d := by ring
    linarith
  have hDs : |(D : ℚ) * s| ≤ a := by
    rw [abs_mul, abs_of_pos hs0]
    calc a * s ≤ a * 1 := mul_le_mul_of_nonneg_left hs1 ha0
      _ = a := by ring
  have hpd : |p / d| ≤ a + a / 2 ^ 24 := by
    have h1 : |p / d| ≤ |p / d - D * s| + |(D : ℚ) * s| := by
      have := abs_add (p / d - D * s) (D * s)
      simpa using this
    linarith
  have e2 : |q - p / d| ≤ |p / d| / 2 ^ 24 + (2 : ℚ) ^ (-149 : ℤ) / 2 :=
    roundNE_error 24 (-149) (p / d)
  have hη : (2 : ℚ) ^ (-149 : ℤ) / 2 ≤ 1 / 2 ^ 30 := by
    rw [zpow_neg]
    norm_num
  have e2' : |q - D * s| ≤ 1 / 4 + 1 / 2 ^ 26 := by
    have h1 : |q - D * s| ≤ |q - p / d| + |p / d - D * s| := by
      have := abs_add (q - p / d) (p / d - D * s)
      simpa using this
    have h2 : |p / d| / 2 ^ 24 ≤ (a + a / 2 ^ 24) / 2 ^ 24 :=
      div_le_div_of_nonneg_right hpd (by norm_num)
    have h3 : a / 2 ^ 24 ≤ 2 ^ 21 / 2 ^ 24 := div_le_div_of_nonneg_right hD (by norm_num)
    have h4 : (a + a / 2 ^ 24) / 2 ^ 24 ≤ (2 ^ 21 + 2 ^ 21 / 2 ^ 24) / 2 ^ 24 :=
      div_le_div_of_nonneg_right (by linarith) (by norm_num)
    have hnum : ((2 : ℚ) ^ 21 + 2 ^ 21 / 2 ^ 24) / 2 ^ 24 + 1 / 2 ^ 30 + 2 ^ 21 / 2 ^ 24 ≤
        1 / 4 + 1 / 2 ^ 26 := by norm_num
    linarith
  -- the exact value lies between the two duty values
  have hv0 : 0 ≤ (y0 : ℚ) + D * s := by
    have : (y0 : ℚ) + D * s = y0 * (1 - s) + (y0 + D) * s := by ring
    rw [this]
    have := mul_nonneg hy0 (by linarith : (0 : ℚ) ≤ 1 - s)
    have := mul_nonneg hy1 (le_of_lt hs0)
    linarith
  have hv1 : (y0 : ℚ) + D * s ≤ 2 ^ 21 := by
    have : (y0 : ℚ) + D * s = y0 * (1 - s) + (y0 + D) * s := by ring
    rw [this]
    have h1 : (y0 : ℚ) * (1 - s) ≤ 2 ^ 21 * (1 - s) :=
      mul_le_mul_of_nonneg_right hy0u (by linarith)
    have h2 : ((y0 : ℚ) + D) * s ≤ 2 ^ 21 * s := mul_le_mul_of_nonneg_right hy1u (le_of_lt hs0)
    linarith
  have hq128 : |q| < 2 ^ 128 := by
    have h1 : |q| ≤ |q - D * s| + |(D : ℚ) * s| := by
      have := abs_add (q - D * s) (D * s)
      simpa using this
    have hnum : (1 : ℚ) / 4 + 1 / 2 ^ 26 + 2 ^ 21 < 2 ^ 128 := by norm_num
    linarith
  have hyq : |(y0 : ℚ) + q| ≤ 2 ^ 21 + 1 := by
    have h1 := abs_le.mp e2'
    rw [abs_le]
    have hnum : (1 : ℚ) / 4 + 1 / 2 ^ 26 ≤ 1 := by norm_num
    constructor <;> linarith [h1.1, h1.2]
  have e3 : |r - (y0 + q)| ≤ |(y0 : ℚ) + q| / 2 ^ 24 + (2 : ℚ) ^ (-149 : ℤ) / 2 :=
    roundNE_error 24 (-149) (y0 + q)
  have e3' : |r - (y0 + q)| ≤ 1 / 8 + 1 / 2 ^ 23 := by
    have h2 : |(y0 : ℚ) + q| / 2 ^ 24 ≤ (2 ^ 21 + 1) / 2 ^ 24 :=
      div_le_div_of_nonneg_right hyq (by norm_num)
    have hnum : ((2 : ℚ) ^ 21 + 1) / 2 ^ 24 + 1 / 2 ^ 30 ≤ 1 / 8 + 1 / 2 ^ 23 := by norm_num
    linarith
  have hfin : |r - (y0 + D * s)| < 1 / 2 := by
    have h1 : |r - (y0 + D * s)| ≤ |r - (y0 + q)| + |q - D * s| := by
      have := abs_add (r - (y0 + q)) (q - D * s)
      have heq : r - (y0 + q) + (q - D * s) = r - (y0 + D * s) := by ring
      rw [heq] at this
      exact this
    have hnum : (1 : ℚ) / 8 + 1 / 2 ^ 23 + (1 / 4 + 1 / 2 ^ 26) < 1 / 2 := by norm_num
    linarith
  have hr128 : |r| < 2 ^ 128 := by
    have h1 : |r| ≤ |r - (y0 + q)| + |(y0 : ℚ) + q| := by
      have := abs_add (r - (y0 + q)) (y0 + q)
      simpa using this
    have hnum : (1 : ℚ) / 8 + 1 / 2 ^ 23 + (2 ^ 21 + 1) < 2 ^ 128 := by norm_num
    linarith
  exact ⟨hp128, hq128, hr128, hfin⟩

theorem roundHalfAway_between (r v : ℚ) (lo hi : ℤ) (hlo0 : 0 ≤ lo) (hv1 : (lo : ℚ) ≤ v)
    (hv2 : v ≤ hi) (h : |r - v| < 1 / 2) :
    lo ≤ F32.roundHalfAway r ∧ F32.roundHalfAway r ≤ hi := by
  rw [abs_lt] at h
  obtain ⟨h1, h2⟩ := h
  unfold F32.roundHalfAway
  split_ifs with hr
  · constructor
    · rw [Int.le_floor]; linarith
    · have : ⌊r + 1 / 2⌋ < hi + 1 := by
        rw [Int.floor_lt]; push_cast; linarith
      omega
  · push_neg at hr
    have hlo : lo = 0 := by
      have : (lo : ℚ) < 1 := by linarith
      have : lo < 1 := by exact_mod_cast this
      omega
    have hfl : ⌊-r + 1 / 2⌋ = 0 := by
      rw [Int.floor_eq_iff]
      subst hlo
      push_cast at hv1 ⊢
      constructor <;> linarith
    rw [hfl, hlo]
    have : (0 : ℚ) ≤ hi := by subst hlo; push_cast at hv1; linarith
    have : (0 : ℤ) ≤ hi := by exact_mod_cast this
    constructor <;> omega

theorem scan_stops (c : F32) (l : List F32) (k j : ℕ) (hj : j < l.length)
    (hstop : F32.gt c (l.getD j nan) = false)
    (hbefore : ∀ m, m < j → F32.gt c (l.getD m nan) = true) :
    scan c l k = .ok (k + j) := by
  induction l generalizing k j with
  | nil => simp at hj
  | cons x rest ih =>
    cases j with
    | zero =>
      simp only [List.getD_cons_zero] at hstop
      simp [scan, hstop]
    | succ j =>
      have h0 := hbefore 0 (by omega)
      simp only [List.getD_cons_zero] at h0
      have := ih (k + 1) j (by simpa using hj) (by simpa using hstop)
        (fun m hm => by simpa using hbefore (m + 1) (by omega))
      simp only [scan, h0, if_true]
      rw [this]
      congr 1
      omega

theorem index_eq_getD {α : Type} (l : List α) (i : ℕ) (hi : i < l.length) (d : α) :
    index l i = .ok (l.getD i d) := by
  unfold index
  rw [List.get?_eq_getElem?, List.getElem?_eq_getElem hi]
  simp [List.getD_eq_getElem?_getD, List.getElem?_eq_getElem hi]

theorem getD_drop_one {α : Type} (l : List α) (m : ℕ) (d : α) :
    (l.drop 1).getD m d = l.getD (m + 1) d := by
  cases l with
  | nil => simp
  | cons a l => simp

theorem moderate_fin {x : F32} (h : x.Moderate) :
    ∃ v : ℚ, x = fin v ∧ F32.IsRepr (fin v) ∧ |v| ≤ 2 ^ 100 := by
  cases x with
  | nan => exact absurd h (by simp [F32.Moderate])
  | inf n => exact absurd h (by simp [F32.Moderate])
  | fin v => exact ⟨v, rfl, h.1, h.2⟩

theorem sub_fin_of_moderate {a b : ℚ} (ha : |a| ≤ 2 ^ 100) (hb : |b| ≤ 2 ^ 100) :
    F32.sub (fin a) (fin b) = fin (roundNE 24 (-149) (a - b)) := by
  have h : |a + -b| ≤ (2 : ℚ) ^ (127 : ℤ) := by
    have h1 := abs_add a (-b)
    rw [abs_neg] at h1
    have hnum : (2 : ℚ) ^ 100 + 2 ^ 100 ≤ (2 : ℚ) ^ (127 : ℤ) := by norm_num
    linarith
  simp only [F32.sub, F32.neg, F32.add]
  rw [ofRat_of_abs_le h, sub_eq_add_neg]

theorem roundNE_sub_pos {a b : ℚ} (ha : F32.IsRepr (fin a)) (hb : F32.IsRepr (fin b))
    (hab : b < a) : 0 < roundNE 24 (-149) (a - b) := by
  obtain ⟨_, ka, hka⟩ := isRepr_fin ha
  obtain ⟨_, kb, hkb⟩ := isRepr_fin hb
  have hpos := two_zpow_pos (-149)
  have hk : kb < ka := by
    have : (kb : ℚ) * (2 : ℚ) ^ (-149 : ℤ) < ka * (2 : ℚ) ^ (-149 : ℤ) := by
      rw [← hka, ← hkb]; exact hab
    have := lt_of_mul_lt_mul_right this (le_of_lt hpos)
    exact_mod_cast this
  have hge : (2 : ℚ) ^ (-149 : ℤ) ≤ a - b := by
    rw [hka, hkb, ← sub_mul]
    have : (1 : ℚ) ≤ (ka : ℚ) - kb := by
      have : (1 : ℤ) ≤ ka - kb := by omega
      exact_mod_cast this
    calc (2 : ℚ) ^ (-149 : ℤ) = 1 * (2 : ℚ) ^ (-149 : ℤ) := by ring
      _ ≤ ((ka : ℚ) - kb) * (2 : ℚ) ^ (-149 : ℤ) :=
          mul_le_mul_of_nonneg_right this (le_of_lt hpos)
  have hm := roundNE_mono 24 (by norm_num) (-149) hge
  have hex : roundNE 24 (-149) ((2 : ℚ) ^ (-149 : ℤ)) = (2 : ℚ) ^ (-149 : ℤ) := by
    have := roundNE_int_mul 24 (-149) 1 (-149) (by norm_num) (by norm_num)
    simpa using this
  rw [hex] at hm
  linarith

theorem dutyDiff_eq (wraps : Bool) (y0 y1 : ℤ) (hy0 : 0 ≤ y0 ∧ y0 ≤ 2 ^ 21)
    (hy1 : 0 ≤ y1 ∧ y1 ≤ 2 ^ 21) (hw : wraps = true → y0 ≤ y1) :
    dutyDiff wraps y1 y0 = y1 - y0 := by
  unfold dutyDiff
  split_ifs with h
  · have := hw h
    apply Int.emod_eq_of_lt <;> omega
  · rfl

theorem interpolate_close (wraps : Bool) (x0 x1 c : ℚ) (y0 y1 : ℤ)
    (hx0 : F32.Moderate (fin x0)) (hx1 : F32.Moderate (fin x1)) (hc : F32.IsRepr (fin c))
    (h0c : x0 < c) (hc1 : c ≤ x1)
    (hy0 : 0 ≤ y0 ∧ y0 ≤ 2 ^ 21) (hy1 : 0 ≤ y1 ∧ y1 ≤ 2 ^ 21) (hw : wraps = true → y0 ≤ y1) :
    ∃ r s : ℚ, interpolate wraps (fin x0) (fin x1) y0 y1 (fin c) = fin r ∧ 0 < s ∧ s ≤ 1 ∧
      (c = x1 → s = 1) ∧ |r - (y0 + ((y1 : ℚ) - y0) * s)| < 1 / 2 := by
  obtain ⟨hr0, hb0⟩ := hx0
  obtain ⟨hr1, hb1⟩ := hx1
  have hbc : |c| ≤ 2 ^ 100 := by
    rw [abs_le] at hb0 hb1 ⊢
    constructor <;> linarith [hb0.1, hb1.2]
  set t : ℚ := roundNE 24 (-149) (c - x0) with ht
  set d : ℚ := roundNE 24 (-149) (x1 - x0) with hd
  have htpos : 0 < t := roundNE_sub_pos hc hr0 h0c
  have htd : t ≤ d := roundNE_mono 24 (by norm_num) (-149) (by linarith)
  have hdpos : 0 < d := lt_of_lt_of_le htpos htd
  have hd101 : d ≤ 2 ^ 101 := by
    have h1 : |x1 - x0| ≤ (2 : ℚ) ^ (101 : ℤ) := by
      have h2 := abs_sub x1 x0
      have hnum : (2 : ℚ) ^ 100 + 2 ^ 100 = (2 : ℚ) ^ (101 : ℤ) := by norm_num
      linarith
    have h3 := roundNE_abs_le_two_pow 24 (by norm_num) (-149) 101 (by norm_num) h1
    have h4 := (abs_le.mp h3).2
    have hnum : (2 : ℚ) ^ (101 : ℤ) = 2 ^ 101 := by norm_num
    rw [← hd, hnum] at h4
    exact h4
  obtain ⟨kt, hkt⟩ := roundNE_grid 24 (-149) (c - x0)
  rw [← ht] at hkt
  have hD : dutyDiff wraps y1 y0 = y1 - y0 := dutyDiff_eq wraps y0 y1 hy0 hy1 hw
  have hDabs : |y1 - y0| < 2 ^ 24 := by
    rw [abs_lt]; constructor <;> omega
  have hy0abs : |y0| < 2 ^ 24 := by
    rw [abs_lt]; constructor <;> omega
  have hy0q : (0 : ℚ) ≤ (y0 : ℚ) ∧ (y0 : ℚ) ≤ 2 ^ 21 :=
    ⟨by exact_mod_cast hy0.1, by exact_mod_cast hy0.2⟩
  have hy1q : (0 : ℚ) ≤ (y1 : ℚ) ∧ (y1 : ℚ) ≤ 2 ^ 21 :=
    ⟨by exact_mod_cast hy1.1, by exact_mod_cast hy1.2⟩
  have hDq : |((y1 - y0 : ℤ) : ℚ)| ≤ 2 ^ 21 := by
    push_cast
    rw [abs_le]; constructor <;> linarith [hy0q.1, hy0q.2, hy1q.1, hy1q.2]
  obtain ⟨hp, hq, hr, hclose⟩ := interp_close (y1 - y0) y0 t d kt hDq hy0q.1 hy0q.2
    (by push_cast; linarith [hy1q.1]) (by push_cast; linarith [hy1q.2]) htpos htd hd101 hkt
  refine ⟨roundNE 24 (-149) (y0 + roundNE 24 (-149) (roundNE 24 (-149) (((y1 - y0 : ℤ) : ℚ) * t) / d)),
    t / d, ?_, div_pos htpos hdpos, (div_le_one hdpos).2 htd, ?_, ?_⟩
  · unfold interpolate
    rw [hD]
    simp only [F32.ofInt]
    rw [ofRat_intCast _ hDabs, ofRat_intCast _ hy0abs,
      sub_fin_of_moderate hbc hb0, sub_fin_of_moderate hb1 hb0, ← ht, ← hd]
    simp only [F32.mul]
    rw [ofRat_of_abs_lt hp]
    simp only [F32.div]
    rw [if_neg (ne_of_gt hdpos), ofRat_of_abs_lt hq]
    simp only [F32.add]
    rw [ofRat_of_abs_lt hr]
  · intro hcx
    have htd2 : t = d := by rw [ht, hd, hcx]
    rw [htd2]
    exact div_self (ne_of_gt hdpos)
  · push_cast at hclose ⊢
    exact hclose

theorem floatToUInt32_round (r : ℚ) (hr : 0 ≤ F32.roundHalfAway r)
    (hr2 : F32.roundHalfAway r < 2 ^ 32) :
    floatToUInt32 (F32.round (fin r)) = .ok (F32.roundHalfAway r).toNat := by
  have h1 : (-1 : ℚ) < (F32.roundHalfAway r : ℚ) := by
    have : (0 : ℚ) ≤ (F32.roundHalfAway r : ℚ) := by exact_mod_cast hr
    linarith
  have h2 : (F32.roundHalfAway r : ℚ) < 2 ^ 32 := by exact_mod_cast hr2
  simp only [F32.round, floatToUInt32]
  rw [if_pos ⟨h1, h2⟩, Int.floor_intCast]

theorem lt_asymm_F32 {a b : F32} (h : F32.lt a b = true) : F32.lt b a = false := by
  cases a with
  | nan => simp [F32.lt] at h
  | inf n =>
    cases b with
    | nan => simp [F32.lt] at h
    | inf m => cases n <;> cases m <;> simp_all [F32.lt]
    | fin y => cases n <;> simp_all [F32.lt]
  | fin x =>
    cases b with
    | nan => simp [F32.lt] at h
    | inf m => cases m <;> simp_all [F32.lt]
    | fin y =>
      simp only [F32.lt, decide_eq_true_eq, decide_eq_false_iff_not, not_lt] at h ⊢
      exact le_of_lt h

theorem le_false_of_lt {a b : F32} (h : F32.lt a b = true) : F32.le b a = false := by
  cases a with
  | nan => simp [F32.lt] at h
  | inf n =>
    cases b with
    | nan => simp [F32.lt] at h
    | inf m => cases n <;> cases m <;> simp_all [F32.lt, F32.le]
    | fin y => cases n <;> simp_all [F32.lt, F32.le]
  | fin x =>
    cases b with
    | nan => simp [F32.lt] at h
    | inf m => cases m <;> simp_all [F32.lt, F32.le]
    | fin y =>
      simp only [F32.lt, F32.le, decide_eq_true_eq, decide_eq_false_iff_not, not_le] at h ⊢
      exact h

/-- The scan of `computePWMCommand` on any table, for a command with
`cmd[0] < command < cmd[n-1]`: it stops at the first index `i >= 1` at which
`command > cmd[i]` fails, that index is at most `n - 1`, and
`cmd[i-1] < command`. -/
theorem scan_bracket (lut : PWMTable) (n : ℕ) (c : F32) (h : lut.HasRows n)
    (hlo : F32.lt (lut.cmdAt 0) c = true) (hhi : F32.lt c (lut.cmdAt (n - 1)) = true) :
    ∃ i : ℕ, 1 ≤ i ∧ i < n ∧ scan c (lut.cmd.drop 1) 1 = .ok i ∧
      F32.gt c (lut.cmdAt i) = false ∧
      (∀ j, 1 ≤ j → j < i → F32.gt c (lut.cmdAt j) = true) ∧
      F32.lt (lut.cmdAt (i - 1)) c = true := by
  have hn2 : 2 ≤ n := by
    by_contra hcon
    have hn : n - 1 = 0 := by omega
    rw [hn] at hhi
    have := lt_asymm_F32 hlo
    rw [this] at hhi
    exact absurd hhi (by simp)
  have hex : ∃ j, j < n - 1 ∧ F32.gt c ((lut.cmd.drop 1).getD j nan) = false := by
    refine ⟨n - 2, by omega, ?_⟩
    rw [getD_drop_one]
    have : n - 2 + 1 = n - 1 := by omega
    rw [this]
    exact lt_asymm_F32 hhi
  classical
  have hmin := Nat.find_spec hex
  have hbefore := fun m (hm : m < Nat.find hex) => Nat.find_min hex hm
  set j := Nat.find hex with hj
  have hjn : j < n - 1 := hmin.1
  have hlen : (lut.cmd.drop 1).length = n - 1 := by
    simp [h.1]
  have hb : ∀ m, m < j → F32.gt c ((lut.cmd.drop 1).getD m nan) = true := by
    intro m hm
    have := hbefore m hm
    simp only [not_and, Bool.not_eq_false] at this
    exact this (by omega)
  refine ⟨1 + j, by omega, by omega, scan_stops c _ 1 j (by omega) hmin.2 hb, ?_, ?_, ?_⟩
  · have := hmin.2
    rw [getD_drop_one] at this
    rw [show 1 + j = j + 1 by omega]
    exact this
  · intro m hm1 hm2
    have := hb (m - 1) (by omega)
    rw [getD_drop_one] at this
    rw [show m - 1 + 1 = m by omega] at this
    exact this
  · by_cases hj0 : j = 0
    · rw [hj0]; exact hlo
    · have := hb (j - 1) (by omega)
      rw [getD_drop_one] at this
      rw [show j - 1 + 1 = 1 + j - 1 by omega] at this
      exact this

theorem index_cmdAt (lut : PWMTable) (n i : ℕ) (h : lut.HasRows n) (hi : i < n) :
    index lut.cmd i = .ok (lut.cmdAt i) ∧ index lut.duty_cycle_width i = .ok (lut.dutyAt i) :=
  ⟨index_eq_getD _ _ (by rw [h.1]; exact hi) _, index_eq_getD _ _ (by rw [h.2]; exact hi) _⟩

theorem compute_eq_interp (wraps : Bool) (lut : PWMTable) (W n i : ℕ) (c : F32)
    (h : lut.HasRows n) (hz : F32.feq c (fin 0) = false)
    (hle : F32.le c (lut.cmdAt 0) = false) (hge : F32.ge c (lut.cmdAt (n - 1)) = false)
    (hscan : scan c (lut.cmd.drop 1) 1 = .ok i) (hi1 : 1 ≤ i) (hin : i < n) :
    computePWMCommand wraps lut W c =
      floatToUInt32 (F32.round (interpolate wraps (lut.cmdAt (i - 1)) (lut.cmdAt i)
        (lut.dutyAt (i - 1)) (lut.dutyAt i) c)) := by
  rw [compute_interp wraps lut W n c h (by omega) hz hle hge, hscan]
  simp only [Except.bind]
  rw [(index_cmdAt lut n (i - 1) h (by omega)).1, (index_cmdAt lut n i h hin).1,
    (index_cmdAt lut n (i - 1) h (by omega)).2, (index_cmdAt lut n i h hin).2]

theorem lt_fin_iff (a b : ℚ) : F32.lt (fin a) (fin b) = true ↔ a < b := by
  simp [F32.lt]

theorem le_fin_iff (a b : ℚ) : F32.le (fin a) (fin b) = true ↔ a ≤ b := by
  simp [F32.le]

theorem le_fin_false (a b : ℚ) (h : b < a) : F32.le (fin a) (fin b) = false := by
  simp [F32.le, h]

theorem lt_fin_false (a b : ℚ) (h : b ≤ a) : F32.lt (fin a) (fin b) = false := by
  simp [F32.lt, h]

theorem feq_fin_false (a : ℚ) (h : a ≠ 0) : F32.feq (fin a) (fin 0) = false := by
  simp [F32.feq, h]

/-- On a table of moderate binary32 commands and duty values in `0 .. 2 ^ 21`,
a non-zero command strictly inside the table is answered by the rounding of a
float `r` that lies within `1 / 2` of the exact interpolation in the bracket
found by the scan. -/
theorem compute_bracket (wraps : Bool) (lut : PWMTable) (W n : ℕ) (c : F32)
    (h : lut.HasRows n)
    (hcmd : ∀ j, j < n → (lut.cmdAt j).Moderate)
    (hduty : ∀ j, j < n → 0 ≤ lut.dutyAt j ∧ lut.dutyAt j ≤ 2 ^ 21)
    (hw : wraps = true → ∀ j, j + 1 < n → lut.dutyAt j ≤ lut.dutyAt (j + 1))
    (hc : c.IsRepr) (hz : F32.feq c (fin 0) = false)
    (hlo : F32.lt (lut.cmdAt 0) c = true) (hhi : F32.lt c (lut.cmdAt (n - 1)) = true) :
    ∃ (i : ℕ) (r s : ℚ), 1 ≤ i ∧ i < n ∧ F32.le c (lut.cmdAt i) = true ∧
      (∀ j, 1 ≤ j → j < i → F32.le c (lut.cmdAt j) = false) ∧
      computePWMCommand wraps lut W c = .ok (F32.roundHalfAway r).toNat ∧
      0 ≤ F32.roundHalfAway r ∧ 0 < s ∧ s ≤ 1 ∧ (c = lut.cmdAt i → s = 1) ∧
      |r - (lut.dutyAt (i - 1) + ((lut.dutyAt i : ℚ) - lut.dutyAt (i - 1)) * s)| < 1 / 2 := by
  obtain ⟨i, hi1, hin, hscan, hstop, hbefore, hprev⟩ := scan_bracket lut n c h hlo hhi
  have hn : 0 < n := by omega
  obtain ⟨x0, hx0, hx0r, hx0b⟩ := moderate_fin (hcmd (i - 1) (by omega))
  obtain ⟨x1, hx1, hx1r, hx1b⟩ := moderate_fin (hcmd i hin)
  -- the command is finite
  rw [hx0] at hprev
  rw [hx1] at hstop
  obtain ⟨cv, hcv⟩ : ∃ cv, c = fin cv := by
    cases c with
    | nan => simp [F32.lt] at hprev
    | inf m =>
      cases m
      · obtain ⟨xn, hxn, _, _⟩ := moderate_fin (hcmd (n - 1) (by omega))
        rw [hxn] at hhi
        simp [F32.lt] at hhi
      · simp [F32.lt] at hprev
    | fin cv => exact ⟨cv, rfl⟩
  subst hcv
  have h0c : x0 < cv := by simpa [F32.lt] using hprev
  have hc1 : cv ≤ x1 := by simpa [F32.gt, F32.lt] using hstop
  have hy0 := hduty (i - 1) (by omega)
  have hy1 := hduty i hin
  have hwi : wraps = true → lut.dutyAt (i - 1) ≤ lut.dutyAt i := by
    intro hwt
    have := hw hwt (i - 1) (by omega)
    rwa [show i - 1 + 1 = i by omega] at this
  obtain ⟨r, s, hint, hs0, hs1, hseq, hclose⟩ :=
    interpolate_close wraps x0 x1 cv (lut.dutyAt (i - 1)) (lut.dutyAt i)
      ⟨hx0r, hx0b⟩ ⟨hx1r, hx1b⟩ hc h0c hc1 hy0 hy1 hwi
  -- the exact value lies between the two duty values, within 0 .. 2 ^ 21
  have hy0q : (0 : ℚ) ≤ (lut.dutyAt (i - 1) : ℚ) := by exact_mod_cast hy0.1
  have hy1q : (0 : ℚ) ≤ (lut.dutyAt i : ℚ) := by exact_mod_cast hy1.1
  have hy0u : (lut.dutyAt (i - 1) : ℚ) ≤ ((2 ^ 21 : ℤ) : ℚ) := by exact_mod_cast hy0.2
  have hy1u : (lut.dutyAt i : ℚ) ≤ ((2 ^ 21 : ℤ) : ℚ) := by exact_mod_cast hy1.2
  have hval : (lut.dutyAt (i - 1) : ℚ) + ((lut.dutyAt i : ℚ) - lut.dutyAt (i - 1)) * s =
      lut.dutyAt (i - 1) * (1 - s) + lut.dutyAt i * s := by ring
  have hv0 : ((0 : ℤ) : ℚ) ≤
      (lut.dutyAt (i - 1) : ℚ) + ((lut.dutyAt i : ℚ) - lut.dutyAt (i - 1)) * s := by
    rw [hval]
    have := mul_nonneg hy0q (by linarith : (0 : ℚ) ≤ 1 - s)
    have := mul_nonneg hy1q (le_of_lt hs0)
    push_cast
    linarith
  have hv1 : (lut.dutyAt (i - 1) : ℚ) + ((lut.dutyAt i : ℚ) - lut.dutyAt (i - 1)) * s ≤
      ((2 ^ 21 : ℤ) : ℚ) := by
    rw [hval]
    have h1 := mul_le_mul_of_nonneg_right hy0u (by linarith : (0 : ℚ) ≤ 1 - s)
    have h2 := mul_le_mul_of_nonneg_right hy1u (le_of_lt hs0)
    linarith
  obtain ⟨hr0, hr1⟩ := roundHalfAway_between r _ 0 (2 ^ 21) le_rfl hv0 hv1 hclose
  have hle : F32.le (fin cv) (lut.cmdAt 0) = false := le_false_of_lt hlo
  have hge : F32.ge (fin cv) (lut.cmdAt (n - 1)) = false := le_false_of_lt hhi
  refine ⟨i, r, s, hi1, hin, by rw [hx1]; simpa [F32.le] using hc1,
    fun j hj1 hj2 => le_false_of_lt (hbefore j hj1 hj2), ?_, hr0, hs0, hs1, ?_, hclose⟩
  · rw [compute_interp wraps lut W n (fin cv) h hn hz hle hge, hscan]
    simp only [Except.bind]
    rw [(index_cmdAt lut n (i - 1) h (by omega)).1, (index_cmdAt lut n i h hin).1,
      (index_cmdAt lut n (i - 1) h (by omega)).2, (index_cmdAt lut n i h hin).2]
    simp only [Except.bind]
    rw [hx0, hx1, hint]
    exact floatToUInt32_round r hr0 (by omega)
  · intro hceq
    rw [hx1] at hceq
    exact hseq (F32.fin.inj hceq)

theorem le_of_gt_false {a b : F32} (ha : a ≠ nan) (hb : b ≠ nan)
    (h : F32.gt a b = false) : F32.le a b = true := by
  cases a with
  | nan => exact absurd rfl ha
  | inf n =>
    cases b with
    | nan => exact absurd rfl hb
    | inf m => cases n <;> cases m <;> simp_all [F32.gt, F32.lt, F32.le]
    | fin y => cases n <;> simp_all [F32.gt, F32.lt, F32.le]
  | fin x =>
    cases b with
    | nan => exact absurd rfl hb
    | inf m => cases m <;> simp_all [F32.gt, F32.lt, F32.le]
    | fin y =>
      simp only [F32.gt, F32.lt, F32.le, decide_eq_true_eq, decide_eq_false_iff_not,
        not_lt] at h ⊢
      exact h

theorem ne_nan_of_lt_left {a b : F32} (h : F32.lt a b = true) : a ≠ nan := by
  intro ha
  subst ha
  simp [F32.lt] at h

theorem ne_nan_of_lt_right {a b : F32} (h : F32.lt a b = true) : b ≠ nan := by
  intro hb
  subst hb
  cases a <;> simp [F32.lt] at h

theorem roundHalfAway_nearest (v : ℚ) :
    |(F32.roundHalfAway v : ℚ) - v| ≤ 1 / 2 ∧
      ∀ m : ℤ, |(m : ℚ) - v| ≤ 1 / 2 → m ≠ F32.roundHalfAway v →
        |m| < |F32.roundHalfAway v| := by
  unfold F32.roundHalfAway
  split_ifs with hv
  · have h1 : ((⌊v + 1 / 2⌋ : ℤ) : ℚ) ≤ v + 1 / 2 := Int.floor_le _
    have h2 : v + 1 / 2 < ⌊v + 1 / 2⌋ + 1 := Int.lt_floor_add_one _
    refine ⟨by rw [abs_le]; constructor <;> linarith, ?_⟩
    intro m hm hne
    rw [abs_le] at hm
    have hm1 : m ≤ ⌊v + 1 / 2⌋ := by
      rw [Int.le_floor]; linarith [hm.2]
    have hm0 : (0 : ℤ) ≤ m := by
      have : (-1 : ℚ) < m := by linarith [hm.1]
      have : (-1 : ℤ) < m := by exact_mod_cast this
      omega
    rw [abs_of_nonneg hm0, abs_of_nonneg (le_trans hm0 hm1)]
    omega
  · push_neg at hv
    have h1 : ((⌊-v + 1 / 2⌋ : ℤ) : ℚ) ≤ -v + 1 / 2 := Int.floor_le _
    have h2 : -v + 1 / 2 < ⌊-v + 1 / 2⌋ + 1 := Int.lt_floor_add_one _
    have hr0 : (0 : ℤ) ≤ ⌊-v + 1 / 2⌋ := by
      rw [Int.le_floor]; push_cast; linarith
    refine ⟨by rw [abs_le]; push_cast; constructor <;> linarith, ?_⟩
    intro m hm hne
    rw [abs_le] at hm
    have hm1 : -m ≤ ⌊-v + 1 / 2⌋ := by
      rw [Int.le_floor]; push_cast; linarith [hm.1]
    have hm0 : (0 : ℤ) ≤ -m := by
      have : (-1 : ℚ) < -(m : ℚ) := by linarith [hm.2]
      have : (-1 : ℤ) < -m := by exact_mod_cast this
      omega
    rw [abs_neg, abs_of_nonneg hr0, abs_of_nonpos (by omega)]
    omega

theorem lt_of_le_false {a b : F32} (ha : a ≠ nan) (hb : b ≠ nan)
    (h : F32.le a b = false) : F32.lt b a = true := by
  cases a with
  | nan => exact absurd rfl ha
  | inf n =>
    cases b with
    | nan => exact absurd rfl hb
    | inf m => cases n <;> cases m <;> simp_all [F32.lt, F32.le]
    | fin y => cases n <;> simp_all [F32.lt, F32.le]
  | fin x =>
    cases b with
    | nan => exact absurd rfl hb
    | inf m => cases m <;> simp_all [F32.lt, F32.le]
    | fin y =>
      simp only [F32.lt, F32.le, decide_eq_true_eq, decide_eq_false_iff_not, not_le] at h ⊢
      exact h

theorem le_of_lt_F32 {a b : F32} (h : F32.lt a b = true) : F32.le a b = true := by
  cases a with
  | nan => simp [F32.lt] at h
  | inf n =>
    cases b with
    | nan => simp [F32.lt] at h
    | inf m => cases n <;> cases m <;> simp_all [F32.lt, F32.le]
    | fin y => cases n <;> simp_all [F32.lt, F32.le]
  | fin x =>
    cases b with
    | nan => simp [F32.lt] at h
    | inf m => cases m <;> simp_all [F32.lt, F32.le]
    | fin y =>
      simp only [F32.lt, F32.le, decide_eq_true_eq] at h ⊢
      exact le_of_lt h

/-- The scan of `computePWMCommand` on any table with `n >= 2` rows, reached
after `command >= cmd[n-1]` failed: it stops at an index `i` with
`1 <= i <= n - 1`, the first at which `command > cmd[i]` fails. -/
theorem scan_bound (lut : PWMTable) (n : ℕ) (c : F32) (h : lut.HasRows n) (hn2 : 2 ≤ n)
    (hge : F32.ge c (lut.cmdAt (n - 1)) = false) :
    ∃ i : ℕ, 1 ≤ i ∧ i < n ∧ scan c (lut.cmd.drop 1) 1 = .ok i ∧
      F32.gt c (lut.cmdAt i) = false ∧
      (∀ j, 1 ≤ j → j < i → F32.gt c (lut.cmdAt j) = true) := by
  have hgt : F32.gt c (lut.cmdAt (n - 1)) = false := by
    by_contra hcon
    have h1 : F32.lt (lut.cmdAt (n - 1)) c = true := by
      simpa [F32.gt] using hcon
    have h2 := le_of_lt_F32 h1
    rw [F32.ge, h2] at hge
    exact absurd hge (by simp)
  have hex : ∃ j, j < n - 1 ∧ F32.gt c ((lut.cmd.drop 1).getD j nan) = false := by
    refine ⟨n - 2, by omega, ?_⟩
    rw [getD_drop_one]
    have : n - 2 + 1 = n - 1 := by omega
    rw [this]
    exact hgt
  classical
  have hmin := Nat.find_spec hex
  have hbefore := fun m (hm : m < Nat.find hex) => Nat.find_min hex hm
  set j := Nat.find hex with hj
  have hjn : j < n - 1 := hmin.1
  have hlen : (lut.cmd.drop 1).length = n - 1 := by
    simp [h.1]
  have hb : ∀ m, m < j → F32.gt c ((lut.cmd.drop 1).getD m nan) = true := by
    intro m hm
    have := hbefore m hm
    simp only [not_and, Bool.not_eq_false] at this
    exact this (by omega)
  refine ⟨1 + j, by omega, by omega, scan_stops c _ 1 j (by omega) hmin.2 hb, ?_, ?_⟩
  · have := hmin.2
    rw [getD_drop_one] at this
    rw [show 1 + j = j + 1 by omega]
    exact this
  · intro m hm1 hm2
    have := hb (m - 1) (by omega)
    rw [getD_drop_one] at this
    rw [show m - 1 + 1 = m by omega] at this
    exact this

theorem floatToUInt32_error (x : F32) (e : UB) (h : floatToUInt32 x = .error e) :
    e = UB.floatToUInt32 := by
  cases x with
  | nan => simp only [floatToUInt32] at h; injection h with h; exact h.symm
  | inf n => simp only [floatToUInt32] at h; injection h with h; exact h.symm
  | fin v =>
    simp only [floatToUInt32] at h
    split_ifs at h
    injection h with h
    exact h.symm

theorem lt_of_lt_of_le_F32 {a b c : F32} (h1 : F32.lt a b = true) (h2 : F32.le b c = true) :
    F32.lt a c = true := by
  cases a with
  | nan => simp [F32.lt] at h1
  | inf n =>
    cases b with
    | nan => simp [F32.lt] at h1
    | inf m =>
      cases c with
      | nan => simp [F32.le] at h2
      | inf k => cases n <;> cases m <;> cases k <;> simp_all [F32.lt, F32.le]
      | fin z => cases n <;> cases m <;> simp_all [F32.lt, F32.le]
    | fin y =>
      cases c with
      | nan => simp [F32.le] at h2
      | inf k => cases n <;> cases k <;> simp_all [F32.lt, F32.le]
      | fin z => cases n <;> simp_all [F32.lt, F32.le]
  | fin x =>
    cases b with
    | nan => simp [F32.lt] at h1
    | inf m =>
      cases c with
      | nan => simp [F32.le] at h2
      | inf k => cases m <;> cases k <;> simp_all [F32.lt, F32.le]
      | fin z => cases m <;> simp_all [F32.lt, F32.le]
    | fin y =>
      cases c with
      | nan => simp [F32.le] at h2
      | inf k => cases k <;> simp_all [F32.lt, F32.le]
      | fin z =>
        simp only [F32.lt, F32.le, decide_eq_true_eq] at h1 h2 ⊢
        exact lt_of_lt_of_le h1 h2

theorem ofRat_pos {q : ℚ} (h : 0 < roundNE 24 (-149) q) :
    F32.lt (fin 0) (F32.ofRat q) = true := by
  unfold F32.ofRat
  simp only
  split_ifs with hov
  · have : decide (roundNE 24 (-149) q < 0) = false := by
      simp only [decide_eq_false_iff_not, not_lt]
      exact le_of_lt h
    rw [this]
    rfl
  · simp only [F32.lt, decide_eq_true_eq]
    exact h

/-- The float difference `b - a` of two float values with `a < b` is strictly
positive (it may be `+inf`). -/
theorem sub_pos_of_lt {a b : F32} (ha : a.IsRepr) (hb : b.IsRepr)
    (h : F32.lt a b = true) : F32.lt (fin 0) (F32.sub b a) = true := by
  cases a with
  | nan => simp [F32.lt] at h
  | inf n =>
    cases b with
    | nan => simp [F32.lt] at h
    | inf m => cases n <;> cases m <;> simp_all [F32.lt, F32.sub, F32.neg, F32.add]
    | fin y => cases n <;> simp_all [F32.lt, F32.sub, F32.neg, F32.add]
  | fin x =>
    cases b with
    | nan => simp [F32.lt] at h
    | inf m => cases m <;> simp_all [F32.lt, F32.sub, F32.neg, F32.add]
    | fin y =>
      have hxy : x < y := by simpa [F32.lt] using h
      simp only [F32.sub, F32.neg, F32.add, ← sub_eq_add_neg]
      exact ofRat_pos (roundNE_sub_pos hb ha hxy)

theorem toUInt32_of_range {y : ℤ} (h0 : 0 ≤ y) (h1 : y ≤ 2 ^ 21) :
    toUInt32 y = y.toNat ∧ ((toUInt32 y : ℕ) : ℤ) = y := by
  have : toUInt32 y = y.toNat := by
    unfold toUInt32
    rw [Int.emod_eq_of_lt h0 (by omega)]
  exact ⟨this, by rw [this, Int.toNat_of_nonneg h0]⟩

/-- The result of the interpolation branch lies between the duty values of the
bracket, under the bounds of `compute_bracket`. -/
theorem compute_bracket_range (wraps : Bool) (lut : PWMTable) (W n : ℕ) (c : F32)
    (h : lut.HasRows n)
    (hcmd : ∀ j, j < n → (lut.cmdAt j).Moderate)
    (hduty : ∀ j, j < n → 0 ≤ lut.dutyAt j ∧ lut.dutyAt j ≤ 2 ^ 21)
    (hw : wraps = true → ∀ j, j + 1 < n → lut.dutyAt j ≤ lut.dutyAt (j + 1))
    (hc : c.IsRepr) (hz : F32.feq c (fin 0) = false)
    (hlo : F32.lt (lut.cmdAt 0) c = true) (hhi : F32.lt c (lut.cmdAt (n - 1)) = true) :
    ∃ (i v : ℕ), 1 ≤ i ∧ i < n ∧ F32.le c (lut.cmdAt i) = true ∧
      (∀ j, 1 ≤ j → j < i → F32.le c (lut.cmdAt j) = false) ∧
      computePWMCommand wraps lut W c = .ok v ∧
      min (lut.dutyAt (i - 1)) (lut.dutyAt i) ≤ (v : ℤ) ∧
      (v : ℤ) ≤ max (lut.dutyAt (i - 1)) (lut.dutyAt i) := by
  obtain ⟨i, r, s, hi1, hin, hle, hmin, hres, hr0, hs0, hs1, _, hclose⟩ :=
    compute_bracket wraps lut W n c h hcmd hduty hw hc hz hlo hhi
  have hy0 := (hduty (i - 1) (by omega)).1
  have hy1 := (hduty i hin).1
  have hval : (lut.dutyAt (i - 1) : ℚ) + ((lut.dutyAt i : ℚ) - lut.dutyAt (i - 1)) * s =
      lut.dutyAt (i - 1) * (1 - s) + lut.dutyAt i * s := by ring
  have hs2 : (0 : ℚ) ≤ 1 - s := by linarith
  have hlo2 : ((min (lut.dutyAt (i - 1)) (lut.dutyAt i) : ℤ) : ℚ) ≤
      (lut.dutyAt (i - 1) : ℚ) + ((lut.dutyAt i : ℚ) - lut.dutyAt (i - 1)) * s := by
    rw [hval]
    have h1 : ((min (lut.dutyAt (i - 1)) (lut.dutyAt i) : ℤ) : ℚ) ≤ lut.dutyAt (i - 1) := by
      exact_mod_cast min_le_left _ _
    have h2 : ((min (lut.dutyAt (i - 1)) (lut.dutyAt i) : ℤ) : ℚ) ≤ lut.dutyAt i := by
      exact_mod_cast min_le_right _ _
    have h3 := mul_le_mul_of_nonneg_right h1 hs2
    have h4 := mul_le_mul_of_nonneg_right h2 (le_of_lt hs0)
    linarith
  have hhi2 : (lut.dutyAt (i - 1) : ℚ) + ((lut.dutyAt i : ℚ) - lut.dutyAt (i - 1)) * s ≤
      ((max (lut.dutyAt (i - 1)) (lut.dutyAt i) : ℤ) : ℚ) := by
    rw [hval]
    have h1 : (lut.dutyAt (i - 1) : ℚ) ≤
        ((max (lut.dutyAt (i - 1)) (lut.dutyAt i) : ℤ) : ℚ) := by
      exact_mod_cast le_max_left _ _
    have h2 : (lut.dutyAt i : ℚ) ≤ ((max (lut.dutyAt (i - 1)) (lut.dutyAt i) : ℤ) : ℚ) := by
      exact_mod_cast le_max_right _ _
    have h3 := mul_le_mul_of_nonneg_right h1 hs2
    have h4 := mul_le_mul_of_nonneg_right h2 (le_of_lt hs0)
    linarith
  obtain ⟨hb1, hb2⟩ := roundHalfAway_between r _ (min (lut.dutyAt (i - 1)) (lut.dutyAt i))
    (max (lut.dutyAt (i - 1)) (lut.dutyAt i)) (le_min hy0 hy1) hlo2 hhi2 hclose
  refine ⟨i, (F32.roundHalfAway r).toNat, hi1, hin, hle, hmin, hres, ?_, ?_⟩
  · rw [Int.toNat_of_nonneg hr0]; exact hb1
  · rw [Int.toNat_of_nonneg hr0]; exact hb2

/-- The three branches of `computePWMCommand` on a table of moderate commands
for a non-zero command other than NaN. -/
theorem compute_cases (wraps : Bool) (lut : PWMTable) (W n : ℕ) (c : F32)
    (h : lut.HasRows n) (hn : 1 ≤ n)
    (hcmd : ∀ j, j < n → (lut.cmdAt j).Moderate) (hc : c ≠ nan)
    (hz : F32.feq c (fin 0) = false) :
    (F32.le c (lut.cmdAt 0) = true ∧
      computePWMCommand wraps lut W c = .ok (toUInt32 (lut.dutyAt 0))) ∨
    (F32.lt (lut.cmdAt 0) c = true ∧ F32.le (lut.cmdAt (n - 1)) c = true ∧
      computePWMCommand wraps lut W c = .ok (toUInt32 (lut.dutyAt (n - 1)))) ∨
    (F32.lt (lut.cmdAt 0) c = true ∧ F32.lt c (lut.cmdAt (n - 1)) = true) := by
  obtain ⟨x0, hx0, _, _⟩ := moderate_fin (hcmd 0 (by omega))
  obtain ⟨xn, hxn, _, _⟩ := moderate_fin (hcmd (n - 1) (by omega))
  have h0 : lut.cmdAt 0 ≠ nan := by rw [hx0]; simp
  have hl : lut.cmdAt (n - 1) ≠ nan := by rw [hxn]; simp
  by_cases hle : F32.le c (lut.cmdAt 0) = true
  · exact Or.inl ⟨hle, compute_low wraps lut W n c h hn hz hle⟩
  · have hle2 : F32.le c (lut.cmdAt 0) = false := by simpa using hle
    have hlo := lt_of_le_false hc h0 hle2
    by_cases hge : F32.ge c (lut.cmdAt (n - 1)) = true
    · exact Or.inr (Or.inl ⟨hlo, hge, compute_high wraps lut W n c h hn hz hle2 hge⟩)
    · have hge2 : F32.le (lut.cmdAt (n - 1)) c = false := by simpa [F32.ge] using hge
      exact Or.inr (Or.inr ⟨hlo, lt_of_le_false hl hc hge2⟩)

/-! ## Evaluation of the model at concrete inputs -/

theorem rne_eq_of_close (q : ℚ) (n : ℤ) (h : |q - n| < 1 / 2) : rne q = n := by
  have h1 := rne_error q
  rw [abs_lt] at h
  rw [abs_le] at h1
  have h2 : ((rne q - n : ℤ) : ℚ) < 1 := by push_cast; linarith [h.1, h.2, h1.1, h1.2]
  have h3 : (-1 : ℚ) < ((rne q - n : ℤ) : ℚ) := by push_cast; linarith [h.1, h.2, h1.1, h1.2]
  have h4 : rne q - n < 1 := by exact_mod_cast h2
  have h5 : -1 < rne q - n := by exact_mod_cast h3
  omega

theorem rne_tie (f : ℤ) : rne ((f : ℚ) + 1 / 2) = if f % 2 = 0 then f else f + 1 := by
  have hfl : ⌊(f : ℚ) + 1 / 2⌋ = f := by
    rw [Int.floor_eq_iff]
    constructor <;> linarith
  unfold rne
  simp only [hfl]
  rw [if_neg (by norm_num), if_neg (by norm_num)]

theorem roundNE_eval (prec : ℕ) (emin u : ℤ) (q : ℚ) (hu : emin ≤ u)
    (h1 : (2 : ℚ) ^ (u + prec - 1) ≤ |q|) (h2 : |q| < (2 : ℚ) ^ (u + prec)) :
    roundNE prec emin q = rne (q / (2 : ℚ) ^ u) * (2 : ℚ) ^ u := by
  have hq0 : q ≠ 0 := by
    intro hq
    rw [hq, abs_zero] at h1
    exact absurd h1 (not_le.mpr (two_zpow_pos _))
  have hpos : (0 : ℚ) < |q| := abs_pos.mpr hq0
  have hlog : Int.log 2 |q| = u + prec - 1 := by
    apply le_antisymm
    · have := log_abs_lt_of_lt hq0 h2
      omega
    · rw [← Int.zpow_le_iff_le_log (by norm_num) hpos]
      simpa using h1
  have hue : ulpExp prec emin q = u := by
    unfold ulpExp
    rw [hlog]
    have : u + (prec : ℤ) - 1 - ((prec : ℤ) - 1) = u := by ring
    rw [this]
    exact max_eq_left hu
  unfold roundNE
  rw [hue]

theorem ofRat_eval (u : ℤ) (q : ℚ) (n : ℤ) (hu : -149 ≤ u)
    (h1 : (2 : ℚ) ^ (u + 23) ≤ |q|) (h2 : |q| < (2 : ℚ) ^ (u + 24))
    (hn : rne (q / (2 : ℚ) ^ u) = n) (hfin : |(n : ℚ) * (2 : ℚ) ^ u| < 2 ^ 128) :
    F32.ofRat q = fin (n * (2 : ℚ) ^ u) := by
  have h := roundNE_eval 24 (-149) u q hu (by
    have : u + ((24 : ℕ) : ℤ) - 1 = u + 23 := by norm_num; ring
    rw [this]; exact h1) (by exact_mod_cast h2)
  rw [hn] at h
  have := ofRat_of_abs_lt (q := q) (by rw [h]; exact hfin)
  rw [this, h]

-- 5592409 * 3 = 16777227 is not a binary32 number
theorem eval_mul_large : F32.ofRat (5592409 * 3) = fin 16777228 := by
  have hr : rne ((5592409 * 3 : ℚ) / (2 : ℚ) ^ (1 : ℤ)) = 8388614 := by
    have : (5592409 * 3 : ℚ) / (2 : ℚ) ^ (1 : ℤ) = ((8388613 : ℤ) : ℚ) + 1 / 2 := by norm_num
    rw [this, rne_tie]
    norm_num
  have := ofRat_eval 1 (5592409 * 3) 8388614 (by norm_num) (by norm_num [abs_of_pos])
    (by norm_num [abs_of_pos]) hr (by norm_num [abs_of_pos])
  rw [this]
  norm_num

theorem eval_div_large : F32.ofRat (16777228 / 3) = fin (11184819 / 2) := by
  have hr : rne ((16777228 / 3 : ℚ) / (2 : ℚ) ^ (-1 : ℤ)) = 11184819 := by
    apply rne_eq_of_close
    norm_num [abs_lt]
  have := ofRat_eval (-1) (16777228 / 3) 11184819 (by norm_num) (by norm_num [abs_of_pos])
    (by norm_num [abs_of_pos]) hr (by norm_num [abs_of_pos])
  rw [this]
  norm_num
theorem ofRat_int_lit (n : ℤ) (hn : |n| < 2 ^ 24) (q : ℚ) (hq : q = n) :
    F32.ofRat q = fin q := by
  rw [hq]; exact ofRat_intCast n hn

theorem sub_fin_int (a b : ℚ) (n : ℤ) (hn : |n| < 2 ^ 24) (h : a - b = n) :
    F32.sub (fin a) (fin b) = fin (a - b) := by
  simp only [F32.sub, F32.neg, F32.add, ← sub_eq_add_neg]
  exact ofRat_int_lit n hn _ h

theorem eval_interp_large (wraps : Bool) :
    interpolate wraps (fin 1) (fin 4) 0 5592409 (fin 4) = fin (11184819 / 2) := by
  have hD : dutyDiff wraps 5592409 0 = 5592409 := by
    unfold dutyDiff
    split_ifs <;> norm_num
  have hs : F32.sub (fin 4) (fin 1) = fin 3 := by
    rw [sub_fin_int 4 1 3 (by norm_num) (by norm_num)]
    norm_num
  have h0 : F32.ofRat ((0 : ℤ) : ℚ) = fin 0 := by
    simpa using ofRat_intCast 0 (by norm_num)
  have hd : F32.ofRat ((5592409 : ℤ) : ℚ) = fin 5592409 := by
    simpa using ofRat_intCast 5592409 (by norm_num)
  have hadd : F32.ofRat (0 + 11184819 / 2) = fin (11184819 / 2) := by
    have := ofRat_int_mul 11184819 (-1) (by norm_num) (by norm_num) (by norm_num)
    norm_num at this ⊢
    exact this
  unfold interpolate
  rw [hD, hs]
  simp only [F32.ofInt]
  rw [h0, hd]
  simp only [F32.mul]
  rw [eval_mul_large]
  simp only [F32.div]
  rw [if_neg (by norm_num), eval_div_large]
  simp only [F32.add]
  rw [hadd]

theorem eval_large_duty (wraps : Bool) (W : ℕ) :
    computePWMCommand wraps ⟨[fin 1, fin 4, fin 5], [0, 5592409, 5592409]⟩ W (fin 4) =
      .ok 5592410 := by
  have hr : F32.roundHalfAway (11184819 / 2) = 5592410 := by
    unfold F32.roundHalfAway
    rw [if_pos (by norm_num)]
    have : (11184819 / 2 : ℚ) + 1 / 2 = ((5592410 : ℤ) : ℚ) := by norm_num
    rw [this, Int.floor_intCast]
  have hscan : scan (fin 4) [fin 4, fin 5] 1 = .ok (1 + 0) :=
    scan_stops (fin 4) [fin 4, fin 5] 1 0 (by simp) (lt_fin_false 4 4 le_rfl)
      (fun m hm => absurd hm (by omega))
  rw [compute_eq_interp wraps ⟨[fin 1, fin 4, fin 5], [0, 5592409, 5592409]⟩ W 3 1 (fin 4)
    ⟨rfl, rfl⟩ (feq_fin_false 4 (by norm_num)) (le_fin_false 4 1 (by norm_num))
    (le_fin_false 5 4 (by norm_num)) hscan le_rfl (by norm_num)]
  have hi : interpolate wraps
      (PWMTable.cmdAt ⟨[fin 1, fin 4, fin 5], [0, 5592409, 5592409]⟩ (1 - 1))
      (PWMTable.cmdAt ⟨[fin 1, fin 4, fin 5], [0, 5592409, 5592409]⟩ 1)
      (PWMTable.dutyAt ⟨[fin 1, fin 4, fin 5], [0, 5592409, 5592409]⟩ (1 - 1))
      (PWMTable.dutyAt ⟨[fin 1, fin 4, fin 5], [0, 5592409, 5592409]⟩ 1) (fin 4) =
      fin (11184819 / 2) := eval_interp_large wraps
  rw [hi]
  unfold F32.round floatToUInt32
  simp only [hr]
  rw [if_pos (by norm_num)]
  rw [Int.floor_intCast]
  rfl

theorem ofRat_two_pow_128 : F32.ofRat ((2 : ℚ) ^ 127 + (2 : ℚ) ^ 127) = inf false := by
  have h := roundNE_int_mul 24 (-149) 1 128 (by norm_num) (by norm_num)
  have hq : ((1 : ℤ) : ℚ) * (2 : ℚ) ^ (128 : ℤ) = (2 : ℚ) ^ 127 + (2 : ℚ) ^ 127 := by norm_num
  rw [hq] at h
  unfold F32.ofRat
  simp only [h]
  rw [if_pos (by norm_num [abs_of_pos])]
  norm_num

theorem eval_overflow (wraps : Bool) (W : ℕ) :
    computePWMCommand wraps
      ⟨[fin (-(2 ^ 127)), fin (2 ^ 127), fin (3 * 2 ^ 126)], [1500, 1900, 1900]⟩ W
      (fin (2 ^ 127)) = .error UB.floatToUInt32 := by
  have hD : dutyDiff wraps 1900 1500 = 400 := by
    unfold dutyDiff
    split_ifs <;> norm_num
  have hs : F32.sub (fin (2 ^ 127)) (fin (-(2 ^ 127))) = inf false := by
    simp only [F32.sub, F32.neg, F32.add, neg_neg]
    exact ofRat_two_pow_128
  have hd : F32.ofRat ((400 : ℤ) : ℚ) = fin 400 := by
    simpa using ofRat_intCast 400 (by norm_num)
  have hi : interpolate wraps (fin (-(2 ^ 127))) (fin (2 ^ 127)) 1500 1900 (fin (2 ^ 127)) =
      nan := by
    unfold interpolate
    rw [hD, hs]
    simp only [F32.ofInt]
    rw [hd]
    simp only [F32.mul]
    rw [if_neg (by norm_num)]
    simp only [F32.div]
    cases F32.ofRat ((1500 : ℤ) : ℚ) <;> rfl
  have hscan : scan (fin (2 ^ 127)) [fin (2 ^ 127), fin (3 * 2 ^ 126)] 1 = .ok (1 + 0) :=
    scan_stops (fin (2 ^ 127)) [fin (2 ^ 127), fin (3 * 2 ^ 126)] 1 0 (by simp)
      (lt_fin_false _ _ le_rfl) (fun m hm => absurd hm (by omega))
  rw [compute_eq_interp wraps
    ⟨[fin (-(2 ^ 127)), fin (2 ^ 127), fin (3 * 2 ^ 126)], [1500, 1900, 1900]⟩ W 3 1
    (fin (2 ^ 127)) ⟨rfl, rfl⟩ (feq_fin_false _ (by norm_num))
    (le_fin_false _ _ (by norm_num)) (le_fin_false _ _ (by norm_num)) hscan le_rfl
    (by norm_num)]
  have hi2 : interpolate wraps
      (PWMTable.cmdAt
        ⟨[fin (-(2 ^ 127)), fin (2 ^ 127), fin (3 * 2 ^ 126)], [1500, 1900, 1900]⟩ (1 - 1))
      (PWMTable.cmdAt
        ⟨[fin (-(2 ^ 127)), fin (2 ^ 127), fin (3 * 2 ^ 126)], [1500, 1900, 1900]⟩ 1)
      (PWMTable.dutyAt
        ⟨[fin (-(2 ^ 127)), fin (2 ^ 127), fin (3 * 2 ^ 126)], [1500, 1900, 1900]⟩ (1 - 1))
      (PWMTable.dutyAt
        ⟨[fin (-(2 ^ 127)), fin (2 ^ 127), fin (3 * 2 ^ 126)], [1500, 1900, 1900]⟩ 1)
      (fin (2 ^ 127)) = nan := hi
  rw [hi2]
  rfl

theorem eval_ofInt_wrapped : F32.ofRat 4294966896 = fin 4294966784 := by
  have hr : rne ((4294966896 : ℚ) / (2 : ℚ) ^ (8 : ℤ)) = 16777214 := by
    apply rne_eq_of_close
    norm_num [abs_lt]
  have := ofRat_eval 8 4294966896 16777214 (by norm_num) (by norm_num [abs_of_pos])
    (by norm_num [abs_of_pos]) hr (by norm_num [abs_of_pos])
  rw [this]
  norm_num

theorem eval_add_wrapped : F32.ofRat (1900 + 4294966784) = fin 4294968832 := by
  have hr : rne ((1900 + 4294966784 : ℚ) / (2 : ℚ) ^ (9 : ℤ)) = 8388611 := by
    apply rne_eq_of_close
    norm_num [abs_lt]
  have := ofRat_eval 9 (1900 + 4294966784) 8388611 (by norm_num) (by norm_num [abs_of_pos])
    (by norm_num [abs_of_pos]) hr (by norm_num [abs_of_pos])
  rw [this]
  norm_num

theorem eval_wrapped (W : ℕ) :
    computePWMCommand true ⟨[fin 1, fin 2, fin 3], [1900, 1500, 1500]⟩ W (fin 2) =
      .error UB.floatToUInt32 := by
  have hD : dutyDiff true 1500 1900 = 4294966896 := by
    unfold dutyDiff
    norm_num
  have hs : F32.sub (fin 2) (fin 1) = fin 1 := by
    rw [sub_fin_int 2 1 1 (by norm_num) (by norm_num)]
    norm_num
  have hy : F32.ofRat ((1900 : ℤ) : ℚ) = fin 1900 := by
    simpa using ofRat_intCast 1900 (by norm_num)
  have hm : F32.ofRat (4294966784 * 1) = fin 4294966784 := by
    have := ofRat_int_mul 16777214 8 (by norm_num) (by norm_num) (by norm_num)
    norm_num at this ⊢
    exact this
  have hq : F32.ofRat (4294966784 / 1) = fin 4294966784 := by
    have := ofRat_int_mul 16777214 8 (by norm_num) (by norm_num) (by norm_num)
    norm_num at this ⊢
    exact this
  have hi : interpolate true (fin 1) (fin 2) 1900 1500 (fin 2) = fin 4294968832 := by
    unfold interpolate
    rw [hD, hs]
    simp only [F32.ofInt]
    rw [hy]
    have : ((4294966896 : ℤ) : ℚ) = 4294966896 := by norm_num
    rw [this, eval_ofInt_wrapped]
    simp only [F32.mul]
    rw [hm]
    simp only [F32.div]
    rw [if_neg (by norm_num), hq]
    simp only [F32.add]
    rw [eval_add_wrapped]
  have hr : F32.roundHalfAway 4294968832 = 4294968832 := by
    unfold F32.roundHalfAway
    rw [if_pos (by norm_num)]
    have : (4294968832 : ℚ) + 1 / 2 = ((4294968832 : ℤ) : ℚ) + 1 / 2 := by norm_num
    rw [this, Int.floor_eq_iff]
    constructor <;> norm_num
  have hscan : scan (fin 2) [fin 2, fin 3] 1 = .ok (1 + 0) :=
    scan_stops (fin 2) [fin 2, fin 3] 1 0 (by simp) (lt_fin_false 2 2 le_rfl)
      (fun m hm => absurd hm (by omega))
  rw [compute_eq_interp true ⟨[fin 1, fin 2, fin 3], [1900, 1500, 1500]⟩ W 3 1 (fin 2)
    ⟨rfl, rfl⟩ (feq_fin_false 2 (by norm_num)) (le_fin_false 2 1 (by norm_num))
    (le_fin_false 3 2 (by norm_num)) hscan le_rfl (by norm_num)]
  have hi2 : interpolate true
      (PWMTable.cmdAt ⟨[fin 1, fin 2, fin 3], [1900, 1500, 1500]⟩ (1 - 1))
      (PWMTable.cmdAt ⟨[fin 1, fin 2, fin 3], [1900, 1500, 1500]⟩ 1)
      (PWMTable.dutyAt ⟨[fin 1, fin 2, fin 3], [1900, 1500, 1500]⟩ (1 - 1))
      (PWMTable.dutyAt ⟨[fin 1, fin 2, fin 3], [1900, 1500, 1500]⟩ 1) (fin 2) =
      fin 4294968832 := hi
  rw [hi2]
  unfold F32.round floatToUInt32
  simp only [hr]
  rw [if_neg (by norm_num)]

theorem eval_load_example (wraps : Bool) : loadCommandToPWMTable atof atoi wraps (some "0.0,1500\n1.0,1900\n".toList) =
        .ok ⟨[fin 0, fin 1], [1500, 1900]⟩ := by
    have hl : getlines "0.0,1500\n1.0,1900\n".toList [] =
        ["0.0,1500".toList, "1.0,1900".toList] := by decide
    have hs1 : substr "0.0,1500".toList 0 (find "0.0,1500".toList ',') = "0.0".toList := by
      decide
    have hs2 : substr "1.0,1900".toList 0 (find "1.0,1900".toList ',') = "1.0".toList := by
      decide
    have hd1 : atoi (substr "0.0,1500".toList ((find "0.0,1500".toList ',' + 1) % 2 ^ 64) npos)
        = 1500 := by decide
    have hd2 : atoi (substr "1.0,1900".toList ((find "1.0,1900".toList ',' + 1) % 2 ^ 64) npos)
        = 1900 := by decide
    have hf0 : F32.ofRat 0 = fin 0 := by simpa using ofRat_intCast 0 (by norm_num)
    have hf1 : F32.ofRat 1 = fin 1 := by simpa using ofRat_intCast 1 (by norm_num)
    have hst : ∀ v : ℤ, 0 ≤ v → v < 2 ^ 32 → storeDuty wraps v = v := by
      intro v h0 h1
      unfold storeDuty
      split_ifs
      · exact Int.emod_eq_of_lt h0 h1
      · rfl
    unfold loadCommandToPWMTable
    simp only
    rw [hl, loadRows_eq]
    simp only [List.map_cons, List.map_nil, List.nil_append]
    rw [hs1, hs2, hd1, hd2, atof_zero_text, atof_one_text]
    simp only [F32.doubleToFloat]
    rw [hf0, hf1, hst 1500 (by norm_num) (by norm_num), hst 1900 (by norm_num) (by norm_num)]

theorem eval_interp_example (wraps : Bool) : interpolate wraps (fin 0) (fin 1) 1500 1900 (fin (1 / 2)) = fin 1700 := by
    have hdiff : dutyDiff wraps 1900 1500 = 400 := by
      unfold dutyDiff
      split_ifs <;> norm_num
    have e3 : F32.ofRat ((400 : ℤ) : ℚ) = fin 400 := by
      simpa using ofRat_intCast 400 (by norm_num)
    have e5 : F32.ofRat ((1500 : ℤ) : ℚ) = fin 1500 := by
      simpa using ofRat_intCast 1500 (by norm_num)
    have s1 : F32.sub (fin (1 / 2)) (fin 0) = fin (1 / 2) := by
      simp only [F32.sub, F32.neg, F32.add, neg_zero, add_zero]
      simpa using ofRat_int_mul 1 (-1) (by norm_num) (by norm_num) (by norm_num)
    have s2 : F32.sub (fin 1) (fin 0) = fin 1 := by
      simp only [F32.sub, F32.neg, F32.add, neg_zero, add_zero]
      simpa using ofRat_intCast 1 (by norm_num)
    have e4 : F32.ofRat (400 * (1 / 2)) = fin 200 := by
      rw [ofRat_int_lit 200 (by norm_num) _ (by norm_num)]
      norm_num
    have e7 : F32.ofRat (200 / 1) = fin 200 := by
      rw [ofRat_int_lit 200 (by norm_num) _ (by norm_num)]
      norm_num
    have e6 : F32.ofRat (1500 + 200) = fin 1700 := by
      rw [ofRat_int_lit 1700 (by norm_num) _ (by norm_num)]
      norm_num
    unfold interpolate
    rw [hdiff, s1, s2]
    simp only [F32.ofInt]
    rw [e3, e5]
    simp only [F32.mul]
    rw [e4]
    simp only [F32.div]
    rw [if_neg (by norm_num), e7]
    simp only [F32.add]
    rw [e6]

theorem eval_mul_tie : F32.ofRat (400 * (8409579 / 16777216)) = fin (13139967 / 65536) := by
  have hr : rne ((400 * (8409579 / 16777216) : ℚ) / (2 : ℚ) ^ (-16 : ℤ)) = 13139967 := by
    apply rne_eq_of_close
    norm_num [abs_lt]
  have := ofRat_eval (-16) (400 * (8409579 / 16777216)) 13139967 (by norm_num)
    (by norm_num [abs_of_pos]) (by norm_num [abs_of_pos]) hr (by norm_num [abs_of_pos])
  rw [this]
  norm_num

theorem eval_add_tie : F32.ofRat (1500 + 13139967 / 65536) = fin (3401 / 2) := by
  have hr : rne ((1500 + 13139967 / 65536 : ℚ) / (2 : ℚ) ^ (-13 : ℤ)) = 13930496 := by
    apply rne_eq_of_close
    norm_num [abs_lt]
  have := ofRat_eval (-13) (1500 + 13139967 / 65536) 13930496 (by norm_num)
    (by norm_num [abs_of_pos]) (by norm_num [abs_of_pos]) hr (by norm_num [abs_of_pos])
  rw [this]
  norm_num

theorem eval_interp_tie (wraps : Bool) :
    interpolate wraps (fin 0) (fin 1) 1500 1900 (fin (8409579 / 16777216)) =
      fin (3401 / 2) := by
  have hdiff : dutyDiff wraps 1900 1500 = 400 := by
    unfold dutyDiff
    split_ifs <;> norm_num
  have e3 : F32.ofRat ((400 : ℤ) : ℚ) = fin 400 := by
    simpa using ofRat_intCast 400 (by norm_num)
  have e5 : F32.ofRat ((1500 : ℤ) : ℚ) = fin 1500 := by
    simpa using ofRat_intCast 1500 (by norm_num)
  have s1 : F32.sub (fin (8409579 / 16777216)) (fin 0) = fin (8409579 / 16777216) := by
    simp only [F32.sub, F32.neg, F32.add, neg_zero, add_zero]
    have := ofRat_int_mul 8409579 (-24) (by norm_num) (by norm_num) (by norm_num)
    norm_num at this ⊢
    exact this
  have s2 : F32.sub (fin 1) (fin 0) = fin 1 := by
    simp only [F32.sub, F32.neg, F32.add, neg_zero, add_zero]
    simpa using ofRat_intCast 1 (by norm_num)
  have e7 : F32.ofRat (13139967 / 65536 / 1) = fin (13139967 / 65536) := by
    have := ofRat_int_mul 13139967 (-16) (by norm_num) (by norm_num) (by norm_num)
    norm_num at this ⊢
    exact this
  unfold interpolate
  rw [hdiff, s1, s2]
  simp only [F32.ofInt]
  rw [e3, e5]
  simp only [F32.mul]
  rw [eval_mul_tie]
  simp only [F32.div]
  rw [if_neg (by norm_num), e7]
  simp only [F32.add]
  rw [eval_add_tie]

theorem eval_tie (wraps : Bool) (W : ℕ) :
    computePWMCommand wraps ⟨[fin 0, fin 1], [1500, 1900]⟩ W (fin (8409579 / 16777216)) =
      .ok 1701 := by
  have hscan : scan (fin (8409579 / 16777216)) [fin 1] 1 = .ok (1 + 0) :=
    scan_stops (fin (8409579 / 16777216)) [fin 1] 1 0 (by simp)
      (lt_fin_false _ _ (by norm_num)) (fun m hm => absurd hm (by omega))
  rw [compute_eq_interp wraps ⟨[fin 0, fin 1], [1500, 1900]⟩ W 2 1
    (fin (8409579 / 16777216)) ⟨rfl, rfl⟩ (feq_fin_false _ (by norm_num))
    (le_fin_false _ _ (by norm_num)) (le_fin_false _ _ (by norm_num)) hscan le_rfl
    (by norm_num)]
  have hi : interpolate wraps (PWMTable.cmdAt ⟨[fin 0, fin 1], [1500, 1900]⟩ (1 - 1))
      (PWMTable.cmdAt ⟨[fin 0, fin 1], [1500, 1900]⟩ 1)
      (PWMTable.dutyAt ⟨[fin 0, fin 1], [1500, 1900]⟩ (1 - 1))
      (PWMTable.dutyAt ⟨[fin 0, fin 1], [1500, 1900]⟩ 1) (fin (8409579 / 16777216)) =
      fin (3401 / 2) := eval_interp_tie wraps
  have hr : F32.roundHalfAway (3401 / 2) = 1701 := by
    unfold F32.roundHalfAway
    rw [if_pos (by norm_num), Int.floor_eq_iff]
    constructor <;> norm_num
  rw [hi]
  unfold F32.round floatToUInt32
  simp only [hr]
  rw [if_pos (by norm_num), Int.floor_intCast]
  rfl

theorem eval_exact_tie :
    F32.roundHalfAway (exactInterpolation 0 1 1500 1900 (8409579 / 16777216)) = 1700 := by
  unfold F32.roundHalfAway exactInterpolation
  rw [if_pos (by norm_num), Int.floor_eq_iff]
  constructor <;> norm_num


theorem eval_interp_flat (wraps : Bool) :
    interpolate wraps (fin 4) (fin 5) 5592409 5592409 (fin (9 / 2)) = fin 5592409 := by
  have hD : dutyDiff wraps 5592409 5592409 = 0 := by
    unfold dutyDiff
    split_ifs <;> norm_num
  have hs : F32.sub (fin 5) (fin 4) = fin 1 := by
    rw [sub_fin_int 5 4 1 (by norm_num) (by norm_num)]
    norm_num
  have ht : F32.sub (fin (9 / 2)) (fin 4) = fin (1 / 2) := by
    simp only [F32.sub, F32.neg, F32.add, ← sub_eq_add_neg]
    have := ofRat_int_mul 1 (-1) (by norm_num) (by norm_num) (by norm_num)
    norm_num at this ⊢
    exact this
  have h0 : F32.ofRat ((0 : ℤ) : ℚ) = fin 0 := by
    simpa using ofRat_intCast 0 (by norm_num)
  have hd : F32.ofRat ((5592409 : ℤ) : ℚ) = fin 5592409 := by
    simpa using ofRat_intCast 5592409 (by norm_num)
  have hm : F32.ofRat (0 * (1 / 2)) = fin 0 := by
    rw [zero_mul]
    simpa using ofRat_intCast 0 (by norm_num)
  have hq : F32.ofRat (0 / 1) = fin 0 := by
    rw [zero_div]
    simpa using ofRat_intCast 0 (by norm_num)
  have hadd : F32.ofRat (5592409 + 0) = fin 5592409 := by
    rw [add_zero]
    simpa using ofRat_intCast 5592409 (by norm_num)
  unfold interpolate
  rw [hD, hs, ht]
  simp only [F32.ofInt]
  rw [h0, hd]
  simp only [F32.mul]
  rw [hm]
  simp only [F32.div]
  rw [if_neg (by norm_num), hq]
  simp only [F32.add]
  rw [hadd]

theorem eval_flat_bracket (wraps : Bool) (W : ℕ) :
    computePWMCommand wraps ⟨[fin 1, fin 4, fin 5], [0, 5592409, 5592409]⟩ W (fin (9 / 2)) =
      .ok 5592409 := by
  have hr : F32.roundHalfAway 5592409 = 5592409 := by
    unfold F32.roundHalfAway
    rw [if_pos (by norm_num)]
    have : (5592409 : ℚ) + 1 / 2 = ((5592409 : ℤ) : ℚ) + 1 / 2 := by norm_num
    rw [this, Int.floor_eq_iff]
    constructor <;> norm_num
  have hscan : scan (fin (9 / 2)) [fin 4, fin 5] 1 = .ok (1 + 1) :=
    scan_stops (fin (9 / 2)) [fin 4, fin 5] 1 1 (by simp)
      (lt_fin_false 5 (9 / 2) (by norm_num))
      (fun m hm => by
        have : m = 0 := by omega
        subst this
        exact (lt_fin_iff 4 (9 / 2)).2 (by norm_num))
  rw [compute_eq_interp wraps ⟨[fin 1, fin 4, fin 5], [0, 5592409, 5592409]⟩ W 3 2
    (fin (9 / 2)) ⟨rfl, rfl⟩ (feq_fin_false (9 / 2) (by norm_num))
    (le_fin_false (9 / 2) 1 (by norm_num))
    (le_fin_false 5 (9 / 2) (by norm_num)) hscan (by norm_num) (by norm_num)]
  have hi : interpolate wraps
      (PWMTable.cmdAt ⟨[fin 1, fin 4, fin 5], [0, 5592409, 5592409]⟩ (2 - 1))
      (PWMTable.cmdAt ⟨[fin 1, fin 4, fin 5], [0, 5592409, 5592409]⟩ 2)
      (PWMTable.dutyAt ⟨[fin 1, fin 4, fin 5], [0, 5592409, 5592409]⟩ (2 - 1))
      (PWMTable.dutyAt ⟨[fin 1, fin 4, fin 5], [0, 5592409, 5592409]⟩ 2) (fin (9 / 2)) =
      fin 5592409 := eval_interp_flat wraps
  rw [hi]
  unfold F32.round floatToUInt32
  simp only [hr]
  rw [if_pos (by norm_num)]
  rw [Int.floor_intCast]
  rfl
/-! ## Monotonicity of the interpolation -/

theorem le_trans_F32 {a b c : F32} (h1 : F32.le a b = true) (h2 : F32.le b c = true) :
    F32.le a c = true := by
  cases a with
  | nan => simp [F32.le] at h1
  | inf n =>
    cases b with
    | nan => simp [F32.le] at h1
    | inf m =>
      cases c with
      | nan => simp [F32.le] at h2
      | inf k => cases n <;> cases m <;> cases k <;> simp_all [F32.le]
      | fin z => cases n <;> cases m <;> simp_all [F32.le]
    | fin y =>
      cases c with
      | nan => simp [F32.le] at h2
      | inf k => cases n <;> cases k <;> simp_all [F32.le]
      | fin z => cases n <;> simp_all [F32.le]
  | fin x =>
    cases b with
    | nan => simp [F32.le] at h1
    | inf m =>
      cases c with
      | nan => simp [F32.le] at h2
      | inf k => cases m <;> cases k <;> simp_all [F32.le]
      | fin z => cases m <;> simp_all [F32.le]
    | fin y =>
      cases c with
      | nan => simp [F32.le] at h2
      | inf k => cases k <;> simp_all [F32.le]
      | fin z =>
        simp only [F32.le, decide_eq_true_eq] at h1 h2 ⊢
        exact le_trans h1 h2

theorem ne_nan_of_le {a b : F32} (h : F32.le a b = true) : a ≠ nan ∧ b ≠ nan := by
  constructor
  · intro ha
    subst ha
    simp [F32.le] at h
  · intro hb
    subst hb
    cases a <;> simp [F32.le] at h

theorem roundHalfAway_mono {a b : ℚ} (h : a ≤ b) :
    F32.roundHalfAway a ≤ F32.roundHalfAway b := by
  unfold F32.roundHalfAway
  split_ifs with ha hb hb
  · exact Int.floor_mono (by linarith)
  · exact absurd (le_trans ha h) hb
  · push_neg at ha
    have h1 : (0 : ℤ) ≤ ⌊-a + 1 / 2⌋ := by
      rw [Int.le_floor]; push_cast; linarith
    have h2 : (0 : ℤ) ≤ ⌊b + 1 / 2⌋ := by
      rw [Int.le_floor]; push_cast; linarith
    omega
  · have : ⌊-b + 1 / 2⌋ ≤ ⌊-a + 1 / 2⌋ := Int.floor_mono (by linarith)
    omega

theorem duty_mono (lut : PWMTable) (n : ℕ)
    (hd : ∀ j, j + 1 < n → lut.dutyAt j ≤ lut.dutyAt (j + 1)) :
    ∀ k j, j ≤ k → k < n → lut.dutyAt j ≤ lut.dutyAt k := by
  intro k
  induction k with
  | zero =>
    intro j hj _
    have : j = 0 := by omega
    rw [this]
  | succ k ih =>
    intro j hj hk
    rcases Nat.eq_or_lt_of_le hj with heq | hlt
    · rw [heq]
    · exact le_trans (ih j (by omega) (by omega)) (hd k hk)

theorem interpolate_value (wraps : Bool) (x0 x1 c : ℚ) (y0 y1 : ℤ)
    (hx0 : F32.Moderate (fin x0)) (hx1 : F32.Moderate (fin x1)) (hc : F32.IsRepr (fin c))
    (h0c : x0 < c) (hc1 : c ≤ x1)
    (hy0 : 0 ≤ y0 ∧ y0 ≤ 2 ^ 21) (hy1 : 0 ≤ y1 ∧ y1 ≤ 2 ^ 21) (hw : wraps = true → y0 ≤ y1) :
    interpolate wraps (fin x0) (fin x1) y0 y1 (fin c) = fin (interpValue x0 x1 y0 y1 c) ∧
      0 < roundNE 24 (-149) (x1 - x0) := by
  obtain ⟨hr0, hb0⟩ := hx0
  obtain ⟨hr1, hb1⟩ := hx1
  have hbc : |c| ≤ 2 ^ 100 := by
    rw [abs_le] at hb0 hb1 ⊢
    constructor <;> linarith [hb0.1, hb1.2]
  set t : ℚ := roundNE 24 (-149) (c - x0) with ht
  set d : ℚ := roundNE 24 (-149) (x1 - x0) with hd
  have htpos : 0 < t := roundNE_sub_pos hc hr0 h0c
  have htd : t ≤ d := roundNE_mono 24 (by norm_num) (-149) (by linarith)
  have hdpos : 0 < d := lt_of_lt_of_le htpos htd
  have hd101 : d ≤ 2 ^ 101 := by
    have h1 : |x1 - x0| ≤ (2 : ℚ) ^ (101 : ℤ) := by
      have h2 := abs_sub x1 x0
      have hnum : (2 : ℚ) ^ 100 + 2 ^ 100 = (2 : ℚ) ^ (101 : ℤ) := by norm_num
      linarith
    have h3 := roundNE_abs_le_two_pow 24 (by norm_num) (-149) 101 (by norm_num) h1
    have h4 := (abs_le.mp h3).2
    have hnum : (2 : ℚ) ^ (101 : ℤ) = 2 ^ 101 := by norm_num
    rw [← hd, hnum] at h4
    exact h4
  obtain ⟨kt, hkt⟩ := roundNE_grid 24 (-149) (c - x0)
  rw [← ht] at hkt
  have hD : dutyDiff wraps y1 y0 = y1 - y0 := dutyDiff_eq wraps y0 y1 hy0 hy1 hw
  have hDabs : |y1 - y0| < 2 ^ 24 := by
    rw [abs_lt]; constructor <;> omega
  have hy0abs : |y0| < 2 ^ 24 := by
    rw [abs_lt]; constructor <;> omega
  have hy0q : (0 : ℚ) ≤ (y0 : ℚ) ∧ (y0 : ℚ) ≤ 2 ^ 21 :=
    ⟨by exact_mod_cast hy0.1, by exact_mod_cast hy0.2⟩
  have hy1q : (0 : ℚ) ≤ (y1 : ℚ) ∧ (y1 : ℚ) ≤ 2 ^ 21 :=
    ⟨by exact_mod_cast hy1.1, by exact_mod_cast hy1.2⟩
  have hDq : |((y1 - y0 : ℤ) : ℚ)| ≤ 2 ^ 21 := by
    push_cast
    rw [abs_le]; constructor <;> linarith [hy0q.1, hy0q.2, hy1q.1, hy1q.2]
  obtain ⟨hp, hq, hr, _⟩ := interp_close (y1 - y0) y0 t d kt hDq hy0q.1 hy0q.2
    (by push_cast; linarith [hy1q.1]) (by push_cast; linarith [hy1q.2]) htpos htd hd101 hkt
  refine ⟨?_, hdpos⟩
  unfold interpolate interpValue
  rw [hD]
  simp only [F32.ofInt]
  rw [ofRat_intCast _ hDabs, ofRat_intCast _ hy0abs,
    sub_fin_of_moderate hbc hb0, sub_fin_of_moderate hb1 hb0, ← ht, ← hd]
  simp only [F32.mul]
  rw [ofRat_of_abs_lt hp]
  simp only [F32.div]
  rw [if_neg (ne_of_gt hdpos), ofRat_of_abs_lt hq]
  simp only [F32.add]
  rw [ofRat_of_abs_lt hr]

theorem interpValue_mono (x0 x1 : ℚ) (y0 y1 : ℤ) (hd : 0 < roundNE 24 (-149) (x1 - x0))
    (hy : y0 ≤ y1) {c1 c2 : ℚ} (hc : c1 ≤ c2) :
    interpValue x0 x1 y0 y1 c1 ≤ interpValue x0 x1 y0 y1 c2 := by
  have hD : (0 : ℚ) ≤ ((y1 - y0 : ℤ) : ℚ) := by
    have : (0 : ℤ) ≤ y1 - y0 := by omega
    exact_mod_cast this
  have h1 : roundNE 24 (-149) (c1 - x0) ≤ roundNE 24 (-149) (c2 - x0) :=
    roundNE_mono 24 (by norm_num) (-149) (by linarith)
  have h2 := roundNE_mono 24 (by norm_num) (-149) (mul_le_mul_of_nonneg_left h1 hD)
  have h3 := roundNE_mono 24 (by norm_num) (-149)
    (div_le_div_of_nonneg_right h2 (le_of_lt hd))
  unfold interpValue
  exact roundNE_mono 24 (by norm_num) (-149) (by linarith)

theorem floatToUInt32_ok_round (v : ℚ) (k : ℕ)
    (h : floatToUInt32 (F32.round (fin v)) = .ok k) :
    0 ≤ F32.roundHalfAway v ∧ k = (F32.roundHalfAway v).toNat := by
  simp only [F32.round, floatToUInt32] at h
  split_ifs at h with hcond
  have h0 : (-1 : ℤ) < F32.roundHalfAway v := by exact_mod_cast hcond.1
  rw [Int.floor_intCast] at h
  injection h with h
  exact ⟨by omega, h.symm⟩

/-- The value returned by the interpolation branch, at the bracket `i` (the
smallest index `>= 1` with `command <= cmd[i]`), under the bounds of
`compute_bracket`. -/
theorem compute_value (wraps : Bool) (lut : PWMTable) (W n i : ℕ) (c : F32)
    (h : lut.HasRows n)
    (hcmd : ∀ j, j < n → (lut.cmdAt j).Moderate)
    (hduty : ∀ j, j < n → 0 ≤ lut.dutyAt j ∧ lut.dutyAt j ≤ 2 ^ 21)
    (hw : wraps = true → ∀ j, j + 1 < n → lut.dutyAt j ≤ lut.dutyAt (j + 1))
    (hc : c.IsRepr) (hz : F32.feq c (fin 0) = false)
    (hlo : F32.lt (lut.cmdAt 0) c = true) (hhi : F32.lt c (lut.cmdAt (n - 1)) = true)
    (hi1 : 1 ≤ i) (hin : i < n) (hle : F32.le c (lut.cmdAt i) = true)
    (hmin : ∀ j, 1 ≤ j → j < i → F32.le c (lut.cmdAt j) = false) :
    ∃ x0 x1 cv : ℚ, lut.cmdAt (i - 1) = fin x0 ∧ lut.cmdAt i = fin x1 ∧ c = fin cv ∧
      0 < roundNE 24 (-149) (x1 - x0) ∧
      0 ≤ F32.roundHalfAway (interpValue x0 x1 (lut.dutyAt (i - 1)) (lut.dutyAt i) cv) ∧
      computePWMCommand wraps lut W c = .ok (F32.roundHalfAway
        (interpValue x0 x1 (lut.dutyAt (i - 1)) (lut.dutyAt i) cv)).toNat := by
  obtain ⟨k, hk1, hkn, hscan, hstop, hbefore, hprev⟩ := scan_bracket lut n c h hlo hhi
  have hcn : c ≠ nan := ne_nan_of_lt_right hlo
  have hki : k = i := by
    rcases lt_trichotomy k i with hlt | heq | hgt
    · have h1 := hmin k hk1 hlt
      obtain ⟨xk, hxk, _, _⟩ := moderate_fin (hcmd k hkn)
      have h2 := le_of_gt_false hcn (by rw [hxk]; simp) hstop
      rw [h1] at h2
      exact absurd h2 (by simp)
    · exact heq
    · have h1 := le_false_of_lt (hbefore i hi1 hgt)
      rw [h1] at hle
      exact absurd hle (by simp)
  subst hki
  obtain ⟨x0, hx0, hx0r, hx0b⟩ := moderate_fin (hcmd (k - 1) (by omega))
  obtain ⟨x1, hx1, hx1r, hx1b⟩ := moderate_fin (hcmd k hin)
  rw [hx0] at hprev
  rw [hx1] at hle
  obtain ⟨cv, hcv⟩ : ∃ cv, c = fin cv := by
    cases c with
    | nan => exact absurd rfl hcn
    | inf m =>
      cases m
      · simp [F32.le] at hle
      · simp [F32.lt] at hprev
    | fin cv => exact ⟨cv, rfl⟩
  subst hcv
  have h0c : x0 < cv := by simpa [F32.lt] using hprev
  have hc1 : cv ≤ x1 := by simpa [F32.le] using hle
  have hwi : wraps = true → lut.dutyAt (k - 1) ≤ lut.dutyAt k := by
    intro hwt
    have := hw hwt (k - 1) (by omega)
    rwa [show k - 1 + 1 = k by omega] at this
  obtain ⟨hval, hdpos⟩ := interpolate_value wraps x0 x1 cv (lut.dutyAt (k - 1)) (lut.dutyAt k)
    ⟨hx0r, hx0b⟩ ⟨hx1r, hx1b⟩ hc h0c hc1 (hduty (k - 1) (by omega)) (hduty k hin) hwi
  have hcomp := compute_eq_interp wraps lut W n k (fin cv) h hz (le_false_of_lt hlo)
    (le_false_of_lt hhi) hscan hi1 hin
  rw [hx0, hx1, hval] at hcomp
  obtain ⟨_, _, _, _, _, _, _, hres, _⟩ :=
    compute_bracket wraps lut W n (fin cv) h hcmd hduty hw hc hz hlo hhi
  rw [hcomp] at hres
  obtain ⟨h0, hk⟩ := floatToUInt32_ok_round _ _ hres
  refine ⟨x0, x1, cv, hx0, hx1, rfl, hdpos, h0, ?_⟩
  rw [hcomp]
  exact floatToUInt32_round _ h0 (by
    have := (floatToUInt32_ok_round _ _ hres).1
    simp only [F32.round, floatToUInt32] at hres
    split_ifs at hres with hcond
    exact_mod_cast hcond.2)

/-- With non-decreasing duty values every non-zero command is answered with a
value between `duty[0]` and `duty[n-1]`. -/
theorem compute_range_ends (wraps : Bool) (lut : PWMTable) (W n : ℕ) (c : F32)
    (h : lut.HasRows n) (hn : 1 ≤ n)
    (hcmd : ∀ j, j < n → (lut.cmdAt j).Moderate)
    (hduty : ∀ j, j < n → 0 ≤ lut.dutyAt j ∧ lut.dutyAt j ≤ 2 ^ 21)
    (hd : ∀ j, j + 1 < n → lut.dutyAt j ≤ lut.dutyAt (j + 1))
    (hc : c.IsRepr) (hnan : c ≠ nan) (hz : F32.feq c (fin 0) = false) :
    ∃ v : ℕ, computePWMCommand wraps lut W c = .ok v ∧ lut.dutyAt 0 ≤ (v : ℤ) ∧
      (v : ℤ) ≤ lut.dutyAt (n - 1) := by
  have hm := duty_mono lut n hd
  rcases compute_cases wraps lut W n c h hn hcmd hnan hz with ⟨_, hres⟩ | ⟨_, _, hres⟩ |
    ⟨hlo, hhi⟩
  · have hu := (toUInt32_of_range (hduty 0 (by omega)).1 (hduty 0 (by omega)).2).2
    exact ⟨_, hres, by rw [hu], by rw [hu]; exact hm (n - 1) 0 (by omega) (by omega)⟩
  · have hu := (toUInt32_of_range (hduty (n - 1) (by omega)).1
      (hduty (n - 1) (by omega)).2).2
    exact ⟨_, hres, by rw [hu]; exact hm (n - 1) 0 (by omega) (by omega), by rw [hu]⟩
  · obtain ⟨i, v, hi1, hin, _, _, hres, hmin, hmax⟩ :=
      compute_bracket_range wraps lut W n c h hcmd hduty (fun _ => hd) hc hz hlo hhi
    have h1 := hm i (i - 1) (by omega) hin
    rw [min_eq_left h1] at hmin
    rw [max_eq_right h1] at hmax
    exact ⟨v, hres, le_trans (hm (i - 1) 0 (by omega) (by omega)) hmin,
      le_trans hmax (hm (n - 1) i (by omega) (by omega))⟩

/-! ## Distance between the binary32 value of the formula and its exact value -/

/-- Rounding both terms of a ratio `u / w` of grid numbers, `0 < u <= w`, moves
the ratio by at most `2 / (2 ^ 24 - 1)`. -/
theorem ratio_close (u w : ℚ) (ku kw : ℤ) (hu : u = ku * (2 : ℚ) ^ (-149 : ℤ))
    (hw : w = kw * (2 : ℚ) ^ (-149 : ℤ)) (hu0 : 0 < u) (huw : u ≤ w)
    (hd : 0 < roundNE 24 (-149) w) :
    |roundNE 24 (-149) u / roundNE 24 (-149) w - u / w| ≤ 2 / (2 ^ 24 - 1) := by
  have hw0 : 0 < w := lt_of_lt_of_le hu0 huw
  set t : ℚ := roundNE 24 (-149) u with ht
  set d : ℚ := roundNE 24 (-149) w with hdd
  have e1 := roundNE_error_grid 24 (-149) u ku hu
  have e2 := roundNE_error_grid 24 (-149) w kw hw
  rw [← ht, abs_of_pos hu0, abs_le] at e1
  rw [← hdd, abs_of_pos hw0, abs_le] at e2
  have hnum : ((2 : ℚ) ^ (24 : ℕ)) = 16777216 := by norm_num
  rw [hnum] at e1 e2
  have hdw : w * (16777215 / 16777216) ≤ d := by linarith [e2.1]
  rw [div_sub_div _ _ (ne_of_gt hd) (ne_of_gt hw0), abs_div,
    abs_of_pos (mul_pos hd hw0), div_le_iff₀ (mul_pos hd hw0)]
  have hdecomp : t * w - d * u = (t - u) * w - u * (d - w) := by ring
  have h1 : (t - u) * w ≤ u / 16777216 * w := mul_le_mul_of_nonneg_right e1.2 (le_of_lt hw0)
  have h2 : -(u / 16777216) * w ≤ (t - u) * w :=
    mul_le_mul_of_nonneg_right e1.1 (le_of_lt hw0)
  have h3 : u * (d - w) ≤ u * (w / 16777216) := mul_le_mul_of_nonneg_left e2.2 (le_of_lt hu0)
  have h4 : u * -(w / 16777216) ≤ u * (d - w) :=
    mul_le_mul_of_nonneg_left e2.1 (le_of_lt hu0)
  have h5 : u * w ≤ w * w := mul_le_mul_of_nonneg_right huw (le_of_lt hw0)
  have h6 : w * (16777215 / 16777216) * w ≤ d * w :=
    mul_le_mul_of_nonneg_right hdw (le_of_lt hw0)
  have hK : (2 : ℚ) / (2 ^ 24 - 1) = 2 / 16777215 := by norm_num
  rw [hK, hdecomp, abs_le]
  constructor
  · nlinarith [h1, h2, h3, h4, h5, h6]
  · nlinarith [h1, h2, h3, h4, h5, h6]

theorem roundHalfAway_close {a b : ℚ} (h : |a - b| < 1) :
    |F32.roundHalfAway a - F32.roundHalfAway b| ≤ 1 := by
  have ha := (roundHalfAway_nearest a).1
  have hb := (roundHalfAway_nearest b).1
  rw [abs_le] at ha hb
  rw [abs_lt] at h
  have h1 : ((F32.roundHalfAway a - F32.roundHalfAway b : ℤ) : ℚ) < 2 := by
    push_cast; linarith [ha.2, hb.1, h.2]
  have h2 : (-2 : ℚ) < ((F32.roundHalfAway a - F32.roundHalfAway b : ℤ) : ℚ) := by
    push_cast; linarith [ha.1, hb.2, h.1]
  have h3 : F32.roundHalfAway a - F32.roundHalfAway b < 2 := by exact_mod_cast h1
  have h4 : -2 < F32.roundHalfAway a - F32.roundHalfAway b := by exact_mod_cast h2
  rw [abs_le]
  constructor <;> omega

/-- A binary32 command strictly above a finite `x0` and not above a finite
`x1` is finite. -/
theorem between_fin {c : F32} {x0 x1 : ℚ} (hprev : F32.lt (fin x0) c = true)
    (hstop : F32.gt c (fin x1) = false) :
    ∃ cv : ℚ, c = fin cv ∧ x0 < cv ∧ cv ≤ x1 := by
  cases c with
  | nan => simp [F32.lt] at hprev
  | inf m =>
    cases m
    · simp [F32.gt, F32.lt] at hstop
    · simp [F32.lt] at hprev
  | fin cv =>
    refine ⟨cv, rfl, by simpa [F32.lt] using hprev, ?_⟩
    simpa [F32.gt, F32.lt] using hstop

/-- The steps of `interpolate` inside a bracket of moderate commands with duty
values in `0 .. 2 ^ 21`: no operation overflows, the rounded value is within
`0 .. 2 ^ 21` and less than `1` away from the exact value of the formula. -/
theorem interp_facts (wraps : Bool) (x0 x1 c : ℚ) (y0 y1 : ℤ)
    (hx0 : F32.Moderate (fin x0)) (hx1 : F32.Moderate (fin x1)) (hc : F32.IsRepr (fin c))
    (h0c : x0 < c) (hc1 : c ≤ x1)
    (hy0 : 0 ≤ y0 ∧ y0 ≤ 2 ^ 21) (hy1 : 0 ≤ y1 ∧ y1 ≤ 2 ^ 21) (hw : wraps = true → y0 ≤ y1) :
    dutyDiff wraps y1 y0 = y1 - y0 ∧
    F32.ofRat ((y1 - y0 : ℤ) : ℚ) = fin ((y1 - y0 : ℤ) : ℚ) ∧
    F32.ofRat (y0 : ℚ) = fin (y0 : ℚ) ∧
    F32.sub (fin c) (fin x0) = fin (roundNE 24 (-149) (c - x0)) ∧
    F32.sub (fin x1) (fin x0) = fin (roundNE 24 (-149) (x1 - x0)) ∧
    0 < roundNE 24 (-149) (x1 - x0) ∧
    |roundNE 24 (-149) (((y1 - y0 : ℤ) : ℚ) * roundNE 24 (-149) (c - x0))| < 2 ^ 128 ∧
    |roundNE 24 (-149) (roundNE 24 (-149) (((y1 - y0 : ℤ) : ℚ) *
      roundNE 24 (-149) (c - x0)) / roundNE 24 (-149) (x1 - x0))| < 2 ^ 128 ∧
    |interpValue x0 x1 y0 y1 c| < 2 ^ 128 ∧
    0 ≤ F32.roundHalfAway (interpValue x0 x1 y0 y1 c) ∧
    F32.roundHalfAway (interpValue x0 x1 y0 y1 c) ≤ 2 ^ 21 ∧
    |interpValue x0 x1 y0 y1 c - exactInterpolation x0 x1 y0 y1 c| < 1 := by
  obtain ⟨hr0, hb0⟩ := hx0
  obtain ⟨hr1, hb1⟩ := hx1
  have hbc : |c| ≤ 2 ^ 100 := by
    rw [abs_le] at hb0 hb1 ⊢
    constructor <;> linarith [hb0.1, hb1.2]
  have hx01 : x0 < x1 := lt_of_lt_of_le h0c hc1
  unfold interpValue
  set t : ℚ := roundNE 24 (-149) (c - x0) with ht
  set d : ℚ := roundNE 24 (-149) (x1 - x0) with hd
  have htpos : 0 < t := roundNE_sub_pos hc hr0 h0c
  have htd : t ≤ d := roundNE_mono 24 (by norm_num) (-149) (by linarith)
  have hdpos : 0 < d := lt_of_lt_of_le htpos htd
  have hd101 : d ≤ 2 ^ 101 := by
    have h1 : |x1 - x0| ≤ (2 : ℚ) ^ (101 : ℤ) := by
      have h2 := abs_sub x1 x0
      have hnum : (2 : ℚ) ^ 100 + 2 ^ 100 = (2 : ℚ) ^ (101 : ℤ) := by norm_num
      linarith
    have h3 := roundNE_abs_le_two_pow 24 (by norm_num) (-149) 101 (by norm_num) h1
    have h4 := (abs_le.mp h3).2
    have hnum : (2 : ℚ) ^ (101 : ℤ) = 2 ^ 101 := by norm_num
    rw [← hd, hnum] at h4
    exact h4
  obtain ⟨kt, hkt⟩ := roundNE_grid 24 (-149) (c - x0)
  rw [← ht] at hkt
  have hD : dutyDiff wraps y1 y0 = y1 - y0 := dutyDiff_eq wraps y0 y1 hy0 hy1 hw
  have hDabs : |y1 - y0| < 2 ^ 24 := by
    rw [abs_lt]; constructor <;> omega
  have hy0abs : |y0| < 2 ^ 24 := by
    rw [abs_lt]; constructor <;> omega
  have hy0q : (0 : ℚ) ≤ (y0 : ℚ) ∧ (y0 : ℚ) ≤ 2 ^ 21 :=
    ⟨by exact_mod_cast hy0.1, by exact_mod_cast hy0.2⟩
  have hy1q : (0 : ℚ) ≤ (y1 : ℚ) ∧ (y1 : ℚ) ≤ 2 ^ 21 :=
    ⟨by exact_mod_cast hy1.1, by exact_mod_cast hy1.2⟩
  have hDq : |((y1 - y0 : ℤ) : ℚ)| ≤ 2 ^ 21 := by
    push_cast
    rw [abs_le]; constructor <;> linarith [hy0q.1, hy0q.2, hy1q.1, hy1q.2]
  obtain ⟨hp, hq, hr, hclose⟩ := interp_close (y1 - y0) y0 t d kt hDq hy0q.1 hy0q.2
    (by push_cast; linarith [hy1q.1]) (by push_cast; linarith [hy1q.2]) htpos htd hd101 hkt
  -- the value with the rounded ratio lies between the duty values
  have hs0 : 0 < t / d := div_pos htpos hdpos
  have hs1 : t / d ≤ 1 := (div_le_one hdpos).2 htd
  have hmid : (y0 : ℚ) + ((y1 - y0 : ℤ) : ℚ) * (t / d) =
      y0 * (1 - t / d) + y1 * (t / d) := by push_cast; ring
  have hv0 : ((0 : ℤ) : ℚ) ≤ (y0 : ℚ) + ((y1 - y0 : ℤ) : ℚ) * (t / d) := by
    rw [hmid]
    have h1 : (0 : ℚ) ≤ y0 * (1 - t / d) := mul_nonneg hy0q.1 (by linarith)
    have h2 : (0 : ℚ) ≤ y1 * (t / d) := mul_nonneg hy1q.1 (le_of_lt hs0)
    push_cast
    linarith
  have hv1 : (y0 : ℚ) + ((y1 - y0 : ℤ) : ℚ) * (t / d) ≤ (((2 : ℤ) ^ 21 : ℤ) : ℚ) := by
    rw [hmid]
    have h1 : (y0 : ℚ) * (1 - t / d) ≤ 2 ^ 21 * (1 - t / d) :=
      mul_le_mul_of_nonneg_right hy0q.2 (by linarith)
    have h2 : (y1 : ℚ) * (t / d) ≤ 2 ^ 21 * (t / d) :=
      mul_le_mul_of_nonneg_right hy1q.2 (le_of_lt hs0)
    push_cast
    linarith
  have hrange := roundHalfAway_between _ _ 0 (2 ^ 21) le_rfl hv0 hv1 hclose
  -- the ratio of the rounded differences against the exact ratio
  obtain ⟨_, kc, hkc⟩ := isRepr_fin hc
  obtain ⟨_, k0, hk0⟩ := isRepr_fin hr0
  obtain ⟨_, k1, hk1⟩ := isRepr_fin hr1
  have hratio := ratio_close (c - x0) (x1 - x0) (kc - k0) (k1 - k0)
    (by rw [hkc, hk0]; push_cast; ring) (by rw [hk1, hk0]; push_cast; ring)
    (by linarith) (by linarith) hdpos
  rw [← ht, ← hd] at hratio
  have hexact : exactInterpolation x0 x1 y0 y1 c =
      (y0 : ℚ) + ((y1 - y0 : ℤ) : ℚ) * ((c - x0) / (x1 - x0)) := by
    unfold exactInterpolation
    push_cast
    ring
  have hgap : |((y0 : ℚ) + ((y1 - y0 : ℤ) : ℚ) * (t / d)) -
      exactInterpolation x0 x1 y0 y1 c| ≤ 2 ^ 21 * (2 / (2 ^ 24 - 1)) := by
    rw [hexact]
    have : ((y0 : ℚ) + ((y1 - y0 : ℤ) : ℚ) * (t / d)) -
        ((y0 : ℚ) + ((y1 - y0 : ℤ) : ℚ) * ((c - x0) / (x1 - x0))) =
        ((y1 - y0 : ℤ) : ℚ) * (t / d - (c - x0) / (x1 - x0)) := by ring
    rw [this, abs_mul]
    exact mul_le_mul hDq hratio (abs_nonneg _) (by norm_num)
  have hfinal : |roundNE 24 (-149) (y0 + roundNE 24 (-149)
      (roundNE 24 (-149) (((y1 - y0 : ℤ) : ℚ) * t) / d)) -
      exactInterpolation x0 x1 y0 y1 c| < 1 := by
    have htri := abs_sub_le (roundNE 24 (-149) (y0 + roundNE 24 (-149)
      (roundNE 24 (-149) (((y1 - y0 : ℤ) : ℚ) * t) / d)))
      ((y0 : ℚ) + ((y1 - y0 : ℤ) : ℚ) * (t / d)) (exactInterpolation x0 x1 y0 y1 c)
    have hnum : (2 : ℚ) ^ 21 * (2 / (2 ^ 24 - 1)) < 1 / 2 := by norm_num
    linarith
  exact ⟨hD, ofRat_intCast _ hDabs, ofRat_intCast _ hy0abs, sub_fin_of_moderate hbc hb0,
    sub_fin_of_moderate hb1 hb0, hdpos, hp, hq, hr, hrange.1, hrange.2, hfinal⟩

/-! ## Batches whose every command is answered -/

/-- On a table of moderate binary32 commands with duty values in `0 .. 2 ^ 21`
every binary32 command other than NaN is answered. -/
theorem compute_defined (wraps : Bool) (lut : PWMTable) (W n : ℕ) (c : F32)
    (h : lut.HasRows n) (hn : 1 ≤ n)
    (hcmd : ∀ j, j < n → (lut.cmdAt j).Moderate)
    (hduty : ∀ j, j < n → 0 ≤ lut.dutyAt j ∧ lut.dutyAt j ≤ 2 ^ 21)
    (hw : wraps = true → ∀ j, j + 1 < n → lut.dutyAt j ≤ lut.dutyAt (j + 1))
    (hc : c.IsRepr) (hnan : c ≠ nan) :
    ∃ v : ℕ, computePWMCommand wraps lut W c = .ok v := by
  by_cases hz : F32.feq c (fin 0) = true
  · exact ⟨W, by unfold computePWMCommand; rw [if_pos hz]⟩
  · have hz2 : F32.feq c (fin 0) = false := by simpa using hz
    rcases compute_cases wraps lut W n c h hn hcmd hnan hz2 with ⟨_, hres⟩ | ⟨_, _, hres⟩ |
      ⟨hlo, hhi⟩
    · exact ⟨_, hres⟩
    · exact ⟨_, hres⟩
    · obtain ⟨_, v, _, _, _, _, hres, _⟩ :=
        compute_bracket_range wraps lut W n c h hcmd hduty hw hc hz2 hlo hhi
      exact ⟨v, hres⟩

theorem dutyCycles_defined (wraps : Bool) (task : Task) (cmd_in : List JointState)
    (hdef : ∀ r ∈ cmd_in, ∃ v : ℕ, computePWMCommand wraps task.m_cmd_to_pwm_lut
      task.m_no_actuation_pwm_command r.effort = .ok v) :
    ∃ ds : List ℕ, dutyCycles wraps task cmd_in = .ok ds := by
  induction cmd_in with
  | nil => exact ⟨[], rfl⟩
  | cons r rest ih =>
    obtain ⟨v, hv⟩ := hdef r (List.mem_cons_self r rest)
    obtain ⟨vs, hvs⟩ := ih (fun r2 hr2 => hdef r2 (List.mem_cons_of_mem r hr2))
    refine ⟨v :: vs, ?_⟩
    rw [dutyCycles_ok_iff]
    exact List.Forall₂.cons hv ((dutyCycles_ok_iff wraps task rest vs).1 hvs)

theorem updateHook_matching (wraps : Bool) (task : Task) (cmd_in : List JointState)
    (hall : ∀ r ∈ cmd_in, r.mode = task.m_cmd_in_mode) :
    updateHook wraps task FlowStatus.NewData cmd_in =
      (dutyCycles wraps task cmd_in).bind (fun ds => .ok (Cycle.write ds)) := by
  have hany : cmd_in.any (fun command => decide (command.mode ≠ task.m_cmd_in_mode)) = false := by
    rw [List.any_eq_false]
    intro r hr
    simpa using hall r hr
  unfold updateHook
  rw [if_neg (by simp), if_neg (by rw [hany]; simp)]
  rfl

/-! ## The claims -/

/-- Claim C1: for every table and every no-actuation width `W`, the command
`0` is answered with exactly `W`, whatever the table holds (the result is the
same for every other table: the table is not consulted). -/
theorem zero_short_circuit (wraps : Bool) (lut : PWMTable) (W : ℕ) :
    computePWMCommand wraps lut W (fin 0) = .ok W ∧
      ∀ lut2 : PWMTable,
        computePWMCommand wraps lut2 W (fin 0) = computePWMCommand wraps lut W (fin 0) := by
  refine ⟨compute_zero _ _ _, fun lut2 => ?_⟩
  rw [compute_zero, compute_zero]

/-- Claim C2, as stated, fails: on the sorted table `cmd = [0, 1]`,
`duty = [1500, 1900]` with no-actuation width `1400` the command `0` satisfies
`command <= cmd[0]` and is answered `1400`, not `duty[0]`; on the sorted table
`cmd = [1, 1]` the command `1` satisfies `command >= cmd[n-1]` and is answered
`duty[0] = 1500`, not `duty[n-1] = 1900`. -/
theorem saturation_counterexample :
    (le (fin 0) (PWMTable.cmdAt ⟨[fin 0, fin 1], [1500, 1900]⟩ 0) = true ∧
      computePWMCommand false ⟨[fin 0, fin 1], [1500, 1900]⟩ 1400 (fin 0) ≠
        .ok (toUInt32 (PWMTable.dutyAt ⟨[fin 0, fin 1], [1500, 1900]⟩ 0))) ∧
    (ge (fin 1) (PWMTable.cmdAt ⟨[fin 1, fin 1], [1500, 1900]⟩ (2 - 1)) = true ∧
      computePWMCommand false ⟨[fin 1, fin 1], [1500, 1900]⟩ 1400 (fin 1) ≠
        .ok (toUInt32 (PWMTable.dutyAt ⟨[fin 1, fin 1], [1500, 1900]⟩ (2 - 1)))) := by
  refine ⟨⟨by simp [le, PWMTable.cmdAt], ?_⟩, ⟨by simp [ge, le, PWMTable.cmdAt], ?_⟩⟩
  · simp [computePWMCommand, feq, PWMTable.dutyAt, toUInt32]
  · simp [computePWMCommand, feq, le, front, bind, Except.bind, pure, Except.pure,
      PWMTable.dutyAt, toUInt32]

/-- Claim C2, amended: for every table with `n >= 1` rows and every non-zero
command, `command <= cmd[0]` gives `duty[0]`, and `command >= cmd[n-1]` gives
`duty[n-1]` when `command <= cmd[0]` does not hold (each as the `uint32_t`
result). -/
theorem saturation (wraps : Bool) (lut : PWMTable) (W n : ℕ) (c : F32)
    (h : lut.HasRows n) (hn : 1 ≤ n) (hz : feq c (fin 0) = false) :
    (le c (lut.cmdAt 0) = true →
      computePWMCommand wraps lut W c = .ok (toUInt32 (lut.dutyAt 0))) ∧
    (le c (lut.cmdAt 0) = false → ge c (lut.cmdAt (n - 1)) = true →
      computePWMCommand wraps lut W c = .ok (toUInt32 (lut.dutyAt (n - 1)))) :=
  ⟨compute_low wraps lut W n c h hn hz, compute_high wraps lut W n c h hn hz⟩

theorem saturation_witness :
    (le (fin (-2)) (PWMTable.cmdAt ⟨[fin (-1), fin 1], [1100, 1900]⟩ 0) = true →
      computePWMCommand false ⟨[fin (-1), fin 1], [1100, 1900]⟩ 1500 (fin (-2)) =
        .ok (toUInt32 (PWMTable.dutyAt ⟨[fin (-1), fin 1], [1100, 1900]⟩ 0))) ∧
    (le (fin (-2)) (PWMTable.cmdAt ⟨[fin (-1), fin 1], [1100, 1900]⟩ 0) = false →
      ge (fin (-2)) (PWMTable.cmdAt ⟨[fin (-1), fin 1], [1100, 1900]⟩ (2 - 1)) = true →
      computePWMCommand false ⟨[fin (-1), fin 1], [1100, 1900]⟩ 1500 (fin (-2)) =
        .ok (toUInt32 (PWMTable.dutyAt ⟨[fin (-1), fin 1], [1100, 1900]⟩ (2 - 1)))) :=
  saturation false ⟨[fin (-1), fin 1], [1100, 1900]⟩ 1500 2 (fin (-2))
    (by simp [PWMTable.HasRows]) (by norm_num) (by simp [feq])

/-- Claim C3, as stated, fails on sorted tables: (1) the calibration point
`cmd[0] = 0` is answered with the no-actuation width `1400`, not
`duty[0] = 1500`; (2) with the repeated command `cmd[0] = cmd[1] = 1` the
point `cmd[1]` is answered `duty[0] = 10`, not `duty[1] = 20`; (3) with duty
values `0` and `5592409` the float arithmetic at `cmd[1] = 4` gives `5592410`;
(4) with commands `-2^127` and `2^127` the difference `x1 - x0` overflows and
the conversion of the NaN result is undefined; (5) with unsigned duty elements
the falling pair `1900, 1500` makes `y1 - y0` wrap around and the result
leaves the range of `uint32_t`. -/
theorem calibration_points_counterexample :
    (PWMTable.NonDecreasing ⟨[fin 0, fin 1], [1500, 1900]⟩ ∧
      computePWMCommand false ⟨[fin 0, fin 1], [1500, 1900]⟩ 1400
        (PWMTable.cmdAt ⟨[fin 0, fin 1], [1500, 1900]⟩ 0) ≠
        .ok (toUInt32 (PWMTable.dutyAt ⟨[fin 0, fin 1], [1500, 1900]⟩ 0))) ∧
    (PWMTable.NonDecreasing ⟨[fin 1, fin 1, fin 2], [10, 20, 30]⟩ ∧
      computePWMCommand false ⟨[fin 1, fin 1, fin 2], [10, 20, 30]⟩ 1400
        (PWMTable.cmdAt ⟨[fin 1, fin 1, fin 2], [10, 20, 30]⟩ 1) ≠
        .ok (toUInt32 (PWMTable.dutyAt ⟨[fin 1, fin 1, fin 2], [10, 20, 30]⟩ 1))) ∧
    (PWMTable.NonDecreasing ⟨[fin 1, fin 4, fin 5], [0, 5592409, 5592409]⟩ ∧
      computePWMCommand false ⟨[fin 1, fin 4, fin 5], [0, 5592409, 5592409]⟩ 1400
        (PWMTable.cmdAt ⟨[fin 1, fin 4, fin 5], [0, 5592409, 5592409]⟩ 1) ≠
        .ok (toUInt32 (PWMTable.dutyAt ⟨[fin 1, fin 4, fin 5], [0, 5592409, 5592409]⟩ 1))) ∧
    (PWMTable.NonDecreasing
        ⟨[fin (-(2 ^ 127)), fin (2 ^ 127), fin (3 * 2 ^ 126)], [1500, 1900, 1900]⟩ ∧
      computePWMCommand false
        ⟨[fin (-(2 ^ 127)), fin (2 ^ 127), fin (3 * 2 ^ 126)], [1500, 1900, 1900]⟩ 1400
        (PWMTable.cmdAt
          ⟨[fin (-(2 ^ 127)), fin (2 ^ 127), fin (3 * 2 ^ 126)], [1500, 1900, 1900]⟩ 1) =
        .error UB.floatToUInt32) ∧
    (PWMTable.NonDecreasing ⟨[fin 1, fin 2, fin 3], [1900, 1500, 1500]⟩ ∧
      computePWMCommand true ⟨[fin 1, fin 2, fin 3], [1900, 1500, 1500]⟩ 1400
        (PWMTable.cmdAt ⟨[fin 1, fin 2, fin 3], [1900, 1500, 1500]⟩ 1) =
        .error UB.floatToUInt32) := by
  refine ⟨⟨?_, ?_⟩, ⟨?_, ?_⟩, ⟨?_, ?_⟩, ⟨?_, ?_⟩, ⟨?_, ?_⟩⟩
  · simp [PWMTable.NonDecreasing, F32.le]
  · simp [PWMTable.cmdAt, PWMTable.dutyAt, computePWMCommand, F32.feq, toUInt32]
  · simp [PWMTable.NonDecreasing, F32.le]
  · simp [PWMTable.cmdAt, PWMTable.dutyAt, computePWMCommand, F32.feq, F32.le, front, bind,
      Except.bind, pure, Except.pure, toUInt32]
  · simp [PWMTable.NonDecreasing, F32.le]
    norm_num
  · have h := eval_large_duty false 1400
    have hc : PWMTable.cmdAt ⟨[fin 1, fin 4, fin 5], [0, 5592409, 5592409]⟩ 1 = fin 4 := rfl
    rw [hc, h]
    simp [PWMTable.dutyAt, toUInt32]
  · simp [PWMTable.NonDecreasing, F32.le]
    norm_num
  · exact eval_overflow false 1400
  · simp [PWMTable.NonDecreasing, F32.le]
    norm_num
  · exact eval_wrapped 1400

/-- Claim C3, amended: for every table with `n >= 1` rows whose `cmd` sequence
is strictly increasing, made of finite binary32 numbers of magnitude at most
`2 ^ 100`, whose duty values lie in `0 .. 2 ^ 21` (non-decreasing along the
table when the duty elements are unsigned, `wraps = true`), every
no-actuation width and every index `i < n` with `cmd[i]` non-zero,
`computePWMCommand` applied to `cmd[i]` returns exactly `duty[i]`. -/
theorem calibration_points (wraps : Bool) (lut : PWMTable) (W n i : ℕ)
    (h : lut.HasRows n) (hi : i < n) (hs : lut.StrictlyIncreasing)
    (hcmd : ∀ j, j < n → (lut.cmdAt j).Moderate)
    (hduty : ∀ j, j < n → 0 ≤ lut.dutyAt j ∧ lut.dutyAt j ≤ 2 ^ 21)
    (hw : wraps = true → ∀ j, j + 1 < n → lut.dutyAt j ≤ lut.dutyAt (j + 1))
    (hz : F32.feq (lut.cmdAt i) (fin 0) = false) :
    computePWMCommand wraps lut W (lut.cmdAt i) = .ok (toUInt32 (lut.dutyAt i)) := by
  have hpair : ∀ a b, a < b → b < n → F32.lt (lut.cmdAt a) (lut.cmdAt b) = true := by
    intro a b hab hb
    have hlen := h.1
    have := (List.pairwise_iff_getElem.1 hs) a b (by omega) (by omega) hab
    simpa [PWMTable.cmdAt, List.getD_eq_getElem?_getD,
      List.getElem?_eq_getElem (show a < lut.cmd.length by omega),
      List.getElem?_eq_getElem (show b < lut.cmd.length by omega)] using this
  obtain ⟨cv, hcv, hcr, _⟩ := moderate_fin (hcmd i hi)
  have hrefl : F32.le (lut.cmdAt i) (lut.cmdAt i) = true := by
    rw [hcv]; simp [F32.le]
  have hn : 0 < n := by omega
  have hu : toUInt32 (lut.dutyAt i) = (lut.dutyAt i).toNat := by
    obtain ⟨h0, h1⟩ := hduty i hi
    unfold toUInt32
    rw [Int.emod_eq_of_lt h0 (by omega)]
  by_cases hi0 : i = 0
  · subst hi0
    exact compute_low wraps lut W n _ h hn hz hrefl
  · have hlo : F32.lt (lut.cmdAt 0) (lut.cmdAt i) = true := hpair 0 i (by omega) hi
    have hle : F32.le (lut.cmdAt i) (lut.cmdAt 0) = false := le_false_of_lt hlo
    by_cases hin : i = n - 1
    · have hge : F32.ge (lut.cmdAt i) (lut.cmdAt (n - 1)) = true := by
        rw [← hin]; exact hrefl
      rw [compute_high wraps lut W n _ h hn hz hle hge, hin]
    · have hhi : F32.lt (lut.cmdAt i) (lut.cmdAt (n - 1)) = true :=
        hpair i (n - 1) (by omega) (by omega)
      obtain ⟨k, r, s, hk1, hkn, hkle, hkmin, hres, hr0, _, _, hseq, hclose⟩ :=
        compute_bracket wraps lut W n (lut.cmdAt i) h hcmd hduty hw (by rw [hcv]; exact hcr)
          hz hlo hhi
      have hki : k = i := by
        rcases lt_trichotomy k i with hlt | heq | hgt
        · have := le_false_of_lt (hpair k i hlt hi)
          rw [this] at hkle
          exact absurd hkle (by simp)
        · exact heq
        · have := hkmin i (by omega) hgt
          rw [this] at hrefl
          exact absurd hrefl (by simp)
      subst hki
      rw [hseq rfl] at hclose
      have hval : (lut.dutyAt (k - 1) : ℚ) + ((lut.dutyAt k : ℚ) - lut.dutyAt (k - 1)) * 1 =
          lut.dutyAt k := by ring
      rw [hval] at hclose
      obtain ⟨hb1, hb2⟩ := roundHalfAway_between r _ (lut.dutyAt k) (lut.dutyAt k)
        (hduty k hi).1 le_rfl le_rfl hclose
      have : F32.roundHalfAway r = lut.dutyAt k := le_antisymm hb2 hb1
      rw [hres, hu, this]

theorem calibration_points_witness :
    computePWMCommand false ⟨[fin (-1), fin 1, fin 2], [1100, 1500, 1900]⟩ 1500
        (PWMTable.cmdAt ⟨[fin (-1), fin 1, fin 2], [1100, 1500, 1900]⟩ 1) =
      .ok (toUInt32 (PWMTable.dutyAt ⟨[fin (-1), fin 1, fin 2], [1100, 1500, 1900]⟩ 1)) :=
  calibration_points false ⟨[fin (-1), fin 1, fin 2], [1100, 1500, 1900]⟩ 1500 3 1
    (by simp [PWMTable.HasRows]) (by norm_num)
    (by simp [PWMTable.StrictlyIncreasing, F32.lt]; norm_num)
    (by
      intro j hj
      have hm1 : F32.ofRat (-1) = fin (-1) := by simpa using ofRat_intCast (-1) (by norm_num)
      have h1 : F32.ofRat 1 = fin 1 := by simpa using ofRat_intCast 1 (by norm_num)
      have h2 : F32.ofRat 2 = fin 2 := by simpa using ofRat_intCast 2 (by norm_num)
      interval_cases j
      · exact ⟨hm1, by norm_num⟩
      · exact ⟨h1, by norm_num⟩
      · exact ⟨h2, by norm_num⟩)
    (by
      intro j hj
      interval_cases j <;> simp [PWMTable.dutyAt])
    (by simp)
    (by simp [F32.feq, PWMTable.cmdAt])

/-- Claim C4, amended: for every table with `n >= 2` rows, sorted or not,
whose commands are finite binary32 numbers of magnitude at most `2 ^ 100` and
whose duty values lie in `0 .. 2 ^ 21` (non-decreasing along the table when the
duty elements are unsigned, `wraps = true`), and for every non-zero binary32
command strictly between `cmd[0]` and `cmd[n-1]`, `computePWMCommand` returns a
value between `min(duty[i-1], duty[i])` and `max(duty[i-1], duty[i])`, where
`i` is the smallest index `>= 1` with `command <= cmd[i]`. -/
theorem interpolation_bracketed (wraps : Bool) (lut : PWMTable) (W n : ℕ) (c : F32)
    (h : lut.HasRows n) (_hn : 2 ≤ n)
    (hcmd : ∀ j, j < n → (lut.cmdAt j).Moderate)
    (hduty : ∀ j, j < n → 0 ≤ lut.dutyAt j ∧ lut.dutyAt j ≤ 2 ^ 21)
    (hw : wraps = true → ∀ j, j + 1 < n → lut.dutyAt j ≤ lut.dutyAt (j + 1))
    (hc : c.IsRepr) (hz : F32.feq c (fin 0) = false)
    (hlo : F32.lt (lut.cmdAt 0) c = true) (hhi : F32.lt c (lut.cmdAt (n - 1)) = true) :
    ∃ (i v : ℕ), 1 ≤ i ∧ i < n ∧ F32.le c (lut.cmdAt i) = true ∧
      (∀ j, 1 ≤ j → j < i → F32.le c (lut.cmdAt j) = false) ∧
      computePWMCommand wraps lut W c = .ok v ∧
      min (lut.dutyAt (i - 1)) (lut.dutyAt i) ≤ (v : ℤ) ∧
      (v : ℤ) ≤ max (lut.dutyAt (i - 1)) (lut.dutyAt i) := by
  obtain ⟨i, r, s, hi1, hin, hle, hmin, hres, hr0, hs0, hs1, _, hclose⟩ :=
    compute_bracket wraps lut W n c h hcmd hduty hw hc hz hlo hhi
  have hy0 := (hduty (i - 1) (by omega)).1
  have hy1 := (hduty i hin).1
  set y0 := lut.dutyAt (i - 1) with hy0def
  set y1 := lut.dutyAt i with hy1def
  have hval : (y0 : ℚ) + ((y1 : ℚ) - y0) * s = y0 * (1 - s) + y1 * s := by ring
  have hs' : (0 : ℚ) ≤ 1 - s := by linarith
  have hminle0 : min y0 y1 ≤ y0 := min_le_left _ _
  have hminle1 : min y0 y1 ≤ y1 := min_le_right _ _
  have hmaxge0 : y0 ≤ max y0 y1 := le_max_left _ _
  have hmaxge1 : y1 ≤ max y0 y1 := le_max_right _ _
  have hlo' : ((min y0 y1 : ℤ) : ℚ) ≤ (y0 : ℚ) + ((y1 : ℚ) - y0) * s := by
    rw [hval]
    have h1 : ((min y0 y1 : ℤ) : ℚ) ≤ y0 := by exact_mod_cast hminle0
    have h2 : ((min y0 y1 : ℤ) : ℚ) ≤ y1 := by exact_mod_cast hminle1
    have h3 := mul_le_mul_of_nonneg_right h1 hs'
    have h4 := mul_le_mul_of_nonneg_right h2 (le_of_lt hs0)
    linarith
  have hhi' : (y0 : ℚ) + ((y1 : ℚ) - y0) * s ≤ ((max y0 y1 : ℤ) : ℚ) := by
    rw [hval]
    have h1 : (y0 : ℚ) ≤ ((max y0 y1 : ℤ) : ℚ) := by exact_mod_cast hmaxge0
    have h2 : (y1 : ℚ) ≤ ((max y0 y1 : ℤ) : ℚ) := by exact_mod_cast hmaxge1
    have h3 := mul_le_mul_of_nonneg_right h1 hs'
    have h4 := mul_le_mul_of_nonneg_right h2 (le_of_lt hs0)
    linarith
  obtain ⟨hb1, hb2⟩ := roundHalfAway_between r _ (min y0 y1) (max y0 y1) (le_min hy0 hy1)
    hlo' hhi' hclose
  refine ⟨i, (F32.roundHalfAway r).toNat, hi1, hin, hle, hmin, hres, ?_, ?_⟩
  · rw [Int.toNat_of_nonneg hr0]; exact hb1
  · rw [Int.toNat_of_nonneg hr0]; exact hb2
/-- Claim C4, as stated, fails on sorted tables with `n >= 2` and a command
strictly inside: (1) the command `0` is answered with the no-actuation width,
here `1000`, below both duty values; (2) with duty values `0` and `5592409` the
float arithmetic at the command `4` gives `5592410`, above both; (3) with
commands `-2^127` and `2^127` the difference `x1 - x0` overflows, the
interpolation is NaN and its conversion to `uint32_t` is undefined; (4) with
unsigned duty elements a falling pair makes `y1 - y0` wrap around and the
result leaves the range of `uint32_t`. -/
theorem interpolation_bracketed_counterexample :
    (PWMTable.NonDecreasing ⟨[fin (-1), fin 1], [1100, 1900]⟩ ∧
      F32.lt (fin (-1)) (fin 0) = true ∧ F32.lt (fin 0) (fin 1) = true ∧
      computePWMCommand false ⟨[fin (-1), fin 1], [1100, 1900]⟩ 1000 (fin 0) = .ok 1000 ∧
      ((1000 : ℕ) : ℤ) < min 1100 1900) ∧
    (PWMTable.NonDecreasing ⟨[fin 1, fin 4, fin 5], [0, 5592409, 5592409]⟩ ∧
      F32.lt (fin 1) (fin 4) = true ∧ F32.lt (fin 4) (fin 5) = true ∧
      F32.le (fin 4) (fin 4) = true ∧
      computePWMCommand false ⟨[fin 1, fin 4, fin 5], [0, 5592409, 5592409]⟩ 1500 (fin 4) =
        .ok 5592410 ∧
      max 0 5592409 < ((5592410 : ℕ) : ℤ)) ∧
    (PWMTable.NonDecreasing
        ⟨[fin (-(2 ^ 127)), fin (2 ^ 127), fin (3 * 2 ^ 126)], [1500, 1900, 1900]⟩ ∧
      F32.lt (fin (-(2 ^ 127))) (fin (2 ^ 127)) = true ∧
      F32.lt (fin (2 ^ 127)) (fin (3 * 2 ^ 126)) = true ∧
      computePWMCommand false
        ⟨[fin (-(2 ^ 127)), fin (2 ^ 127), fin (3 * 2 ^ 126)], [1500, 1900, 1900]⟩ 1500
        (fin (2 ^ 127)) = .error UB.floatToUInt32) ∧
    (PWMTable.NonDecreasing ⟨[fin 1, fin 2, fin 3], [1900, 1500, 1500]⟩ ∧
      F32.lt (fin 1) (fin 2) = true ∧ F32.lt (fin 2) (fin 3) = true ∧
      computePWMCommand true ⟨[fin 1, fin 2, fin 3], [1900, 1500, 1500]⟩ 1500 (fin 2) =
        .error UB.floatToUInt32) := by
  refine ⟨⟨?_, ?_, ?_, compute_zero _ _ _, by norm_num⟩,
    ⟨?_, ?_, ?_, ?_, eval_large_duty false 1500, by norm_num⟩,
    ⟨?_, ?_, ?_, eval_overflow false 1500⟩, ⟨?_, ?_, ?_, eval_wrapped 1500⟩⟩ <;>
  simp [PWMTable.NonDecreasing, F32.le, F32.lt] <;> norm_num

theorem interpolation_bracketed_witness :
    ∃ (i v : ℕ), 1 ≤ i ∧ i < 2 ∧
      F32.le (fin (1 / 2)) (PWMTable.cmdAt ⟨[fin (-1), fin 1], [1100, 1900]⟩ i) = true ∧
      (∀ j, 1 ≤ j → j < i →
        F32.le (fin (1 / 2)) (PWMTable.cmdAt ⟨[fin (-1), fin 1], [1100, 1900]⟩ j) = false) ∧
      computePWMCommand false ⟨[fin (-1), fin 1], [1100, 1900]⟩ 1500 (fin (1 / 2)) = .ok v ∧
      min (PWMTable.dutyAt ⟨[fin (-1), fin 1], [1100, 1900]⟩ (i - 1))
        (PWMTable.dutyAt ⟨[fin (-1), fin 1], [1100, 1900]⟩ i) ≤ (v : ℤ) ∧
      (v : ℤ) ≤ max (PWMTable.dutyAt ⟨[fin (-1), fin 1], [1100, 1900]⟩ (i - 1))
        (PWMTable.dutyAt ⟨[fin (-1), fin 1], [1100, 1900]⟩ i) :=
  interpolation_bracketed false ⟨[fin (-1), fin 1], [1100, 1900]⟩ 1500 2 (fin (1 / 2))
    (by simp [PWMTable.HasRows]) (by norm_num)
    (by
      intro j hj
      have hm1 : F32.ofRat (-1) = fin (-1) := by simpa using ofRat_intCast (-1) (by norm_num)
      have h1 : F32.ofRat 1 = fin 1 := by simpa using ofRat_intCast 1 (by norm_num)
      interval_cases j
      · exact ⟨hm1, by norm_num⟩
      · exact ⟨h1, by norm_num⟩)
    (by
      intro j hj
      interval_cases j <;> simp [PWMTable.dutyAt])
    (by simp)
    (by
      have := ofRat_int_mul 1 (-1) (by norm_num) (by norm_num) (by norm_num)
      simp only [F32.IsRepr]
      norm_num at this ⊢
      exact this)
    (by simp [F32.feq]) (by simp [F32.lt, PWMTable.cmdAt]; norm_num)
    (by simp [F32.lt, PWMTable.cmdAt]; norm_num)

/-- Claim C5: the text `"0.0,1500\n1.0,1900\n"` loads to `cmd = [0.0, 1.0]`,
`duty = [1500, 1900]`, and on that table the command `0.5` is answered `1700`
for every no-actuation width. -/
theorem loader_example (wraps : Bool) (W : ℕ) :
    loadCommandToPWMTable atof atoi wraps (some "0.0,1500\n1.0,1900\n".toList) =
        .ok ⟨[fin 0, fin 1], [1500, 1900]⟩ ∧
      computePWMCommand wraps ⟨[fin 0, fin 1], [1500, 1900]⟩ W (fin (1 / 2)) = .ok 1700 := by
  refine ⟨eval_load_example wraps, ?_⟩
  have hscan : scan (fin (1 / 2)) [fin 1] 1 = .ok (1 + 0) :=
    scan_stops (fin (1 / 2)) [fin 1] 1 0 (by simp) (lt_fin_false _ _ (by norm_num))
      (fun m hm => absurd hm (by omega))
  rw [compute_eq_interp wraps ⟨[fin 0, fin 1], [1500, 1900]⟩ W 2 1 (fin (1 / 2))
    ⟨rfl, rfl⟩ (feq_fin_false _ (by norm_num)) (le_fin_false _ _ (by norm_num))
    (le_fin_false _ _ (by norm_num)) hscan le_rfl (by norm_num)]
  have hi : interpolate wraps (PWMTable.cmdAt ⟨[fin 0, fin 1], [1500, 1900]⟩ (1 - 1))
      (PWMTable.cmdAt ⟨[fin 0, fin 1], [1500, 1900]⟩ 1)
      (PWMTable.dutyAt ⟨[fin 0, fin 1], [1500, 1900]⟩ (1 - 1))
      (PWMTable.dutyAt ⟨[fin 0, fin 1], [1500, 1900]⟩ 1) (fin (1 / 2)) = fin 1700 :=
    eval_interp_example wraps
  have hr : F32.roundHalfAway 1700 = 1700 := by
    unfold F32.roundHalfAway
    rw [if_pos (by norm_num), Int.floor_eq_iff]
    constructor <;> norm_num
  rw [hi]
  unfold F32.round floatToUInt32
  simp only [hr]
  rw [if_pos (by norm_num), Int.floor_intCast]
  rfl

/-- Claim C6 fails on the code: with an empty table, as loaded from an empty
file, every non-zero command reaches `lut.cmd.front()` on the empty vector,
which is undefined behaviour; no error is raised. -/
theorem empty_table_undefined (wraps : Bool) (W : ℕ) (c : F32) :
    loadCommandToPWMTable atof atoi wraps (some []) = .ok ⟨[], []⟩ ∧
      computePWMCommand wraps ⟨[], []⟩ W c =
        if feq c (fin 0) then .ok W else .error UB.emptyFront := by
  refine ⟨rfl, ?_⟩
  by_cases hz : feq c (fin 0) = true
  · simp [computePWMCommand, hz]
  · simp [computePWMCommand, hz, front, bind, Except.bind]

/-- Claim C7, as stated, fails: a batch whose every mode matches need not
write an output.  With the empty table (as loaded from an empty file) and the
effort `1`, or with the one-row table `cmd = [1]` and the effort NaN, the
second loop reaches undefined behaviour in `computePWMCommand` (`front()` of
an empty vector, `lut.cmd[1]` past the end) and no output is written. -/
theorem mode_validation_counterexample :
    ((∀ r ∈ [(⟨3, fin 1⟩ : JointState)], r.mode = Task.m_cmd_in_mode ⟨1500, 3, ⟨[], []⟩⟩) ∧
      updateHook false ⟨1500, 3, ⟨[], []⟩⟩ FlowStatus.NewData [⟨3, fin 1⟩] =
        .error UB.emptyFront ∧
      ∀ ds : List ℕ, updateHook false ⟨1500, 3, ⟨[], []⟩⟩ FlowStatus.NewData [⟨3, fin 1⟩] ≠
        .ok (Cycle.write ds)) ∧
    ((∀ r ∈ [(⟨3, nan⟩ : JointState)],
        r.mode = Task.m_cmd_in_mode ⟨1500, 3, ⟨[fin 1], [1500]⟩⟩) ∧
      updateHook false ⟨1500, 3, ⟨[fin 1], [1500]⟩⟩ FlowStatus.NewData [⟨3, nan⟩] =
        .error UB.indexOutOfRange ∧
      ∀ ds : List ℕ,
        updateHook false ⟨1500, 3, ⟨[fin 1], [1500]⟩⟩ FlowStatus.NewData [⟨3, nan⟩] ≠
          .ok (Cycle.write ds)) := by
  have h1 : updateHook false ⟨1500, 3, ⟨[], []⟩⟩ FlowStatus.NewData [⟨3, fin 1⟩] =
      .error UB.emptyFront := by
    rw [updateHook_matching false ⟨1500, 3, ⟨[], []⟩⟩ [⟨3, fin 1⟩] (by simp)]
    have hc : computePWMCommand false ⟨[], []⟩ 1500 (fin 1) = .error UB.emptyFront := by
      simp [computePWMCommand, feq_fin_false 1 (by norm_num), front, bind, Except.bind]
    simp only [dutyCycles, hc, bind, Except.bind]
  have h2 : updateHook false ⟨1500, 3, ⟨[fin 1], [1500]⟩⟩ FlowStatus.NewData [⟨3, nan⟩] =
      .error UB.indexOutOfRange := by
    rw [updateHook_matching false ⟨1500, 3, ⟨[fin 1], [1500]⟩⟩ [⟨3, nan⟩] (by simp)]
    have hc : computePWMCommand false ⟨[fin 1], [1500]⟩ 1500 nan =
        .error UB.indexOutOfRange := by
      simp [computePWMCommand, F32.feq, F32.le, F32.ge, front, back, scan, bind, Except.bind]
    simp only [dutyCycles, hc, bind, Except.bind]
  refine ⟨⟨by simp, h1, ?_⟩, ⟨by simp, h2, ?_⟩⟩
  · intro ds
    rw [h1]
    simp
  · intro ds
    rw [h2]
    simp

/-- Claim C7, amended: on a newly received batch, if some record's mode
differs from the expected mode the cycle raises `INVALID_COMMAND_MODE` and
writes nothing.  If every mode matches, the cycle raises no exception, and it
writes the output `ds` exactly when `ds` has the length of the batch and its
k-th element is `computePWMCommand` of the k-th record's effort; it does write
such an output whenever `computePWMCommand` is defined at every effort of the
batch, as it is on a table with `n >= 1` rows of finite binary32 commands of
magnitude at most `2 ^ 100` and duty values in `0 .. 2 ^ 21` (non-decreasing
when the duty elements are unsigned) for efforts that are binary32 values
other than NaN. -/
theorem mode_validation (wraps : Bool) (task : Task) (cmd_in : List JointState) :
    ((∃ r ∈ cmd_in, r.mode ≠ task.m_cmd_in_mode) →
      updateHook wraps task FlowStatus.NewData cmd_in = .ok Cycle.INVALID_COMMAND_MODE) ∧
    ((∀ r ∈ cmd_in, r.mode = task.m_cmd_in_mode) →
      (∀ ds : List ℕ,
        updateHook wraps task FlowStatus.NewData cmd_in = .ok (Cycle.write ds) ↔
          (ds.length = cmd_in.length ∧
            ∀ (k : ℕ) (r : JointState), cmd_in[k]? = some r → ∃ v, ds[k]? = some v ∧
              computePWMCommand wraps task.m_cmd_to_pwm_lut
                task.m_no_actuation_pwm_command r.effort = .ok v)) ∧
      updateHook wraps task FlowStatus.NewData cmd_in ≠ .ok Cycle.INVALID_COMMAND_MODE ∧
      updateHook wraps task FlowStatus.NewData cmd_in ≠ .ok Cycle.nothing ∧
      ((∀ r ∈ cmd_in, ∃ v : ℕ, computePWMCommand wraps task.m_cmd_to_pwm_lut
          task.m_no_actuation_pwm_command r.effort = .ok v) →
        ∃ ds : List ℕ,
          updateHook wraps task FlowStatus.NewData cmd_in = .ok (Cycle.write ds) ∧
          ds.length = cmd_in.length ∧
          ∀ (k : ℕ) (r : JointState), cmd_in[k]? = some r → ∃ v, ds[k]? = some v ∧
            computePWMCommand wraps task.m_cmd_to_pwm_lut
              task.m_no_actuation_pwm_command r.effort = .ok v) ∧
      (∀ n : ℕ, task.m_cmd_to_pwm_lut.HasRows n → 1 ≤ n →
        (∀ j, j < n → (task.m_cmd_to_pwm_lut.cmdAt j).Moderate) →
        (∀ j, j < n → 0 ≤ task.m_cmd_to_pwm_lut.dutyAt j ∧
          task.m_cmd_to_pwm_lut.dutyAt j ≤ 2 ^ 21) →
        (wraps = true → ∀ j, j + 1 < n →
          task.m_cmd_to_pwm_lut.dutyAt j ≤ task.m_cmd_to_pwm_lut.dutyAt (j + 1)) →
        (∀ r ∈ cmd_in, r.effort.IsRepr ∧ r.effort ≠ nan) →
        ∃ ds : List ℕ,
          updateHook wraps task FlowStatus.NewData cmd_in = .ok (Cycle.write ds) ∧
          ds.length = cmd_in.length ∧
          ∀ (k : ℕ) (r : JointState), cmd_in[k]? = some r → ∃ v, ds[k]? = some v ∧
            computePWMCommand wraps task.m_cmd_to_pwm_lut
              task.m_no_actuation_pwm_command r.effort = .ok v)) := by
  constructor
  · rintro ⟨r, hr, hne⟩
    have hany : cmd_in.any (fun command => decide (command.mode ≠ task.m_cmd_in_mode)) = true := by
      rw [List.any_eq_true]
      exact ⟨r, hr, by simpa using hne⟩
    unfold updateHook
    rw [if_neg (by simp), if_pos hany]
  · intro hall
    have hupd := updateHook_matching wraps task cmd_in hall
    have hiff : ∀ ds : List ℕ,
        updateHook wraps task FlowStatus.NewData cmd_in = .ok (Cycle.write ds) ↔
          (ds.length = cmd_in.length ∧
            ∀ (k : ℕ) (r : JointState), cmd_in[k]? = some r → ∃ v, ds[k]? = some v ∧
              computePWMCommand wraps task.m_cmd_to_pwm_lut
                task.m_no_actuation_pwm_command r.effort = .ok v) := by
      intro ds
      rw [hupd, ← forall₂_iff_index, ← dutyCycles_ok_iff]
      cases hd : dutyCycles wraps task cmd_in with
      | error e => simp [Except.bind]
      | ok vs => simp [Except.bind]
    have hwrite : (∀ r ∈ cmd_in, ∃ v : ℕ, computePWMCommand wraps task.m_cmd_to_pwm_lut
          task.m_no_actuation_pwm_command r.effort = .ok v) →
        ∃ ds : List ℕ,
          updateHook wraps task FlowStatus.NewData cmd_in = .ok (Cycle.write ds) ∧
          ds.length = cmd_in.length ∧
          ∀ (k : ℕ) (r : JointState), cmd_in[k]? = some r → ∃ v, ds[k]? = some v ∧
            computePWMCommand wraps task.m_cmd_to_pwm_lut
              task.m_no_actuation_pwm_command r.effort = .ok v := by
      intro hdef
      obtain ⟨ds, hds⟩ := dutyCycles_defined wraps task cmd_in hdef
      have hw : updateHook wraps task FlowStatus.NewData cmd_in = .ok (Cycle.write ds) := by
        rw [hupd, hds]
        rfl
      exact ⟨ds, hw, ((hiff ds).1 hw).1, ((hiff ds).1 hw).2⟩
    refine ⟨hiff, ?_, ?_, hwrite, ?_⟩
    · rw [hupd]
      cases hd : dutyCycles wraps task cmd_in with
      | error e => simp [Except.bind]
      | ok vs => simp [Except.bind]
    · rw [hupd]
      cases hd : dutyCycles wraps task cmd_in with
      | error e => simp [Except.bind]
      | ok vs => simp [Except.bind]
    · intro n h hn hcmd hduty hw heff
      exact hwrite (fun r hr => compute_defined wraps task.m_cmd_to_pwm_lut
        task.m_no_actuation_pwm_command n r.effort h hn hcmd hduty hw (heff r hr).1
        (heff r hr).2)

theorem mode_validation_witness :
    updateHook false ⟨1500, 3, ⟨[fin (-1), fin 1], [1100, 1900]⟩⟩ FlowStatus.NewData
        [⟨3, fin 2⟩, ⟨2, fin 0⟩] = .ok Cycle.INVALID_COMMAND_MODE ∧
      updateHook false ⟨1500, 3, ⟨[fin (-1), fin 1], [1100, 1900]⟩⟩ FlowStatus.NewData
        [⟨3, fin 2⟩, ⟨3, fin 0⟩] = .ok (Cycle.write [1900, 1500]) ∧
      ∃ ds : List ℕ,
        updateHook false ⟨1500, 3, ⟨[fin (-1), fin 1], [1100, 1900]⟩⟩ FlowStatus.NewData
          [⟨3, fin 2⟩, ⟨3, fin 0⟩] = .ok (Cycle.write ds) ∧
        ds.length = [(⟨3, fin 2⟩ : JointState), ⟨3, fin 0⟩].length ∧
        ∀ (k : ℕ) (r : JointState),
          [(⟨3, fin 2⟩ : JointState), ⟨3, fin 0⟩][k]? = some r → ∃ v, ds[k]? = some v ∧
            computePWMCommand false ⟨[fin (-1), fin 1], [1100, 1900]⟩ 1500 r.effort = .ok v :=
  ⟨(mode_validation false ⟨1500, 3, ⟨[fin (-1), fin 1], [1100, 1900]⟩⟩
      [⟨3, fin 2⟩, ⟨2, fin 0⟩]).1 ⟨⟨2, fin 0⟩, by simp, by simp⟩,
    (((mode_validation false ⟨1500, 3, ⟨[fin (-1), fin 1], [1100, 1900]⟩⟩
      [⟨3, fin 2⟩, ⟨3, fin 0⟩]).2 (by simp)).1 [1900, 1500]).2
      ⟨rfl, by
        intro k r hk
        match k, hk with
        | 0, hk =>
          simp at hk
          subst hk
          refine ⟨1900, rfl, ?_⟩
          simp [computePWMCommand, feq, le, ge, front, back, bind, Except.bind, pure,
            Except.pure, toUInt32]
          norm_num
        | 1, hk =>
          simp at hk
          subst hk
          exact ⟨1500, rfl, by simp [computePWMCommand, feq]⟩
        | k + 2, hk => simp at hk⟩,
    ((mode_validation false ⟨1500, 3, ⟨[fin (-1), fin 1], [1100, 1900]⟩⟩
      [⟨3, fin 2⟩, ⟨3, fin 0⟩]).2 (by simp)).2.2.2.2 2 ⟨rfl, rfl⟩ (by norm_num)
      (by
        intro j hj
        have hm1 : F32.ofRat (-1) = fin (-1) := by simpa using ofRat_intCast (-1) (by norm_num)
        have h1 : F32.ofRat 1 = fin 1 := by simpa using ofRat_intCast 1 (by norm_num)
        interval_cases j
        · exact ⟨hm1, by norm_num⟩
        · exact ⟨h1, by norm_num⟩)
      (by
        intro j hj
        interval_cases j <;> simp [PWMTable.dutyAt])
      (by simp)
      (by
        have h2 : F32.ofRat 2 = fin 2 := by simpa using ofRat_intCast 2 (by norm_num)
        have h0 : F32.ofRat 0 = fin 0 := by simpa using ofRat_intCast 0 (by norm_num)
        intro r hr
        simp only [List.mem_cons, List.mem_singleton, List.not_mem_nil, or_false] at hr
        rcases hr with rfl | rfl
        · exact ⟨h2, by simp⟩
        · exact ⟨h0, by simp⟩)⟩
/-- Claim C8: for every text whose rows, read by `std::getline`, are
`l ++ "," ++ r` with no comma in `l`, the loaded table has one row per line,
in line order: `cmd[i]` is the command parsed by `atof` from the text `l` left
of the first comma of line `i` and `duty[i]` is the integer parsed by `atoi`
from the text `r` right of it (stored in the element type). -/
theorem loader_preserves_rows (atof : List Char → F32) (atoi : List Char → ℤ) (wraps : Bool)
    (text : List Char) (rows : List (List Char × List Char))
    (hlines : getlines text [] = rows.map (fun p => p.1 ++ ',' :: p.2))
    (hrows : ∀ p ∈ rows, ',' ∉ p.1 ∧ (p.1 ++ ',' :: p.2).length < 2 ^ 64) :
    ∃ table : PWMTable,
      loadCommandToPWMTable atof atoi wraps (some text) = .ok table ∧
      table.HasRows rows.length ∧
      table.cmd = rows.map (fun p => F32.doubleToFloat (atof p.1)) ∧
      table.duty_cycle_width = rows.map (fun p => storeDuty wraps (atoi p.2)) := by
  refine ⟨_, rfl, ?_, ?_, ?_⟩
  · simp [PWMTable.HasRows, loadRows_eq, hlines]
  · rw [loadRows_eq, hlines]
    simp only [List.nil_append, List.map_map]
    apply List.map_congr_left
    intro p hp
    obtain ⟨h1, _⟩ := hrows p hp
    simp only [Function.comp]
    rw [find_append_cons _ _ _ h1, substr_left]
  · rw [loadRows_eq, hlines]
    simp only [List.nil_append, List.map_map]
    apply List.map_congr_left
    intro p hp
    obtain ⟨h1, h2⟩ := hrows p hp
    simp only [Function.comp]
    rw [find_append_cons _ _ _ h1, substr_right _ _ _ h2]

theorem loader_preserves_rows_witness :
    ∃ table : PWMTable,
      loadCommandToPWMTable atof atoi false (some "0.5,1650\n1.0,1900".toList) = .ok table ∧
      table.HasRows 2 ∧
      table.cmd = [F32.doubleToFloat (atof "0.5".toList), F32.doubleToFloat (atof "1.0".toList)] ∧
      table.duty_cycle_width = [storeDuty false (atoi "1650".toList),
        storeDuty false (atoi "1900".toList)] :=
  loader_preserves_rows atof atoi false "0.5,1650\n1.0,1900".toList
    [("0.5".toList, "1650".toList), ("1.0".toList, "1900".toList)] (by decide)
    (by
      intro p hp
      simp only [List.mem_cons, List.mem_singleton, List.not_mem_nil, or_false] at hp
      rcases hp with rfl | rfl <;> exact ⟨by decide, by decide⟩)

/-- Claim C9, as stated, fails: on the single-row table `cmd = [1]`,
`duty = [1500]` the non-zero command NaN passes both saturation tests and the
scan reads `lut.cmd[1]`, past the end. -/
theorem single_row_counterexample :
    PWMTable.HasRows ⟨[fin 1], [1500]⟩ 1 ∧ feq nan (fin 0) = false ∧
      computePWMCommand false ⟨[fin 1], [1500]⟩ 1400 nan = .error UB.indexOutOfRange := by
  refine ⟨by simp [PWMTable.HasRows], rfl, ?_⟩
  simp [computePWMCommand, feq, le, ge, front, back, scan, bind, Except.bind]

/-- Claim C9, amended: for every table with `n = 1` and every non-zero command
that is not NaN, with `cmd[0]` not NaN either, the result is `duty[0]` (as the
`uint32_t` result). -/
theorem single_row (wraps : Bool) (lut : PWMTable) (W : ℕ) (c : F32)
    (h : lut.HasRows 1) (hz : feq c (fin 0) = false) (hc : c ≠ nan)
    (h0 : lut.cmdAt 0 ≠ nan) :
    computePWMCommand wraps lut W c = .ok (toUInt32 (lut.dutyAt 0)) := by
  by_cases hle : le c (lut.cmdAt 0) = true
  · exact compute_low wraps lut W 1 c h (by norm_num) hz hle
  · have hge : ge c (lut.cmdAt (1 - 1)) = true := by
      rcases le_total_of_ne_nan c (lut.cmdAt 0) hc h0 with h1 | h1
      · exact absurd h1 hle
      · simpa [ge] using h1
    simpa using compute_high wraps lut W 1 c h (by norm_num) hz (by simpa using hle) hge

theorem single_row_witness :
    computePWMCommand false ⟨[fin 1], [1500]⟩ 1400 (fin 7) =
      .ok (toUInt32 (PWMTable.dutyAt ⟨[fin 1], [1500]⟩ 0)) :=
  single_row false ⟨[fin 1], [1500]⟩ 1400 (fin 7) (by simp [PWMTable.HasRows])
    (by simp [feq]) (by simp) (by simp [PWMTable.cmdAt])

/-- Claim C10: when the port read does not report new data, the cycle writes
nothing and raises nothing, whatever the batch holds. -/
theorem no_data_cycle (wraps : Bool) (task : Task) (status : FlowStatus)
    (cmd_in : List JointState) (h : status ≠ FlowStatus.NewData) :
    updateHook wraps task status cmd_in = .ok Cycle.nothing := by
  simp [updateHook, h]

theorem no_data_cycle_witness :
    updateHook false ⟨1500, 3, ⟨[], []⟩⟩ FlowStatus.OldData [⟨2, nan⟩] = .ok Cycle.nothing :=
  no_data_cycle false ⟨1500, 3, ⟨[], []⟩⟩ FlowStatus.OldData [⟨2, nan⟩] (by decide)

/-- Claim C11: for every table with `n >= 1` rows the three early returns are
tried in this order: the command `0` is answered with the no-actuation width;
a non-zero command with `command <= cmd[0]` is answered `duty[0]`; otherwise a
command with `command >= cmd[n-1]` is answered `duty[n-1]` (each duty value as
the `uint32_t` result). -/
theorem early_return_precedence (wraps : Bool) (lut : PWMTable) (W n : ℕ) (c : F32)
    (h : lut.HasRows n) (hn : 1 ≤ n) :
    (F32.feq c (fin 0) = true → computePWMCommand wraps lut W c = .ok W) ∧
    (F32.feq c (fin 0) = false → F32.le c (lut.cmdAt 0) = true →
      computePWMCommand wraps lut W c = .ok (toUInt32 (lut.dutyAt 0))) ∧
    (F32.feq c (fin 0) = false → F32.le c (lut.cmdAt 0) = false →
      F32.ge c (lut.cmdAt (n - 1)) = true →
      computePWMCommand wraps lut W c = .ok (toUInt32 (lut.dutyAt (n - 1)))) := by
  refine ⟨fun hz => ?_, fun hz hle => ?_, fun hz hle hge => ?_⟩
  · unfold computePWMCommand
    rw [if_pos hz]
  · exact compute_low wraps lut W n c h hn hz hle
  · exact compute_high wraps lut W n c h hn hz hle hge

theorem early_return_precedence_witness :
    computePWMCommand false ⟨[fin 1, fin 1], [1500, 1900]⟩ 1400 (fin 0) = .ok 1400 ∧
    computePWMCommand false ⟨[fin 1, fin 1], [1500, 1900]⟩ 1400 (fin 1) =
      .ok (toUInt32 (PWMTable.dutyAt ⟨[fin 1, fin 1], [1500, 1900]⟩ 0)) ∧
    computePWMCommand false ⟨[fin 1, fin 1], [1500, 1900]⟩ 1400 (fin 2) =
      .ok (toUInt32 (PWMTable.dutyAt ⟨[fin 1, fin 1], [1500, 1900]⟩ (2 - 1))) :=
  ⟨(early_return_precedence false ⟨[fin 1, fin 1], [1500, 1900]⟩ 1400 2 (fin 0) ⟨rfl, rfl⟩
      (by norm_num)).1 (by simp [F32.feq]),
    (early_return_precedence false ⟨[fin 1, fin 1], [1500, 1900]⟩ 1400 2 (fin 1) ⟨rfl, rfl⟩
      (by norm_num)).2.1 (feq_fin_false 1 (by norm_num)) ((le_fin_iff 1 1).2 le_rfl),
    (early_return_precedence false ⟨[fin 1, fin 1], [1500, 1900]⟩ 1400 2 (fin 2) ⟨rfl, rfl⟩
      (by norm_num)).2.2 (feq_fin_false 2 (by norm_num)) (le_fin_false 2 1 (by norm_num))
      ((le_fin_iff 1 2).2 (by norm_num))⟩
/-- Claim C12, as stated, fails: on the table `cmd = [1, NaN, 3]` the command
`2` lies strictly between `cmd[0]` and `cmd[n-1]`, the scan stops at `i = 1`
because `2 > NaN` is false, and `command <= cmd[1]` does not hold there. -/
theorem bracket_search_counterexample :
    PWMTable.HasRows ⟨[fin 1, nan, fin 3], [1100, 1500, 1900]⟩ 3 ∧
    F32.feq (fin 2) (fin 0) = false ∧
    F32.lt (PWMTable.cmdAt ⟨[fin 1, nan, fin 3], [1100, 1500, 1900]⟩ 0) (fin 2) = true ∧
    F32.lt (fin 2) (PWMTable.cmdAt ⟨[fin 1, nan, fin 3], [1100, 1500, 1900]⟩ (3 - 1)) = true ∧
    scan (fin 2) (List.drop 1 (PWMTable.cmd ⟨[fin 1, nan, fin 3], [1100, 1500, 1900]⟩)) 1 =
      .ok 1 ∧
    F32.le (fin 2) (PWMTable.cmdAt ⟨[fin 1, nan, fin 3], [1100, 1500, 1900]⟩ 1) = false :=
  ⟨⟨rfl, rfl⟩, feq_fin_false 2 (by norm_num), (lt_fin_iff 1 2).2 (by norm_num),
    (lt_fin_iff 2 3).2 (by norm_num),
    scan_stops (fin 2) [nan, fin 3] 1 0 (by simp) rfl (fun m hm => absurd hm (by omega)), rfl⟩

/-- Claim C12, amended: for every table with `n >= 2` rows none of whose
commands is NaN, sorted or not, and every non-zero command with
`cmd[0] < command < cmd[n-1]`, the scan started at `i = 1` stops at the
smallest index `i` with `1 <= i <= n-1` and `command <= cmd[i]`; at that index
`cmd[i-1] < command <= cmd[i]`, and the result is computed from the rows
`i - 1` and `i`. -/
theorem bracket_search (wraps : Bool) (lut : PWMTable) (W n : ℕ) (c : F32)
    (h : lut.HasRows n) (hn : 2 ≤ n) (hnan : ∀ j, j < n → lut.cmdAt j ≠ nan)
    (hz : F32.feq c (fin 0) = false)
    (hlo : F32.lt (lut.cmdAt 0) c = true) (hhi : F32.lt c (lut.cmdAt (n - 1)) = true) :
    ∃ i : ℕ, 1 ≤ i ∧ i ≤ n - 1 ∧ scan c (lut.cmd.drop 1) 1 = .ok i ∧
      F32.le c (lut.cmdAt i) = true ∧
      (∀ j, 1 ≤ j → j < i → F32.le c (lut.cmdAt j) = false) ∧
      F32.lt (lut.cmdAt (i - 1)) c = true ∧
      computePWMCommand wraps lut W c =
        floatToUInt32 (F32.round (interpolate wraps (lut.cmdAt (i - 1)) (lut.cmdAt i)
          (lut.dutyAt (i - 1)) (lut.dutyAt i) c)) := by
  obtain ⟨i, hi1, hin, hscan, hstop, hbefore, hprev⟩ := scan_bracket lut n c h hlo hhi
  have hc : c ≠ nan := ne_nan_of_lt_right hlo
  refine ⟨i, hi1, by omega, hscan, le_of_gt_false hc (hnan i hin) hstop,
    fun j hj1 hj2 => le_false_of_lt (hbefore j hj1 hj2), hprev, ?_⟩
  exact compute_eq_interp wraps lut W n i c h hz (le_false_of_lt hlo) (le_false_of_lt hhi)
    hscan hi1 hin

theorem bracket_search_witness :
    ∃ i : ℕ, 1 ≤ i ∧ i ≤ 4 - 1 ∧
      scan (fin 3) (List.drop 1 (PWMTable.cmd ⟨[fin 1, fin 4, fin 2, fin 5], [1100, 1500, 1300, 1900]⟩)) 1 =
        .ok i ∧
      F32.le (fin 3) (PWMTable.cmdAt ⟨[fin 1, fin 4, fin 2, fin 5], [1100, 1500, 1300, 1900]⟩ i) = true ∧
      (∀ j, 1 ≤ j → j < i →
        F32.le (fin 3) (PWMTable.cmdAt ⟨[fin 1, fin 4, fin 2, fin 5], [1100, 1500, 1300, 1900]⟩ j) = false) ∧
      F32.lt (PWMTable.cmdAt ⟨[fin 1, fin 4, fin 2, fin 5], [1100, 1500, 1300, 1900]⟩ (i - 1)) (fin 3) = true ∧
      computePWMCommand false ⟨[fin 1, fin 4, fin 2, fin 5], [1100, 1500, 1300, 1900]⟩ 1500 (fin 3) =
        floatToUInt32 (F32.round (interpolate false
          (PWMTable.cmdAt ⟨[fin 1, fin 4, fin 2, fin 5], [1100, 1500, 1300, 1900]⟩ (i - 1))
          (PWMTable.cmdAt ⟨[fin 1, fin 4, fin 2, fin 5], [1100, 1500, 1300, 1900]⟩ i)
          (PWMTable.dutyAt ⟨[fin 1, fin 4, fin 2, fin 5], [1100, 1500, 1300, 1900]⟩ (i - 1))
          (PWMTable.dutyAt ⟨[fin 1, fin 4, fin 2, fin 5], [1100, 1500, 1300, 1900]⟩ i) (fin 3))) :=
  bracket_search false ⟨[fin 1, fin 4, fin 2, fin 5], [1100, 1500, 1300, 1900]⟩ 1500 4 (fin 3) ⟨rfl, rfl⟩
    (by norm_num)
    (by
      intro j hj
      interval_cases j <;> simp [PWMTable.cmdAt])
    (feq_fin_false 3 (by norm_num)) ((lt_fin_iff 1 3).2 (by norm_num))
    ((lt_fin_iff 3 5).2 (by norm_num))
/-- Claim C13, as stated, fails: on the table `cmd = [0, 1]`,
`duty = [1500, 1900]` and the binary32 command `8409579 / 2 ^ 24`
(about `0.50124997`) the exact value of the formula is `1700.4999876...`,
whose nearest integer is `1700`, while the product and the sum are rounded to
binary32 (`200.49998474...`, then `1700.5`) and the code returns `1701`. -/
theorem interpolation_rounding_counterexample :
    PWMTable.HasRows ⟨[fin 0, fin 1], [1500, 1900]⟩ 2 ∧
    F32.IsRepr (fin (8409579 / 16777216)) ∧
    F32.feq (fin (8409579 / 16777216)) (fin 0) = false ∧
    F32.lt (PWMTable.cmdAt ⟨[fin 0, fin 1], [1500, 1900]⟩ 0) (fin (8409579 / 16777216)) = true ∧
    F32.lt (fin (8409579 / 16777216)) (PWMTable.cmdAt ⟨[fin 0, fin 1], [1500, 1900]⟩ 1) = true ∧
    computePWMCommand false ⟨[fin 0, fin 1], [1500, 1900]⟩ 1000 (fin (8409579 / 16777216)) =
      .ok 1701 ∧
    F32.roundHalfAway (exactInterpolation 0 1 1500 1900 (8409579 / 16777216)) = 1700 := by
  refine ⟨⟨rfl, rfl⟩, ?_, feq_fin_false _ (by norm_num), (lt_fin_iff _ _).2 (by norm_num),
    (lt_fin_iff _ _).2 (by norm_num), eval_tie false 1000, eval_exact_tie⟩
  have := ofRat_int_mul 8409579 (-24) (by norm_num) (by norm_num) (by norm_num)
  unfold F32.IsRepr
  norm_num at this ⊢
  exact this

/-- Claim C13, amended: for every table with `n >= 2` rows whose commands are
finite binary32 numbers of magnitude at most `2 ^ 100` and whose duty values
lie in `0 .. 2 ^ 21` (non-decreasing along the table when the duty elements
are unsigned), and every non-zero binary32 command with
`cmd[0] < command < cmd[n-1]`: with `i` the index found by the scan, the value
`out` of the code is `duty[i-1] + (duty[i] - duty[i-1]) * (command - cmd[i-1])
/ (cmd[i] - cmd[i-1])` with each of the five operations rounded to binary32,
and `computePWMCommand` returns the nearest integer to `out`, ties away from
zero.  `out` is less than `1` away from the exact value of the formula, and
the result differs by at most `1` from the nearest integer to the exact
value. -/
theorem interpolation_rounding (wraps : Bool) (lut : PWMTable) (W n : ℕ) (c : F32)
    (h : lut.HasRows n) (hn : 2 ≤ n)
    (hcmd : ∀ j, j < n → (lut.cmdAt j).Moderate)
    (hduty : ∀ j, j < n → 0 ≤ lut.dutyAt j ∧ lut.dutyAt j ≤ 2 ^ 21)
    (hw : wraps = true → ∀ j, j + 1 < n → lut.dutyAt j ≤ lut.dutyAt (j + 1))
    (hc : c.IsRepr) (hz : F32.feq c (fin 0) = false)
    (hlo : F32.lt (lut.cmdAt 0) c = true) (hhi : F32.lt c (lut.cmdAt (n - 1)) = true) :
    ∃ (i : ℕ) (x0 x1 cv out : ℚ), 1 ≤ i ∧ i ≤ n - 1 ∧
      scan c (lut.cmd.drop 1) 1 = .ok i ∧
      lut.cmdAt (i - 1) = fin x0 ∧ lut.cmdAt i = fin x1 ∧ c = fin cv ∧
      out = roundNE 24 (-149) (lut.dutyAt (i - 1) + roundNE 24 (-149)
        (roundNE 24 (-149) (((lut.dutyAt i - lut.dutyAt (i - 1) : ℤ) : ℚ) *
          roundNE 24 (-149) (cv - x0)) / roundNE 24 (-149) (x1 - x0))) ∧
      interpolate wraps (lut.cmdAt (i - 1)) (lut.cmdAt i) (lut.dutyAt (i - 1))
        (lut.dutyAt i) c = fin out ∧
      computePWMCommand wraps lut W c = .ok (F32.roundHalfAway out).toNat ∧
      0 ≤ F32.roundHalfAway out ∧
      |(F32.roundHalfAway out : ℚ) - out| ≤ 1 / 2 ∧
      (∀ m : ℤ, |(m : ℚ) - out| ≤ 1 / 2 → m ≠ F32.roundHalfAway out →
        |m| < |F32.roundHalfAway out|) ∧
      |out - exactInterpolation x0 x1 (lut.dutyAt (i - 1)) (lut.dutyAt i) cv| < 1 ∧
      |F32.roundHalfAway out - F32.roundHalfAway
        (exactInterpolation x0 x1 (lut.dutyAt (i - 1)) (lut.dutyAt i) cv)| ≤ 1 := by
  obtain ⟨i, hi1, hin, hscan, hstop, _, hprev⟩ := scan_bracket lut n c h hlo hhi
  have hin2 : i ≤ n - 1 := by omega
  obtain ⟨x0, hx0, hx0r, hx0b⟩ := moderate_fin (hcmd (i - 1) (by omega))
  obtain ⟨x1, hx1, hx1r, hx1b⟩ := moderate_fin (hcmd i hin)
  rw [hx0] at hprev
  rw [hx1] at hstop
  obtain ⟨cv, hcv, h0c, hc1⟩ := between_fin hprev hstop
  subst hcv
  have hwi : wraps = true → lut.dutyAt (i - 1) ≤ lut.dutyAt i := by
    intro hwt
    have := hw hwt (i - 1) (by omega)
    rwa [show i - 1 + 1 = i by omega] at this
  obtain ⟨hD, hDr, hy0r, hsub0, hsub1, hdpos, hp, hq, hr, hr0, hr1, hclose⟩ :=
    interp_facts wraps x0 x1 cv (lut.dutyAt (i - 1)) (lut.dutyAt i) ⟨hx0r, hx0b⟩
      ⟨hx1r, hx1b⟩ hc h0c hc1 (hduty (i - 1) (by omega)) (hduty i hin) hwi
  unfold interpValue at hr hr0 hr1 hclose
  -- the five operations of the source expression, each rounded to binary32
  have hval : interpolate wraps (lut.cmdAt (i - 1)) (lut.cmdAt i) (lut.dutyAt (i - 1))
      (lut.dutyAt i) (fin cv) =
      fin (roundNE 24 (-149) (lut.dutyAt (i - 1) + roundNE 24 (-149)
        (roundNE 24 (-149) (((lut.dutyAt i - lut.dutyAt (i - 1) : ℤ) : ℚ) *
          roundNE 24 (-149) (cv - x0)) / roundNE 24 (-149) (x1 - x0)))) := by
    rw [hx0, hx1]
    unfold interpolate
    rw [hD]
    simp only [F32.ofInt]
    rw [hDr, hy0r, hsub0, hsub1]
    simp only [F32.mul]
    rw [ofRat_of_abs_lt hp]
    simp only [F32.div]
    rw [if_neg (ne_of_gt hdpos), ofRat_of_abs_lt hq]
    simp only [F32.add]
    rw [ofRat_of_abs_lt hr]
  have hcomp := compute_eq_interp wraps lut W n i (fin cv) h hz (le_false_of_lt hlo)
    (le_false_of_lt hhi) hscan hi1 hin
  rw [hval] at hcomp
  refine ⟨i, x0, x1, cv, _, hi1, hin2, hscan, hx0, hx1, rfl, rfl, hval, ?_, hr0,
    (roundHalfAway_nearest _).1, (roundHalfAway_nearest _).2, hclose,
    roundHalfAway_close hclose⟩
  rw [hcomp]
  exact floatToUInt32_round _ hr0 (lt_of_le_of_lt hr1 (by norm_num))

theorem interpolation_rounding_witness :
    ∃ (i : ℕ) (x0 x1 cv out : ℚ), 1 ≤ i ∧ i ≤ 2 - 1 ∧
      scan (fin (1 / 2)) (List.drop 1 (PWMTable.cmd ⟨[fin 0, fin 1], [1500, 1900]⟩)) 1 =
        .ok i ∧
      PWMTable.cmdAt ⟨[fin 0, fin 1], [1500, 1900]⟩ (i - 1) = fin x0 ∧
      PWMTable.cmdAt ⟨[fin 0, fin 1], [1500, 1900]⟩ i = fin x1 ∧ fin (1 / 2) = fin cv ∧
      out = roundNE 24 (-149) (PWMTable.dutyAt ⟨[fin 0, fin 1], [1500, 1900]⟩ (i - 1) +
        roundNE 24 (-149) (roundNE 24 (-149)
          (((PWMTable.dutyAt ⟨[fin 0, fin 1], [1500, 1900]⟩ i -
            PWMTable.dutyAt ⟨[fin 0, fin 1], [1500, 1900]⟩ (i - 1) : ℤ) : ℚ) *
          roundNE 24 (-149) (cv - x0)) / roundNE 24 (-149) (x1 - x0))) ∧
      interpolate false (PWMTable.cmdAt ⟨[fin 0, fin 1], [1500, 1900]⟩ (i - 1))
        (PWMTable.cmdAt ⟨[fin 0, fin 1], [1500, 1900]⟩ i)
        (PWMTable.dutyAt ⟨[fin 0, fin 1], [1500, 1900]⟩ (i - 1))
        (PWMTable.dutyAt ⟨[fin 0, fin 1], [1500, 1900]⟩ i) (fin (1 / 2)) = fin out ∧
      computePWMCommand false ⟨[fin 0, fin 1], [1500, 1900]⟩ 1000 (fin (1 / 2)) =
        .ok (F32.roundHalfAway out).toNat ∧
      0 ≤ F32.roundHalfAway out ∧
      |(F32.roundHalfAway out : ℚ) - out| ≤ 1 / 2 ∧
      (∀ m : ℤ, |(m : ℚ) - out| ≤ 1 / 2 → m ≠ F32.roundHalfAway out →
        |m| < |F32.roundHalfAway out|) ∧
      |out - exactInterpolation x0 x1
        (PWMTable.dutyAt ⟨[fin 0, fin 1], [1500, 1900]⟩ (i - 1))
        (PWMTable.dutyAt ⟨[fin 0, fin 1], [1500, 1900]⟩ i) cv| < 1 ∧
      |F32.roundHalfAway out - F32.roundHalfAway (exactInterpolation x0 x1
        (PWMTable.dutyAt ⟨[fin 0, fin 1], [1500, 1900]⟩ (i - 1))
        (PWMTable.dutyAt ⟨[fin 0, fin 1], [1500, 1900]⟩ i) cv)| ≤ 1 :=
  interpolation_rounding false ⟨[fin 0, fin 1], [1500, 1900]⟩ 1000 2 (fin (1 / 2)) ⟨rfl, rfl⟩
    (by norm_num)
    (by
      intro j hj
      have h0 : F32.ofRat 0 = fin 0 := by simpa using ofRat_intCast 0 (by norm_num)
      have h1 : F32.ofRat 1 = fin 1 := by simpa using ofRat_intCast 1 (by norm_num)
      interval_cases j
      · exact ⟨h0, by norm_num⟩
      · exact ⟨h1, by norm_num⟩)
    (by
      intro j hj
      interval_cases j <;> simp [PWMTable.dutyAt])
    (by simp)
    (by
      have := ofRat_int_mul 1 (-1) (by norm_num) (by norm_num) (by norm_num)
      simp only [F32.IsRepr]
      norm_num at this ⊢
      exact this)
    (feq_fin_false _ (by norm_num)) ((lt_fin_iff _ _).2 (by norm_num))
    ((lt_fin_iff _ _).2 (by norm_num))
/-- Claim C14, as stated, fails: on the one-row table `cmd = [NaN]` the
non-NaN command `1` passes both saturation tests and the scan reads
`lut.cmd[1]`, past the end; on the table `cmd = [NaN, NaN]` the same command
reaches the loop although `cmd[0] < command` does not hold. -/
theorem index_safety_counterexample :
    (PWMTable.HasRows ⟨[nan], [1500]⟩ 1 ∧
      computePWMCommand false ⟨[nan], [1500]⟩ 1000 (fin 1) = .error UB.indexOutOfRange) ∧
    (PWMTable.HasRows ⟨[nan, nan], [1500, 1900]⟩ 2 ∧
      F32.feq (fin 1) (fin 0) = false ∧
      F32.le (fin 1) (PWMTable.cmdAt ⟨[nan, nan], [1500, 1900]⟩ 0) = false ∧
      F32.ge (fin 1) (PWMTable.cmdAt ⟨[nan, nan], [1500, 1900]⟩ (2 - 1)) = false ∧
      F32.lt (PWMTable.cmdAt ⟨[nan, nan], [1500, 1900]⟩ 0) (fin 1) = false) := by
  refine ⟨⟨⟨rfl, rfl⟩, ?_⟩, ⟨rfl, rfl⟩, feq_fin_false 1 (by norm_num), rfl, rfl, rfl⟩
  rw [compute_interp false ⟨[nan], [1500]⟩ 1000 1 (fin 1) ⟨rfl, rfl⟩ (by norm_num)
    (feq_fin_false 1 (by norm_num)) rfl rfl]
  rfl

/-- Claim C14, amended: for every table with `n >= 2` rows, or with one row
when neither the command nor `cmd[0]` is NaN, in any order and with any
duplicates, `computePWMCommand` reads no index outside `0 .. n-1` (its only
possible fault is the float conversion); the loop is reached only when
`n >= 2`, and then the scan stops at an index `i <= n - 1`, after at most
`n - 2` increments; when the command, `cmd[0]` and `cmd[n-1]` are not NaN the
loop is reached only if `cmd[0] < command < cmd[n-1]`. -/
theorem index_safety (wraps : Bool) (lut : PWMTable) (W n : ℕ) (c : F32)
    (h : lut.HasRows n) (hn : 1 ≤ n) (hsafe : 2 ≤ n ∨ (c ≠ nan ∧ lut.cmdAt 0 ≠ nan)) :
    (∀ e, computePWMCommand wraps lut W c = .error e → e = UB.floatToUInt32) ∧
    (F32.feq c (fin 0) = false → F32.le c (lut.cmdAt 0) = false →
      F32.ge c (lut.cmdAt (n - 1)) = false →
      2 ≤ n ∧ ∃ i : ℕ, 1 ≤ i ∧ i ≤ n - 1 ∧ scan c (lut.cmd.drop 1) 1 = .ok i ∧
        computePWMCommand wraps lut W c =
          floatToUInt32 (F32.round (interpolate wraps (lut.cmdAt (i - 1)) (lut.cmdAt i)
            (lut.dutyAt (i - 1)) (lut.dutyAt i) c))) ∧
    (c ≠ nan → lut.cmdAt 0 ≠ nan → lut.cmdAt (n - 1) ≠ nan →
      F32.feq c (fin 0) = false → F32.le c (lut.cmdAt 0) = false →
      F32.ge c (lut.cmdAt (n - 1)) = false →
      F32.lt (lut.cmdAt 0) c = true ∧ F32.lt c (lut.cmdAt (n - 1)) = true) := by
  have hloop : F32.feq c (fin 0) = false → F32.le c (lut.cmdAt 0) = false →
      F32.ge c (lut.cmdAt (n - 1)) = false →
      2 ≤ n ∧ ∃ i : ℕ, 1 ≤ i ∧ i ≤ n - 1 ∧ scan c (lut.cmd.drop 1) 1 = .ok i ∧
        computePWMCommand wraps lut W c =
          floatToUInt32 (F32.round (interpolate wraps (lut.cmdAt (i - 1)) (lut.cmdAt i)
            (lut.dutyAt (i - 1)) (lut.dutyAt i) c)) := by
    intro hz hle hge
    have hn2 : 2 ≤ n := by
      rcases hsafe with h2 | ⟨hc, h0⟩
      · exact h2
      · by_contra hcon
        have hn1 : n - 1 = 0 := by omega
        rw [hn1] at hge
        have := lt_of_le_false hc h0 hle
        rw [F32.ge, le_of_lt_F32 this] at hge
        exact absurd hge (by simp)
    obtain ⟨i, hi1, hin, hscan, _, _⟩ := scan_bound lut n c h hn2 hge
    exact ⟨hn2, i, hi1, by omega, hscan,
      compute_eq_interp wraps lut W n i c h hz hle hge hscan hi1 hin⟩
  refine ⟨?_, hloop, ?_⟩
  · intro e he
    by_cases hz : F32.feq c (fin 0) = true
    · unfold computePWMCommand at he
      rw [if_pos hz] at he
      exact absurd he (by simp)
    · have hz2 : F32.feq c (fin 0) = false := by simpa using hz
      by_cases hle : F32.le c (lut.cmdAt 0) = true
      · rw [compute_low wraps lut W n c h hn hz2 hle] at he
        exact absurd he (by simp)
      · have hle2 : F32.le c (lut.cmdAt 0) = false := by simpa using hle
        by_cases hge : F32.ge c (lut.cmdAt (n - 1)) = true
        · rw [compute_high wraps lut W n c h hn hz2 hle2 hge] at he
          exact absurd he (by simp)
        · have hge2 : F32.ge c (lut.cmdAt (n - 1)) = false := by simpa using hge
          obtain ⟨_, i, _, _, _, hcomp⟩ := hloop hz2 hle2 hge2
          rw [hcomp] at he
          exact floatToUInt32_error _ e he
  · intro hc h0 hl _ hle hge
    exact ⟨lt_of_le_false hc h0 hle, lt_of_le_false hl hc (by simpa [F32.ge] using hge)⟩

theorem index_safety_witness :
    (∀ e, computePWMCommand false ⟨[fin 1, fin 4, fin 2, fin 5], [1100, 1500, 1300, 1900]⟩
        1000 (fin 3) = .error e → e = UB.floatToUInt32) ∧
    (2 ≤ 4 ∧ ∃ i : ℕ, 1 ≤ i ∧ i ≤ 4 - 1 ∧
      scan (fin 3)
        (List.drop 1 (PWMTable.cmd ⟨[fin 1, fin 4, fin 2, fin 5], [1100, 1500, 1300, 1900]⟩))
        1 = .ok i ∧
      computePWMCommand false ⟨[fin 1, fin 4, fin 2, fin 5], [1100, 1500, 1300, 1900]⟩ 1000
          (fin 3) =
        floatToUInt32 (F32.round (interpolate false
          (PWMTable.cmdAt ⟨[fin 1, fin 4, fin 2, fin 5], [1100, 1500, 1300, 1900]⟩ (i - 1))
          (PWMTable.cmdAt ⟨[fin 1, fin 4, fin 2, fin 5], [1100, 1500, 1300, 1900]⟩ i)
          (PWMTable.dutyAt ⟨[fin 1, fin 4, fin 2, fin 5], [1100, 1500, 1300, 1900]⟩ (i - 1))
          (PWMTable.dutyAt ⟨[fin 1, fin 4, fin 2, fin 5], [1100, 1500, 1300, 1900]⟩ i)
          (fin 3)))) ∧
    (F32.lt (PWMTable.cmdAt ⟨[fin 1, fin 4, fin 2, fin 5], [1100, 1500, 1300, 1900]⟩ 0)
        (fin 3) = true ∧
      F32.lt (fin 3)
        (PWMTable.cmdAt ⟨[fin 1, fin 4, fin 2, fin 5], [1100, 1500, 1300, 1900]⟩ (4 - 1)) =
        true) :=
  ⟨(index_safety false ⟨[fin 1, fin 4, fin 2, fin 5], [1100, 1500, 1300, 1900]⟩ 1000 4 (fin 3)
      ⟨rfl, rfl⟩ (by norm_num) (Or.inl (by norm_num))).1,
    (index_safety false ⟨[fin 1, fin 4, fin 2, fin 5], [1100, 1500, 1300, 1900]⟩ 1000 4 (fin 3)
      ⟨rfl, rfl⟩ (by norm_num) (Or.inl (by norm_num))).2.1 (feq_fin_false 3 (by norm_num))
      (le_fin_false 3 1 (by norm_num)) (le_fin_false 5 3 (by norm_num)),
    (index_safety false ⟨[fin 1, fin 4, fin 2, fin 5], [1100, 1500, 1300, 1900]⟩ 1000 4 (fin 3)
      ⟨rfl, rfl⟩ (by norm_num) (Or.inl (by norm_num))).2.2 (by simp)
      (by simp [PWMTable.cmdAt]) (by simp [PWMTable.cmdAt]) (feq_fin_false 3 (by norm_num))
      (le_fin_false 3 1 (by norm_num)) (le_fin_false 5 3 (by norm_num))⟩
/-- Claim C15, as stated, fails: on the table `cmd = [1, 1]` the non-zero
command NaN passes both saturation tests, the scan stops at `i = 1`, and the
denominator `cmd[1] - cmd[0]` of the interpolation is `0`. -/
theorem no_division_by_zero_counterexample :
    PWMTable.HasRows ⟨[fin 1, fin 1], [1500, 1900]⟩ 2 ∧
    F32.feq nan (fin 0) = false ∧
    F32.le nan (PWMTable.cmdAt ⟨[fin 1, fin 1], [1500, 1900]⟩ 0) = false ∧
    F32.ge nan (PWMTable.cmdAt ⟨[fin 1, fin 1], [1500, 1900]⟩ (2 - 1)) = false ∧
    scan nan (List.drop 1 (PWMTable.cmd ⟨[fin 1, fin 1], [1500, 1900]⟩)) 1 = .ok 1 ∧
    F32.sub (PWMTable.cmdAt ⟨[fin 1, fin 1], [1500, 1900]⟩ 1)
      (PWMTable.cmdAt ⟨[fin 1, fin 1], [1500, 1900]⟩ (1 - 1)) = fin 0 ∧
    F32.lt (fin 0) (fin 0) = false := by
  refine ⟨⟨rfl, rfl⟩, rfl, rfl, rfl,
    scan_stops nan [fin 1] 1 0 (by simp) rfl (fun m hm => absurd hm (by omega)), ?_,
    lt_fin_false 0 0 le_rfl⟩
  have h0 : F32.ofRat ((0 : ℤ) : ℚ) = fin ((0 : ℤ) : ℚ) := ofRat_intCast 0 (by norm_num)
  have hs : F32.sub (fin 1) (fin 1) = fin 0 := by
    simp only [F32.sub, F32.neg, F32.add]
    have h1 : (1 : ℚ) + -1 = ((0 : ℤ) : ℚ) := by norm_num
    rw [h1, h0]
    norm_num
  exact hs

/-- Claim C15, amended: for every table with `n >= 1` rows whose commands are
binary32 values other than NaN, unsorted tables and repeated commands
included, and every non-zero command other than NaN that reaches the
interpolation branch, the bracket found by the scan has
`cmd[i-1] < cmd[i]` and the float denominator `cmd[i] - cmd[i-1]` is strictly
positive. -/
theorem no_division_by_zero (wraps : Bool) (lut : PWMTable) (W n : ℕ) (c : F32)
    (h : lut.HasRows n) (hn : 1 ≤ n) (hc : c ≠ nan)
    (hcmd : ∀ j, j < n → lut.cmdAt j ≠ nan ∧ (lut.cmdAt j).IsRepr)
    (hz : F32.feq c (fin 0) = false) (hle : F32.le c (lut.cmdAt 0) = false)
    (hge : F32.ge c (lut.cmdAt (n - 1)) = false) :
    ∃ i : ℕ, 1 ≤ i ∧ i ≤ n - 1 ∧ scan c (lut.cmd.drop 1) 1 = .ok i ∧
      computePWMCommand wraps lut W c =
        floatToUInt32 (F32.round (interpolate wraps (lut.cmdAt (i - 1)) (lut.cmdAt i)
          (lut.dutyAt (i - 1)) (lut.dutyAt i) c)) ∧
      F32.lt (lut.cmdAt (i - 1)) (lut.cmdAt i) = true ∧
      F32.lt (fin 0) (F32.sub (lut.cmdAt i) (lut.cmdAt (i - 1))) = true := by
  have hlo : F32.lt (lut.cmdAt 0) c = true := lt_of_le_false hc (hcmd 0 (by omega)).1 hle
  have hhi : F32.lt c (lut.cmdAt (n - 1)) = true :=
    lt_of_le_false (hcmd (n - 1) (by omega)).1 hc (by simpa [F32.ge] using hge)
  obtain ⟨i, hi1, hin, hscan, hstop, _, hprev⟩ := scan_bracket lut n c h hlo hhi
  have hlt : F32.lt (lut.cmdAt (i - 1)) (lut.cmdAt i) = true :=
    lt_of_lt_of_le_F32 hprev (le_of_gt_false hc (hcmd i hin).1 hstop)
  exact ⟨i, hi1, by omega, hscan,
    compute_eq_interp wraps lut W n i c h hz hle hge hscan hi1 hin, hlt,
    sub_pos_of_lt (hcmd (i - 1) (by omega)).2 (hcmd i hin).2 hlt⟩

theorem no_division_by_zero_witness :
    ∃ i : ℕ, 1 ≤ i ∧ i ≤ 3 - 1 ∧
      scan (fin 2) (List.drop 1 (PWMTable.cmd ⟨[fin 1, fin 1, fin 3], [1100, 1500, 1900]⟩)) 1 =
        .ok i ∧
      computePWMCommand false ⟨[fin 1, fin 1, fin 3], [1100, 1500, 1900]⟩ 1000 (fin 2) =
        floatToUInt32 (F32.round (interpolate false
          (PWMTable.cmdAt ⟨[fin 1, fin 1, fin 3], [1100, 1500, 1900]⟩ (i - 1))
          (PWMTable.cmdAt ⟨[fin 1, fin 1, fin 3], [1100, 1500, 1900]⟩ i)
          (PWMTable.dutyAt ⟨[fin 1, fin 1, fin 3], [1100, 1500, 1900]⟩ (i - 1))
          (PWMTable.dutyAt ⟨[fin 1, fin 1, fin 3], [1100, 1500, 1900]⟩ i) (fin 2))) ∧
      F32.lt (PWMTable.cmdAt ⟨[fin 1, fin 1, fin 3], [1100, 1500, 1900]⟩ (i - 1))
        (PWMTable.cmdAt ⟨[fin 1, fin 1, fin 3], [1100, 1500, 1900]⟩ i) = true ∧
      F32.lt (fin 0) (F32.sub (PWMTable.cmdAt ⟨[fin 1, fin 1, fin 3], [1100, 1500, 1900]⟩ i)
        (PWMTable.cmdAt ⟨[fin 1, fin 1, fin 3], [1100, 1500, 1900]⟩ (i - 1))) = true :=
  no_division_by_zero false ⟨[fin 1, fin 1, fin 3], [1100, 1500, 1900]⟩ 1000 3 (fin 2)
    ⟨rfl, rfl⟩ (by norm_num) (by simp)
    (by
      intro j hj
      have h1 : F32.ofRat ((1 : ℤ) : ℚ) = fin ((1 : ℤ) : ℚ) := ofRat_intCast 1 (by norm_num)
      have h3 : F32.ofRat ((3 : ℤ) : ℚ) = fin ((3 : ℤ) : ℚ) := ofRat_intCast 3 (by norm_num)
      norm_num at h1 h3
      interval_cases j
      · exact ⟨by simp [PWMTable.cmdAt], h1⟩
      · exact ⟨by simp [PWMTable.cmdAt], h1⟩
      · exact ⟨by simp [PWMTable.cmdAt], h3⟩)
    (feq_fin_false 2 (by norm_num)) (le_fin_false 2 1 (by norm_num))
    (le_fin_false 3 2 (by norm_num))
/-- Claim C16, as stated, fails: on the table `cmd = [1, 4, 5]`,
`duty = [0, 5592409, 5592409]` the command `4` is answered `5592410`, above
every duty value of the table; on the table with commands `-2^127`, `2^127`,
`3 * 2^126` the command `2^127` has no defined answer (`x1 - x0` overflows);
with unsigned duty elements the falling table `duty = [1900, 1500, 1500]` has
no defined answer at the command `2`. -/
theorem global_range_counterexample :
    (computePWMCommand false ⟨[fin 1, fin 4, fin 5], [0, 5592409, 5592409]⟩ 1000 (fin 4) =
        .ok 5592410 ∧
      ∀ y ∈ PWMTable.duty_cycle_width ⟨[fin 1, fin 4, fin 5], [0, 5592409, 5592409]⟩,
        y < ((5592410 : ℕ) : ℤ)) ∧
    computePWMCommand false
        ⟨[fin (-(2 ^ 127)), fin (2 ^ 127), fin (3 * 2 ^ 126)], [1500, 1900, 1900]⟩ 1000
        (fin (2 ^ 127)) = .error UB.floatToUInt32 ∧
    computePWMCommand true ⟨[fin 1, fin 2, fin 3], [1900, 1500, 1500]⟩ 1000 (fin 2) =
      .error UB.floatToUInt32 := by
  refine ⟨⟨eval_large_duty false 1000, ?_⟩, eval_overflow false 1000, eval_wrapped 1000⟩
  intro y hy
  simp only [List.mem_cons, List.mem_singleton, List.not_mem_nil, or_false] at hy
  rcases hy with rfl | rfl | rfl <;> norm_num

/-- Claim C16, amended: for every table with `n >= 1` rows, sorted or not,
whose commands are finite binary32 numbers of magnitude at most `2 ^ 100` and
whose duty values lie in `0 .. 2 ^ 21` (non-decreasing along the table when
the duty elements are unsigned, `wraps = true`), and every binary32 command
other than NaN: the command `0` is answered with the no-actuation width and
every other command with a value between two duty values of the table, hence
between their minimum and their maximum. -/
theorem global_range (wraps : Bool) (lut : PWMTable) (W n : ℕ) (c : F32)
    (h : lut.HasRows n) (hn : 1 ≤ n)
    (hcmd : ∀ j, j < n → (lut.cmdAt j).Moderate)
    (hduty : ∀ j, j < n → 0 ≤ lut.dutyAt j ∧ lut.dutyAt j ≤ 2 ^ 21)
    (hw : wraps = true → ∀ j, j + 1 < n → lut.dutyAt j ≤ lut.dutyAt (j + 1))
    (hc : c.IsRepr) (hnan : c ≠ nan) :
    (F32.feq c (fin 0) = true → computePWMCommand wraps lut W c = .ok W) ∧
    (F32.feq c (fin 0) = false →
      ∃ (v a b : ℕ), computePWMCommand wraps lut W c = .ok v ∧ a < n ∧ b < n ∧
        lut.dutyAt a ≤ (v : ℤ) ∧ (v : ℤ) ≤ lut.dutyAt b) := by
  constructor
  · intro hz
    unfold computePWMCommand
    rw [if_pos hz]
  · intro hz
    rcases compute_cases wraps lut W n c h hn hcmd hnan hz with ⟨_, hres⟩ | ⟨_, _, hres⟩ |
      ⟨hlo, hhi⟩
    · have hu := (toUInt32_of_range (hduty 0 (by omega)).1 (hduty 0 (by omega)).2).2
      exact ⟨_, 0, 0, hres, by omega, by omega, by rw [hu], by rw [hu]⟩
    · have hu := (toUInt32_of_range (hduty (n - 1) (by omega)).1
        (hduty (n - 1) (by omega)).2).2
      exact ⟨_, n - 1, n - 1, hres, by omega, by omega, by rw [hu], by rw [hu]⟩
    · obtain ⟨i, v, hi1, hin, _, _, hres, hmin, hmax⟩ :=
        compute_bracket_range wraps lut W n c h hcmd hduty hw hc hz hlo hhi
      rcases le_total (lut.dutyAt (i - 1)) (lut.dutyAt i) with hle | hle
      · rw [min_eq_left hle] at hmin
        rw [max_eq_right hle] at hmax
        exact ⟨v, i - 1, i, hres, by omega, hin, hmin, hmax⟩
      · rw [min_eq_right hle] at hmin
        rw [max_eq_left hle] at hmax
        exact ⟨v, i, i - 1, hres, hin, by omega, hmin, hmax⟩

theorem global_range_witness :
    ∃ (v a b : ℕ),
      computePWMCommand false ⟨[fin (-1), fin 1], [1100, 1900]⟩ 1500 (fin (1 / 2)) = .ok v ∧
      a < 2 ∧ b < 2 ∧
      PWMTable.dutyAt ⟨[fin (-1), fin 1], [1100, 1900]⟩ a ≤ (v : ℤ) ∧
      (v : ℤ) ≤ PWMTable.dutyAt ⟨[fin (-1), fin 1], [1100, 1900]⟩ b :=
  (global_range false ⟨[fin (-1), fin 1], [1100, 1900]⟩ 1500 2 (fin (1 / 2)) ⟨rfl, rfl⟩
    (by norm_num)
    (by
      intro j hj
      have hm1 : F32.ofRat (-1) = fin (-1) := by simpa using ofRat_intCast (-1) (by norm_num)
      have h1 : F32.ofRat 1 = fin 1 := by simpa using ofRat_intCast 1 (by norm_num)
      interval_cases j
      · exact ⟨hm1, by norm_num⟩
      · exact ⟨h1, by norm_num⟩)
    (by
      intro j hj
      interval_cases j <;> simp [PWMTable.dutyAt])
    (by simp)
    (by
      have := ofRat_int_mul 1 (-1) (by norm_num) (by norm_num) (by norm_num)
      simp only [F32.IsRepr]
      norm_num at this ⊢
      exact this)
    (by simp)).2 (feq_fin_false _ (by norm_num))
/-- Claim C17, as stated, fails: the table `cmd = [1, 4, 5]`,
`duty = [0, 5592409, 5592409]` has both sequences non-decreasing, and the
non-zero commands `4 <= 9/2` are answered `5592410` and `5592409`: the
binary32 product `5592409 * 3` rounds up, so the answer at the calibration
point `4` exceeds the duty value stored there, which the flat bracket above
returns unchanged. -/
theorem monotonicity_counterexample :
    PWMTable.NonDecreasing ⟨[fin 1, fin 4, fin 5], [0, 5592409, 5592409]⟩ ∧
    List.Chain' (fun (x y : ℤ) => x ≤ y)
      (PWMTable.duty_cycle_width ⟨[fin 1, fin 4, fin 5], [0, 5592409, 5592409]⟩) ∧
    F32.feq (fin 4) (fin 0) = false ∧ F32.feq (fin (9 / 2)) (fin 0) = false ∧
    F32.le (fin 4) (fin (9 / 2)) = true ∧
    computePWMCommand false ⟨[fin 1, fin 4, fin 5], [0, 5592409, 5592409]⟩ 1000 (fin 4) =
      .ok 5592410 ∧
    computePWMCommand false ⟨[fin 1, fin 4, fin 5], [0, 5592409, 5592409]⟩ 1000
      (fin (9 / 2)) = .ok 5592409 ∧
    ¬ ((5592410 : ℕ) ≤ 5592409) := by
  refine ⟨?_, ?_, feq_fin_false 4 (by norm_num), feq_fin_false (9 / 2) (by norm_num),
    (le_fin_iff 4 (9 / 2)).2 (by norm_num), eval_large_duty false 1000,
    eval_flat_bracket false 1000, by norm_num⟩
  · simp [PWMTable.NonDecreasing, F32.le]
    norm_num
  · simp

/-- Claim C17, amended: for every table with `n >= 1` rows whose commands are
finite binary32 numbers of magnitude at most `2 ^ 100` (sorted or not) and
whose duty values lie in `0 .. 2 ^ 21` and are non-decreasing along the
table, and for all non-zero binary32 commands `a <= b`: both commands are
answered, and the answer to `a` is at most the answer to `b`. -/
theorem monotonicity (wraps : Bool) (lut : PWMTable) (W n : ℕ) (a b : F32)
    (h : lut.HasRows n) (hn : 1 ≤ n)
    (hcmd : ∀ j, j < n → (lut.cmdAt j).Moderate)
    (hduty : ∀ j, j < n → 0 ≤ lut.dutyAt j ∧ lut.dutyAt j ≤ 2 ^ 21)
    (hd : ∀ j, j + 1 < n → lut.dutyAt j ≤ lut.dutyAt (j + 1))
    (ha : a.IsRepr) (hb : b.IsRepr)
    (haz : F32.feq a (fin 0) = false) (hbz : F32.feq b (fin 0) = false)
    (hab : F32.le a b = true) :
    ∃ va vb : ℕ, computePWMCommand wraps lut W a = .ok va ∧
      computePWMCommand wraps lut W b = .ok vb ∧ va ≤ vb := by
  obtain ⟨han, hbn⟩ := ne_nan_of_le hab
  have hm := duty_mono lut n hd
  obtain ⟨ra, hra, hra0, hra1⟩ :=
    compute_range_ends wraps lut W n a h hn hcmd hduty hd ha han haz
  obtain ⟨rb, hrb, hrb0, hrb1⟩ :=
    compute_range_ends wraps lut W n b h hn hcmd hduty hd hb hbn hbz
  have hu0 := (toUInt32_of_range (hduty 0 (by omega)).1 (hduty 0 (by omega)).2).2
  have hu1 := (toUInt32_of_range (hduty (n - 1) (by omega)).1
    (hduty (n - 1) (by omega)).2).2
  rcases compute_cases wraps lut W n a h hn hcmd han haz with ⟨_, hres⟩ | ⟨halo, hahi, hres⟩ |
    ⟨halo, hahi⟩
  · -- a at or below the first command
    refine ⟨_, rb, hres, hrb, ?_⟩
    have : ((toUInt32 (lut.dutyAt 0) : ℕ) : ℤ) ≤ (rb : ℤ) := by rw [hu0]; exact hrb0
    exact_mod_cast this
  · -- a at or above the last command: so is b
    have hblo : F32.lt (lut.cmdAt 0) b = true := lt_of_lt_of_le_F32 halo hab
    have hbhi : F32.le (lut.cmdAt (n - 1)) b = true := le_trans_F32 hahi hab
    rcases compute_cases wraps lut W n b h hn hcmd hbn hbz with ⟨hble, _⟩ | ⟨_, _, hresb⟩ |
      ⟨_, hbhi2⟩
    · rw [le_false_of_lt hblo] at hble
      exact absurd hble (by simp)
    · exact ⟨_, _, hres, hresb, le_rfl⟩
    · rw [le_false_of_lt hbhi2] at hbhi
      exact absurd hbhi (by simp)
  · -- a strictly inside the table
    rcases compute_cases wraps lut W n b h hn hcmd hbn hbz with ⟨hble, _⟩ | ⟨_, _, hresb⟩ |
      ⟨hblo, hbhi⟩
    · have h1 := le_trans_F32 hab hble
      rw [le_false_of_lt halo] at h1
      exact absurd h1 (by simp)
    · refine ⟨ra, _, hra, hresb, ?_⟩
      have : (ra : ℤ) ≤ ((toUInt32 (lut.dutyAt (n - 1)) : ℕ) : ℤ) := by rw [hu1]; exact hra1
      exact_mod_cast this
    · obtain ⟨ia, wa, hia1, hian, hale, hamin, hresa, _, hamax⟩ :=
        compute_bracket_range wraps lut W n a h hcmd hduty (fun _ => hd) ha haz halo hahi
      obtain ⟨ib, wb, hib1, hibn, hble, hbmin, hresb, hbminv, _⟩ :=
        compute_bracket_range wraps lut W n b h hcmd hduty (fun _ => hd) hb hbz hblo hbhi
      have hiab : ia ≤ ib := by
        by_contra hlt
        have h1 := hamin ib hib1 (by omega)
        rw [le_trans_F32 hab hble] at h1
        exact absurd h1 (by simp)
      rcases Nat.eq_or_lt_of_le hiab with heq | hlt
      · -- the same bracket
        subst heq
        obtain ⟨x0, x1, av, hx0, hx1, hav, hdpos, ha0, hvala⟩ :=
          compute_value wraps lut W n ia a h hcmd hduty (fun _ => hd) ha haz halo hahi
            hia1 hian hale hamin
        obtain ⟨x0b, x1b, bv, hx0b, hx1b, hbv, _, hb0, hvalb⟩ :=
          compute_value wraps lut W n ia b h hcmd hduty (fun _ => hd) hb hbz hblo hbhi
            hia1 hian hble hbmin
        have e0 : x0b = x0 := F32.fin.inj (hx0b.symm.trans hx0)
        have e1 : x1b = x1 := F32.fin.inj (hx1b.symm.trans hx1)
        subst e0 e1
        subst hav hbv
        have habv : av ≤ bv := (le_fin_iff av bv).1 hab
        have hy : lut.dutyAt (ia - 1) ≤ lut.dutyAt ia := hm ia (ia - 1) (by omega) hian
        have hmono := roundHalfAway_mono
          (interpValue_mono x0b x1b (lut.dutyAt (ia - 1)) (lut.dutyAt ia) hdpos hy habv)
        exact ⟨_, _, hvala, hvalb, Int.toNat_le_toNat hmono⟩
      · -- a lower bracket
        refine ⟨wa, wb, hresa, hresb, ?_⟩
        have h1 : lut.dutyAt (ia - 1) ≤ lut.dutyAt ia := hm ia (ia - 1) (by omega) hian
        have h2 : lut.dutyAt (ib - 1) ≤ lut.dutyAt ib := hm ib (ib - 1) (by omega) hibn
        have h3 : lut.dutyAt ia ≤ lut.dutyAt (ib - 1) := hm (ib - 1) ia (by omega) (by omega)
        rw [max_eq_right h1] at hamax
        rw [min_eq_left h2] at hbminv
        have : (wa : ℤ) ≤ (wb : ℤ) := by linarith
        exact_mod_cast this

theorem monotonicity_witness :
    ∃ va vb : ℕ,
      computePWMCommand false ⟨[fin (-1), fin 0, fin 1], [1100, 1500, 1900]⟩ 1500
        (fin (1 / 4)) = .ok va ∧
      computePWMCommand false ⟨[fin (-1), fin 0, fin 1], [1100, 1500, 1900]⟩ 1500
        (fin (1 / 2)) = .ok vb ∧ va ≤ vb :=
  monotonicity false ⟨[fin (-1), fin 0, fin 1], [1100, 1500, 1900]⟩ 1500 3
    (fin (1 / 4)) (fin (1 / 2)) ⟨rfl, rfl⟩ (by norm_num)
    (by
      intro j hj
      have hm1 : F32.ofRat (-1) = fin (-1) := by simpa using ofRat_intCast (-1) (by norm_num)
      have h0 : F32.ofRat 0 = fin 0 := by simpa using ofRat_intCast 0 (by norm_num)
      have h1 : F32.ofRat 1 = fin 1 := by simpa using ofRat_intCast 1 (by norm_num)
      interval_cases j
      · exact ⟨hm1, by norm_num⟩
      · exact ⟨h0, by norm_num⟩
      · exact ⟨h1, by norm_num⟩)
    (by
      intro j hj
      interval_cases j <;> simp [PWMTable.dutyAt])
    (by
      intro j hj
      have hj2 : j < 2 := by omega
      interval_cases j <;> simp [PWMTable.dutyAt])
    (by
      have := ofRat_int_mul 1 (-2) (by norm_num) (by norm_num) (by norm_num)
      simp only [F32.IsRepr]
      norm_num at this ⊢
      exact this)
    (by
      have := ofRat_int_mul 1 (-1) (by norm_num) (by norm_num) (by norm_num)
      simp only [F32.IsRepr]
      norm_num at this ⊢
      exact this)
    (feq_fin_false (1 / 4) (by norm_num)) (feq_fin_false (1 / 2) (by norm_num))
    ((le_fin_iff (1 / 4) (1 / 2)).2 (by norm_num))
/-- Claim C18: every row read by `std::getline`, an empty one included,
appends exactly one row to the table; a row without a comma gives
`cmd = atof(row)` and `duty = atoi(row)`, both parsed from the whole row (for
any `atof`, `atoi`); with the C library parsers an empty row gives the row
`(0.0, 0)`, and a blank last line appends that row to the table. -/
theorem loader_other_lines (atof2 : List Char → F32) (atoi2 : List Char → ℤ) (wraps : Bool)
    (text : List Char) :
    (∃ table : PWMTable,
      loadCommandToPWMTable atof2 atoi2 wraps (some text) = .ok table ∧
      table.HasRows (getlines text []).length ∧
      ∀ (i : ℕ) (row : List Char), (getlines text [])[i]? = some row → ',' ∉ row →
        row.length < 2 ^ 64 →
        table.cmd[i]? = some (F32.doubleToFloat (atof2 row)) ∧
        table.duty_cycle_width[i]? = some (storeDuty wraps (atoi2 row))) ∧
    (∃ table : PWMTable,
      loadCommandToPWMTable atof atoi wraps (some text) = .ok table ∧
      ∀ i : ℕ, (getlines text [])[i]? = some [] →
        table.cmd[i]? = some (fin 0) ∧ table.duty_cycle_width[i]? = some 0) ∧
    (∃ table : PWMTable,
      loadCommandToPWMTable atof atoi wraps (some (text ++ ['\n'])) = .ok table ∧
      loadCommandToPWMTable atof atoi wraps (some (text ++ ['\n', '\n'])) =
        .ok ⟨table.cmd ++ [fin 0], table.duty_cycle_width ++ [0]⟩) := by
  have hrow : ∀ (a : List Char → F32) (b : List Char → ℤ) (row : List Char),
      ',' ∉ row → row.length < 2 ^ 64 →
      F32.doubleToFloat (a (substr row 0 (find row ','))) = F32.doubleToFloat (a row) ∧
      storeDuty wraps (b (substr row ((find row ',' + 1) % 2 ^ 64) npos)) =
        storeDuty wraps (b row) := by
    intro a b row hcomma hlen
    rw [find_of_not_mem row ',' hcomma, (substr_whole row hlen).1, (substr_whole row hlen).2]
    exact ⟨rfl, rfl⟩
  have hnil := hrow atof atoi [] (by simp) (by simp)
  rw [atof_nil, atoi_nil, doubleToFloat_zero, storeDuty_zero] at hnil
  refine ⟨⟨_, rfl, ?_, ?_⟩, ⟨_, rfl, ?_⟩, ⟨_, rfl, ?_⟩⟩
  · simp [PWMTable.HasRows, loadRows_eq]
  · intro i row hi hcomma hlen
    rw [loadRows_eq]
    simp only [List.nil_append, List.getElem?_map, hi, Option.map_some']
    rw [(hrow atof2 atoi2 row hcomma hlen).1, (hrow atof2 atoi2 row hcomma hlen).2]
    exact ⟨rfl, rfl⟩
  · intro i hi
    rw [loadRows_eq]
    simp only [List.nil_append, List.getElem?_map, hi, Option.map_some']
    rw [hnil.1, hnil.2]
    exact ⟨rfl, rfl⟩
  · unfold loadCommandToPWMTable
    simp only
    rw [getlines_blank_last, loadRows_eq, loadRows_eq]
    simp only [List.nil_append, List.map_append, List.map_cons, List.map_nil]
    rw [hnil.1, hnil.2]

theorem loader_other_lines_witness :
    ∃ table : PWMTable,
      loadCommandToPWMTable atof atoi false (some ("0.5,1650".toList ++ ['\n'])) = .ok table ∧
      loadCommandToPWMTable atof atoi false (some ("0.5,1650".toList ++ ['\n', '\n'])) =
        .ok ⟨table.cmd ++ [fin 0], table.duty_cycle_width ++ [0]⟩ :=
  (loader_other_lines atof atoi false "0.5,1650".toList).2.2
end T500
